import Mathlib

/-!
# augtool: a shallow embedding of `src/augtool.c`

The interactive shell of Augeas drives an external tree store (`libaugeas`)
through the line editor, a one-shot command mode, a read-eval loop and a Lua
bridge.  This file embeds the functions of `augtool.c` as Lean definitions and
proves properties of them.

Conventions of the embedding

* A C string is the list of its characters before the terminating NUL
  (`List Char`).
* The tree store, the Lua runtime and the terminal are external.  They appear
  as parameters: a value of `Augeas σ` gives the behaviour of every library
  entry point on an abstract store state `σ`, which is threaded through the
  calls in program order.
* `static` variables of a function become an explicit state record that the
  function receives and returns.
* Heap allocation is taken to succeed, with one exception: a `realloc` whose
  `size_t` argument has wrapped around asks for more than `PTRDIFF_MAX` bytes
  and returns `NULL` on every implementation.  The contents of a block that
  was freed, or handed to a `realloc` that succeeded, are not modelled: a read
  through the old pointer is undefined.
* Behaviour that C leaves undefined (an out-of-bounds read, a `realloc` of
  size zero followed by `free`, a read through a pointer whose block was
  handed to `realloc`) is a separate outcome, never a silent default.
-/

namespace Augtool

/-! ## C strings -/

/-- Modelled from the spec: `SEP` is declared in `internal.h`, which is not
among the sources; it is the path separator, the character that `augtool.c`
itself appends literally as `"/"`. -/
def SEP : Char := '/'

/-- Modelled from the spec: `AUGEAS_CONTEXT` is declared in `internal.h`, which
is not among the sources; it is the path of the node that holds the current
editing context.  No theorem depends on its spelling. -/
def AUGEAS_CONTEXT : List Char := "/augeas/context".toList

/-- The index of the last occurrence of `c` in `s`, as `strrchr(s, c) - s`;
`none` is the `NULL` result. -/
def strrchr (s : List Char) (c : Char) : Option Nat :=
  match s with
  | [] => none
  | x :: rest =>
    match strrchr rest c with
    | some i => some (i + 1)
    | none => if x = c then some 0 else none

/-- Modelled from the spec: `STREQLEN(a, b, n)` is a macro of `internal.h`
(not among the sources) for `strncmp(a, b, n) == 0`: the first `n` characters
of both strings agree, a string that ends earlier counting as different. -/
def STREQLEN (a b : List Char) (n : Nat) : Bool :=
  a.take n == b.take n

/-- Width of `size_t` arithmetic: `SIZE_MAX + 1` on an LP64 platform. -/
def SIZE_MOD : Int := 18446744073709551616

/-- Largest object size an allocator can provide (`PTRDIFF_MAX`). -/
def PTRDIFF_MAX : Int := 9223372036854775807

/-! ## The tree store -/

/-- One call into `libaugeas`, with its arguments.  `aug_match` records whether
the caller passed a non-`NULL` `matches` pointer; `aug_defnode` may receive a
`NULL` value. -/
inductive AugCall where
  | aug_srun (text : List Char)
  | aug_get (path : List Char)
  | aug_label (path : List Char)
  | aug_set (path value : List Char)
  | aug_setm (base sub value : List Char)
  | aug_insert (path label : List Char) (before : Bool)
  | aug_rm (path : List Char)
  | aug_mv (src dst : List Char)
  | aug_cp (src dst : List Char)
  | aug_rename (src lbl : List Char)
  | aug_match (path : List Char) (want_paths : Bool)
  | aug_defvar (name expr : List Char)
  | aug_defnode (name expr : List Char) (value : Option (List Char))
  | aug_save
  | aug_load
  | aug_text_store (lens node path : List Char)
  | aug_text_retrieve (lens node_in path node_out : List Char)
  | aug_transform (lens file : List Char) (excl : Bool)
  deriving DecidableEq

/-- What a call into `libaugeas` hands back: the `int` result `r`, the string
stored through a `const char **` argument (`none` for `NULL`), and the array
stored through a `char ***` argument. -/
structure AugReply where
  r : Int
  value : Option (List Char)
  paths : List (List Char)
  deriving DecidableEq

/-- Error codes of `aug_error` that `augtool.c` distinguishes. -/
inductive AugErrCode where
  | AUG_NOERROR
  | AUG_ENOMEM
  | other
  deriving DecidableEq

/-- The tree store as the shell sees it: the effect of every call on the store
state, and the read-only error accessors. -/
structure Augeas (σ : Type) where
  call : σ → AugCall → AugReply × σ
  aug_error : σ → AugErrCode
  aug_error_message : σ → List Char
  aug_error_minor_message : σ → Option (List Char)
  aug_error_details : σ → Option (List Char)

/-! ## Completion engine -/

/-- Lines 86-100: number of children of `path`, by matching `path/*` (or
`path*` when `path` already ends in the separator).  At its only call site
`path` contains a separator, so `path[strlen(path)-1]` is in bounds. -/
def child_count {σ : Type} (aug : Augeas σ) (h : σ) (path : List Char) : Int × σ :=
  let pat := if path.getLast? = some SEP then path ++ ['*'] else path ++ ['/', '*']
  let (rep, h1) := aug.call h (AugCall.aug_match pat false)
  (rep.r, h1)

/-- The `static` variables of `readline_path_generator`. -/
structure PathGenState where
  current : Nat
  children : List (List Char)
  nchildren : Int
  ctx : Option (List Char)
  deriving DecidableEq

/-- Initial values of the `static` variables of `readline_path_generator`. -/
def PathGenState.init : PathGenState :=
  { current := 0, children := [], nchildren := 0, ctx := none }

/-- Outcome of one call of a completion generator: a candidate string, `NULL`
(no more results), or behaviour that C does not define. -/
inductive Completion where
  | candidate (s : List Char)
  | no_more
  | undefined
  deriving DecidableEq

/-- The argument of the `realloc` at line 159,
`strlen(child) - strlen(ctx) + 1`, computed in `size_t`. -/
def strip_size (child ctx : List Char) : Int :=
  ((child.length : Int) - (ctx.length : Int) + 1) % SIZE_MOD

/-- Lines 158-169: strip the context from a candidate.  A wrapped size makes
`realloc` fail, and the generator returns `NULL` (lines 160-163).  Otherwise
`realloc(child, size)` has succeeded and the block `child` pointed to is no
longer an object of the program, whether or not the new block `c` has the same
address; lines 164-167 go on to read `child[ctxidx]` and to copy from
`&child[ctxidx]` into `c` through that old pointer.  C does not define the
result, whatever the two strings are.  A size of zero is part of this case:
the block is freed and then used, or freed again. -/
def strip_context (ctx child : List Char) : Completion :=
  let size := strip_size child ctx
  if size > PTRDIFF_MAX then Completion.no_more
  else Completion.undefined

/-- Lines 141-178: the `while (current < nchildren)` loop; `n` is the number of
iterations left, `nchildren - current`.  Returns the outcome, the new value of
`current` and the store state. -/
def path_scan {σ : Type} (aug : Augeas σ) (end_ : List Char) (ctx : Option (List Char))
    (children : List (List Char)) : Nat → Nat → σ → Completion × Nat × σ
  | 0, current, h => (Completion.no_more, current, h)
  | n + 1, current, h =>
    match children[current]? with
    | none => (Completion.undefined, current, h)
    | some child =>
      match strrchr child SEP with
      | none => (Completion.undefined, current + 1, h)
      | some j =>
        let chend := child.drop (j + 1)
        if STREQLEN chend end_ end_.length then
          let (cc, h1) := child_count aug h child
          let child1 := if cc > 0 then child ++ ['/'] else child
          match ctx with
          | none => (Completion.candidate child1, current + 1, h1)
          | some c => (strip_context c child1, current + 1, h1)
        else path_scan aug end_ ctx children n (current + 1) h

/-- Lines 113-123: the query path of a cycle: the typed text up to and
including its last separator followed by `*`, or `*` alone when the text has no
separator. -/
def query_path (text : List Char) : List Char :=
  match strrchr text SEP with
  | none => ['*']
  | some i => text.take (i + 1) ++ ['*']

/-- Lines 112-136: the `state == 0` block.  The entries not yet consumed are
freed, the cache is replaced by the result of `aug_match` on the query path,
the cursor is reset, and the context is fetched unless the query path starts
at the root. -/
def path_restart {σ : Type} (aug : Augeas σ) (text : List Char) (st : PathGenState)
    (h : σ) : PathGenState × σ :=
  let path := query_path text
  let (rep, h1) := aug.call h (AugCall.aug_match path true)
  let st := { st with children := rep.paths, nchildren := rep.r }
  let st := { st with current := 0 }
  let st := { st with ctx := none }
  if path.head? ≠ some SEP then
    let (g, h2) := aug.call h1 (AugCall.aug_get AUGEAS_CONTEXT)
    ({ st with ctx := g.value }, h2)
  else (st, h1)

/-- Lines 102-179.  `end` is the part of `text` after its last separator, or
all of `text`.  The display variables of the line editor that the function
sets before it returns a candidate are not modelled. -/
def readline_path_generator {σ : Type} (aug : Augeas σ) (text : List Char) (state : Nat)
    (st : PathGenState) (h : σ) : Completion × PathGenState × σ :=
  let end0 := (strrchr text SEP).map (fun i => text.drop (i + 1))
  let (st1, h1) := if state = 0 then path_restart aug text st h else (st, h)
  let end1 := end0.getD text
  let (res, current, h2) :=
    path_scan aug end1 st1.ctx st1.children (st1.nchildren - st1.current).toNat st1.current h1
  (res, { st1 with current := current }, h2)

/-- One completion cycle as the line editor drives it: a call with `state` 0,
then calls with `state` 1, 2, ... until a call returns something other than a
candidate.  The list holds the outcome of every call made; `fuel` bounds the
number of calls. -/
def path_cycle {σ : Type} (aug : Augeas σ) (text : List Char) :
    Nat → Nat → PathGenState → σ → List Completion
  | 0, _, _, _ => []
  | fuel + 1, state, st, h =>
    match readline_path_generator aug text state st h with
    | (Completion.candidate c, st1, h1) =>
      Completion.candidate c :: path_cycle aug text fuel (state + 1) st1 h1
    | (res, _, _) => [res]

/-- Lines 183-188: the keyword table, without its `NULL` terminator. -/
def commands : List (List Char) :=
  ["quit", "clear", "defnode", "defvar",
   "get", "label", "ins", "load", "ls", "match",
   "mv", "cp", "rename", "print", "dump-xml", "rm", "save", "set", "setm",
   "clearm", "span", "store", "retrieve", "transform",
   "help", "touch", "insert", "move", "copy", "errors"].map String.toList

/-- Lines 197-202: the `while ((name = commands[current]) != NULL)` loop over
the entries from `current` on; the empty list is the `NULL` terminator. -/
def command_scan (text : List Char) : List (List Char) → Nat → Option (List Char) × Nat
  | [], current => (none, current)
  | name :: rest, current =>
    if STREQLEN text name text.length then (some name, current + 1)
    else command_scan text rest (current + 1)

/-- Lines 181-203; the argument and result `current` is the `static` cursor.
The cursor never passes the terminator, so `commands.drop current` is the part
of the table the loop still reads.  The display variable of the line editor
that the function sets is not modelled. -/
def readline_command_generator (text : List Char) (state : Nat) (current : Nat) :
    Option (List Char) × Nat :=
  let current := if state = 0 then 0 else current
  command_scan text (commands.drop current) current

/-- One completion cycle of the command generator: a call with `state` 0, then
calls with non-zero `state` until `NULL` comes back.  Returns the candidates
and whether `NULL` was reached within `fuel` calls. -/
def command_cycle (text : List Char) : Nat → Nat → Nat → List (List Char) × Bool
  | 0, _, _ => ([], false)
  | fuel + 1, state, current =>
    match readline_command_generator text state current with
    | (none, _) => ([], true)
    | (some name, current1) =>
      let rest := command_cycle text fuel (state + 1) current1
      (name :: rest.1, rest.2)

/-! ## Command dispatcher -/

/-- The fields of `struct timeval` the shell reads. -/
structure timeval where
  tv_sec : Int
  tv_usec : Int
  deriving DecidableEq

/-- What a run leaves behind, in program order: text written to the output and
error streams, the calls that run a line, the lines the line editor returned,
the streams reopened, and a marker for the synthesized `save`, which has no
output of its own. -/
inductive Event where
  /-- Text written to `stdout` by `printf`. -/
  | out (text : List Char)
  /-- Line 449: `printf("Time: %ld ms\n", elapsed)`. -/
  | time_ms (elapsed : Int)
  /-- Line 782: `printf("Saved %d file(s)\n", r)`. -/
  | saved (files : Int)
  /-- Text written to `stderr`, by `fprintf`, `fputs` or `perror`. -/
  | err (text : List Char)
  /-- An `aug_srun(aug, stdout, line)` and its result. -/
  | srun (line : List Char) (result : Int)
  /-- A chunk run by `luaL_loadbuffer(...) || lua_pcall(...)` and whether the
  result was non-zero. -/
  | lua (line : List Char) (failed : Bool)
  /-- An `add_history(line)`. -/
  | add_history (line : List Char)
  /-- A return of `readline`; `none` is `NULL`, the end of input. -/
  | readline (line : Option (List Char))
  /-- Line 976: `freopen("/dev/tty", "r", stdin)` and whether it succeeded;
  the first statement with an effect outside the process in the fallback. -/
  | reopen_stdin_tty (ok : Bool)
  /-- Line 989: `freopen("/dev/tty", "w", stdout)` and whether it succeeded. -/
  | reopen_stdout_tty (ok : Bool)
  /-- Marker for lines 999-1003: the line `save` is synthesized. -/
  | autosave
  deriving DecidableEq

/-- The external collaborators of the shell: the tree store, the clock read by
`gettimeofday`, and the Lua runtime (running one chunk, running a file, and the
message on top of its stack).  All of them act on the world state `σ`. -/
structure Shell (σ : Type) where
  aug : Augeas σ
  gettimeofday : σ → timeval
  lua_line : σ → List Char → Bool × σ
  lua_dofile : σ → List Char → Bool × σ
  lua_tostring_top : σ → List Char

/-- The global variables of `augtool.c` that the command line sets and the
loop reads. -/
structure Globals where
  use_lua : Bool
  inputfile : Option (List Char)
  echo_commands : Bool
  auto_save : Bool
  interactive : Bool
  timing : Bool
  deriving DecidableEq

/-- The terminal and the input as the process finds them: whether `stdin` (and
the input file, once `stdin` is reopened on it) is a terminal, the lines
`readline` returns before the first end of input, whether the files the loop
opens can be opened, and the lines typed at the terminal after a fallback. -/
structure Terminal where
  stdin_isatty : Bool
  inputfile_isatty : Bool
  stdout_isatty : Bool
  input : List (List Char)
  inputfile_opens : Bool
  devnull_opens : Bool
  tty_opens_r : Bool
  tty_opens_w : Bool
  tty_input : List (List Char)
  deriving DecidableEq

def AUGTOOL_PROMPT : List Char := "augtool> ".toList

def AUGTOOL_LUA_PROMPT : List Char := "augtool|lua> ".toList

/-- Lines 447-448: the value `print_time_taken` prints.  `time_t` and
`suseconds_t` are signed; C division truncates toward zero. -/
def elapsed_ms (start stop : timeval) : Int :=
  (stop.tv_sec - start.tv_sec) * 1000 + (stop.tv_usec - start.tv_usec).tdiv 1000

/-- Lines 445-450. -/
def print_time_taken (start stop : timeval) : List Event :=
  [Event.time_ms (elapsed_ms start stop)]

/-- Lines 452-466; `stdin_tty` is `isatty(fileno(stdin))`.  Returns the result
of `aug_srun`, the world afterwards and the events. -/
def run_command {σ : Type} (sh : Shell σ) (stdin_tty : Bool) (h : σ) (line : List Char)
    (with_timing : Bool) : Int × σ × List Event :=
  let start := sh.gettimeofday h
  let (rep, h1) := sh.aug.call h (AugCall.aug_srun line)
  let result := rep.r
  let stop := sh.gettimeofday h1
  let ev1 := if with_timing && decide (result ≥ 0) then print_time_taken start stop else []
  let ev2 := if stdin_tty then [Event.add_history line] else []
  (result, h1, [Event.srun line result] ++ ev1 ++ ev2)

/-- Lines 468-483. -/
def print_aug_error {σ : Type} (aug : Augeas σ) (h : σ) : List Event :=
  if aug.aug_error h = AugErrCode.AUG_ENOMEM then
    [Event.err "Out of memory.\n".toList]
  else if aug.aug_error h ≠ AugErrCode.AUG_NOERROR then
    [Event.err ("error: ".toList ++ aug.aug_error_message h ++ ['\n'])]
      ++ (match aug.aug_error_minor_message h with
          | some m => [Event.err ("error: ".toList ++ m ++ ['\n'])]
          | none => [])
      ++ (match aug.aug_error_details h with
          | some d => [Event.err d, Event.err ['\n']]
          | none => [])
  else []

/-- What `run_args` and `main_loop` hand back: the returned `int`, the world,
the globals the run changed, and the events in order. -/
structure RunResult (σ : Type) where
  ret : Int
  h : σ
  echo_commands : Bool
  auto_save : Bool
  trace : List Event

/-- Lines 1052-1079; `args` is `argv[0..argc-1]`. -/
def run_args {σ : Type} (sh : Shell σ) (g : Globals) (term : Terminal) (args : List (List Char))
    (h : σ) : RunResult σ :=
  let line := (args.map (fun a => a ++ [' '])).flatten
  let ev0 := if g.echo_commands then [Event.out (AUGTOOL_PROMPT ++ line ++ ['\n'])] else []
  let (code, h1, ev1) := run_command sh term.stdin_isatty h line g.timing
  let ev2 :=
    if decide (code ≥ 0) && g.auto_save then
      if g.echo_commands then [Event.out (AUGTOOL_PROMPT ++ "save\n".toList)] else []
    else []
  let (code, h2, ev3) := run_command sh term.stdin_isatty h1 "save".toList false
  let (code, ev4) := if code < 0 then ((-1 : Int), print_aug_error sh.aug h2) else (code, [])
  { ret := if code ≥ 0 ∨ code = -2 then 0 else -1,
    h := h2,
    echo_commands := g.echo_commands,
    auto_save := g.auto_save,
    trace := ev0 ++ ev1 ++ ev2 ++ ev3 ++ ev4 }

/-! ## Input source controller -/

/-- The values `rl_outstream` takes in `main_loop`. -/
inductive OutStream where
  | null
  | devnull
  | stdout
  deriving DecidableEq

/-- The variables of `main_loop` that live across iterations, with the globals
the loop changes, the world, and the input not yet read from the current
source. -/
structure LoopState (σ : Type) where
  h : σ
  echo_commands : Bool
  auto_save : Bool
  ret : Int
  get_line : Bool
  in_interactive : Bool
  stdin_tty : Bool
  input : List (List Char)
  rl_outstream : OutStream

/-- Outcome of one iteration of `while(1)`: go round again, or return. -/
inductive Step (σ : Type) where
  | next (st : LoopState σ) (ev : List Event)
  | exit (ret : Int) (st : LoopState σ) (ev : List Event)

/-- Lines 1018-1048: run the line.  In Lua mode every line is run as a chunk;
in native mode empty lines and comments are skipped and the quit status -2
returns from the loop.  `main_loop` calls `run_command(line)` without the
second argument of its definition; the embedding passes the global `timing`,
as `run_args` does. -/
def dispatch {σ : Type} (sh : Shell σ) (g : Globals) (st : LoopState σ) (line : List Char)
    (ev : List Event) : Step σ :=
  if g.use_lua then
    let (code, h1) := sh.lua_line st.h line
    let ev1 := if st.stdin_tty then [Event.add_history line] else []
    if code then
      Step.next { st with h := h1, ret := -1 }
        (ev ++ [Event.lua line code] ++ ev1 ++ [Event.err (sh.lua_tostring_top h1 ++ ['\n'])])
    else
      Step.next { st with h := h1 } (ev ++ [Event.lua line code] ++ ev1)
  else
    if line = [] ∨ line.head? = some '#' then
      Step.next st ev
    else
      let (code, h1, ev1) := run_command sh st.stdin_tty st.h line g.timing
      if code = -2 then
        Step.exit st.ret { st with h := h1 } (ev ++ ev1)
      else if code < 0 then
        Step.next { st with h := h1, ret := -1 } (ev ++ ev1 ++ print_aug_error sh.aug h1)
      else
        Step.next { st with h := h1 } (ev ++ ev1)

/-- Lines 969-996: the fallback to the terminal at the end of the input. -/
def fallback {σ : Type} (term : Terminal) (st : LoopState σ) (ev : List Event) : Step σ :=
  let st := { st with in_interactive := true }
  let ev := if st.echo_commands then ev ++ [Event.out ['\n']] else ev
  let st := { st with echo_commands := true }
  if !term.tty_opens_r then
    Step.exit (-1) st
      (ev ++ [Event.reopen_stdin_tty false,
              Event.err "Failed to open terminal for reading".toList])
  else
    let ev := ev ++ [Event.reopen_stdin_tty true]
    let st := { st with stdin_tty := true, input := term.tty_input }
    if st.rl_outstream = OutStream.null
        ∨ ¬ (st.rl_outstream = OutStream.stdout ∧ term.stdout_isatty = true) then
      let st := { st with rl_outstream := OutStream.null }
      if !term.tty_opens_w then
        Step.exit (-1) st
          (ev ++ [Event.reopen_stdout_tty false, Event.err "Failed to reopen stdout".toList])
      else
        Step.next { st with rl_outstream := OutStream.stdout } (ev ++ [Event.reopen_stdout_tty true])
    else
      Step.next st ev

/-- Lines 959-1048: one iteration of `while(1)`.  A line is read when
`get_line` is set; without a line the loop falls back to the terminal, or
synthesizes `save`, or returns. -/
def loop_body {σ : Type} (sh : Shell σ) (g : Globals) (term : Terminal) (st : LoopState σ) :
    Step σ :=
  let (line, st, ev) :=
    if st.get_line then
      match st.input with
      | l :: rest => (some l, { st with input := rest }, [Event.readline (some l)])
      | [] => (none, st, [Event.readline none])
    else (none, st, [])
  match line with
  | some l => dispatch sh g st l ev
  | none =>
    if !st.stdin_tty && g.interactive && !st.in_interactive then
      fallback term st ev
    else if st.auto_save then
      let ev := ev ++ [Event.autosave]
      let ev := if st.echo_commands then ev ++ [Event.out "save\n".toList] else ev
      dispatch sh g { st with auto_save := false, get_line := false } "save".toList ev
    else
      Step.exit st.ret { st with get_line := false }
        (ev ++ if st.echo_commands then [Event.out ['\n']] else [])

/-- The loop `while(1)` of lines 958-1049, run for at most `fuel`
iterations; `none` when the fuel runs out before the loop returns. -/
def loop_run {σ : Type} (sh : Shell σ) (g : Globals) (term : Terminal) :
    Nat → LoopState σ → Option (RunResult σ)
  | 0, _ => none
  | fuel + 1, st =>
    match loop_body sh g term st with
    | Step.exit ret st1 ev =>
      some { ret := ret, h := st1.h, echo_commands := st1.echo_commands,
             auto_save := st1.auto_save, trace := ev }
    | Step.next st1 ev =>
      match loop_run sh g term fuel st1 with
      | none => none
      | some r => some { r with trace := ev ++ r.trace }

/-- Lines 949-956: the state in which the loop is entered; `tty` is
`isatty(fileno(stdin))` after the input file, if any, was opened. -/
def loop_init {σ : Type} (g : Globals) (term : Terminal) (tty : Bool) (h : σ) : LoopState σ :=
  let echo := g.echo_commands || tty
  { h := h,
    echo_commands := echo,
    auto_save := g.auto_save,
    ret := 0,
    get_line := true,
    in_interactive := false,
    stdin_tty := tty,
    input := term.input,
    rl_outstream :=
      if echo then OutStream.null
      else if term.devnull_opens then OutStream.devnull else OutStream.null }

/-- Number of iterations that always suffices: one for every line of either
source, one for each of the two ends of input, one for the return after a
synthesized `save`, and one to spare. -/
def loop_fuel (term : Terminal) : Nat :=
  term.input.length + term.tty_input.length + 4

/-- Lines 916-1050.  With an input file, Lua mode runs the file and returns
without entering the loop; native mode reopens `stdin` on it. -/
def main_loop {σ : Type} (sh : Shell σ) (g : Globals) (term : Terminal) (h : σ) :
    Option (RunResult σ) :=
  match g.inputfile with
  | some file =>
    if g.use_lua then
      let (failed, h1) := sh.lua_dofile h file
      if failed then
        some { ret := -1, h := h1, echo_commands := g.echo_commands, auto_save := g.auto_save,
               trace := [Event.out (sh.lua_tostring_top h1 ++ ['\n'])] }
      else
        some { ret := 0, h := h1, echo_commands := g.echo_commands, auto_save := g.auto_save,
               trace := [] }
    else if !term.inputfile_opens then
      some { ret := -1, h := h, echo_commands := g.echo_commands, auto_save := g.auto_save,
             trace := [Event.err ("Failed to open ".toList ++ file)] }
    else
      loop_run sh g term (loop_fuel term) (loop_init g term term.inputfile_isatty h)
  | none =>
    loop_run sh g term (loop_fuel term) (loop_init g term term.stdin_isatty h)

/-! ## Script bridge -/

/-- The Lua values that cross the bridge.  Numbers are the integral ones; a
table is the list of its integer-keyed string entries in insertion order. -/
inductive LuaValue where
  | nil
  | boolean (b : Bool)
  | number (n : Int)
  | string (s : List Char)
  | table (entries : List (Int × List Char))
  deriving DecidableEq

/-- How a call of a bridge function ends: it returns values to the script, it
raises the value pushed before `lua_error`, `luaL_checkstring` rejects the
argument with the given index, or the behaviour is not defined by C. -/
inductive LuaOutcome where
  | returned (values : List LuaValue)
  | error (value : LuaValue)
  | bad_argument (narg : Nat)
  | undefined
  deriving DecidableEq

/-- Result of a bridge call: the outcome, the store afterwards, the calls made
into the store in order, and what was printed. -/
structure BridgeResult (σ : Type) where
  outcome : LuaOutcome
  h : σ
  calls : List AugCall
  out : List Event

/-- The part of the Lua runtime the bridge relies on: how a number converts to
a string. -/
structure LuaRuntime where
  number_tostring : Int → List Char

/-- Lines 504-512: `some` of the raised message when the number of arguments
differs from `arity`; `snprintf` cuts the message to the 1024-byte buffer. -/
def lua_checkargs (name : List Char) (arity : Nat) (args : List LuaValue) : Option LuaValue :=
  let n := args.length
  if n ≠ arity then
    some (LuaValue.string
      (("Wrong number of arguments for '".toList ++ name ++ "'".toList).take 1023))
  else none

/-- Lines 514-518: raise the current error message of the tree store. -/
def lua_pusherror {σ : Type} (aug : Augeas σ) (h : σ) : LuaOutcome :=
  LuaOutcome.error (LuaValue.string (aug.aug_error_message h))

/-- The `lua_tostring` of the Lua API: strings and numbers convert, anything
else gives `NULL`.  Arguments are numbered from 1. -/
def lua_tostring (lua : LuaRuntime) (args : List LuaValue) (narg : Nat) : Option (List Char) :=
  match args[narg - 1]? with
  | some (LuaValue.string s) => some s
  | some (LuaValue.number n) => some (lua.number_tostring n)
  | _ => none

/-- The `luaL_checkstring` of the Lua API: as `lua_tostring`, and `none` stands
for the argument error it raises. -/
def luaL_checkstring (lua : LuaRuntime) (args : List LuaValue) (narg : Nat) :
    Option (List Char) :=
  lua_tostring lua args narg

/-- The `lua_toboolean` of the Lua API: false for `nil`, `false` and a missing
argument. -/
def lua_toboolean (args : List LuaValue) (narg : Nat) : Bool :=
  match args[narg - 1]? with
  | none => false
  | some LuaValue.nil => false
  | some (LuaValue.boolean b) => b
  | some _ => true

/-- The `lua_pushstring` of the Lua API pushes `nil` for `NULL`. -/
def lua_pushstring (s : Option (List Char)) : LuaValue :=
  match s with
  | some v => LuaValue.string v
  | none => LuaValue.nil

/-- The `lua_settable` of the Lua API on a table of this model: the entry for
`key` is replaced, or added at the end. -/
def lua_settable (t : List (Int × List Char)) (key : Int) (value : List Char) :
    List (Int × List Char) :=
  match t with
  | [] => [(key, value)]
  | (k, v) :: rest =>
    if k = key then (key, value) :: rest else (k, v) :: lua_settable rest key value

/-- Lines 520-537. -/
def lua_aug_get {σ : Type} (aug : Augeas σ) (lua : LuaRuntime) (args : List LuaValue) (h : σ) :
    BridgeResult σ :=
  match lua_checkargs "aug_get".toList 1 args with
  | some e => { outcome := LuaOutcome.error e, h := h, calls := [], out := [] }
  | none =>
    match luaL_checkstring lua args 1 with
    | none => { outcome := LuaOutcome.bad_argument 1, h := h, calls := [], out := [] }
    | some path =>
      let c := AugCall.aug_get path
      let (rep, h1) := aug.call h c
      if rep.r < 0 then { outcome := lua_pusherror aug h1, h := h1, calls := [c], out := [] }
      else { outcome := LuaOutcome.returned [lua_pushstring rep.value], h := h1, calls := [c],
             out := [] }

/-- Lines 539-555. -/
def lua_aug_label {σ : Type} (aug : Augeas σ) (lua : LuaRuntime) (args : List LuaValue) (h : σ) :
    BridgeResult σ :=
  match lua_checkargs "aug_label".toList 1 args with
  | some e => { outcome := LuaOutcome.error e, h := h, calls := [], out := [] }
  | none =>
    match luaL_checkstring lua args 1 with
    | none => { outcome := LuaOutcome.bad_argument 1, h := h, calls := [], out := [] }
    | some path =>
      let c := AugCall.aug_label path
      let (rep, h1) := aug.call h c
      if rep.r < 0 then { outcome := lua_pusherror aug h1, h := h1, calls := [c], out := [] }
      else { outcome := LuaOutcome.returned [lua_pushstring rep.value], h := h1, calls := [c],
             out := [] }

/-- Lines 557-573. -/
def lua_aug_set {σ : Type} (aug : Augeas σ) (lua : LuaRuntime) (args : List LuaValue) (h : σ) :
    BridgeResult σ :=
  match lua_checkargs "aug_set".toList 2 args with
  | some e => { outcome := LuaOutcome.error e, h := h, calls := [], out := [] }
  | none =>
    match luaL_checkstring lua args 1 with
    | none => { outcome := LuaOutcome.bad_argument 1, h := h, calls := [], out := [] }
    | some path =>
      match luaL_checkstring lua args 2 with
      | none => { outcome := LuaOutcome.bad_argument 2, h := h, calls := [], out := [] }
      | some value =>
        let c := AugCall.aug_set path value
        let (rep, h1) := aug.call h c
        if rep.r < 0 then { outcome := lua_pusherror aug h1, h := h1, calls := [c], out := [] }
        else { outcome := LuaOutcome.returned [], h := h1, calls := [c], out := [] }

/-- Lines 575-592. -/
def lua_aug_setm {σ : Type} (aug : Augeas σ) (lua : LuaRuntime) (args : List LuaValue) (h : σ) :
    BridgeResult σ :=
  match lua_checkargs "aug_setm".toList 3 args with
  | some e => { outcome := LuaOutcome.error e, h := h, calls := [], out := [] }
  | none =>
    match luaL_checkstring lua args 1 with
    | none => { outcome := LuaOutcome.bad_argument 1, h := h, calls := [], out := [] }
    | some base =>
      match luaL_checkstring lua args 2 with
      | none => { outcome := LuaOutcome.bad_argument 2, h := h, calls := [], out := [] }
      | some sub =>
        match luaL_checkstring lua args 3 with
        | none => { outcome := LuaOutcome.bad_argument 3, h := h, calls := [], out := [] }
        | some value =>
          let c := AugCall.aug_setm base sub value
          let (rep, h1) := aug.call h c
          if rep.r < 0 then { outcome := lua_pusherror aug h1, h := h1, calls := [c], out := [] }
          else { outcome := LuaOutcome.returned [], h := h1, calls := [c], out := [] }

/-- Lines 594-612. -/
def lua_aug_insert {σ : Type} (aug : Augeas σ) (lua : LuaRuntime) (args : List LuaValue) (h : σ) :
    BridgeResult σ :=
  match lua_checkargs "aug_insert".toList 3 args with
  | some e => { outcome := LuaOutcome.error e, h := h, calls := [], out := [] }
  | none =>
    match luaL_checkstring lua args 1 with
    | none => { outcome := LuaOutcome.bad_argument 1, h := h, calls := [], out := [] }
    | some path =>
      match luaL_checkstring lua args 2 with
      | none => { outcome := LuaOutcome.bad_argument 2, h := h, calls := [], out := [] }
      | some label =>
        let before := lua_toboolean args 3
        let c := AugCall.aug_insert path label before
        let (rep, h1) := aug.call h c
        if rep.r < 0 then { outcome := lua_pusherror aug h1, h := h1, calls := [c], out := [] }
        else { outcome := LuaOutcome.returned [], h := h1, calls := [c], out := [] }

/-- Lines 614-629. -/
def lua_aug_rm {σ : Type} (aug : Augeas σ) (lua : LuaRuntime) (args : List LuaValue) (h : σ) :
    BridgeResult σ :=
  match lua_checkargs "aug_rm".toList 1 args with
  | some e => { outcome := LuaOutcome.error e, h := h, calls := [], out := [] }
  | none =>
    match luaL_checkstring lua args 1 with
    | none => { outcome := LuaOutcome.bad_argument 1, h := h, calls := [], out := [] }
    | some path =>
      let c := AugCall.aug_rm path
      let (rep, h1) := aug.call h c
      if rep.r < 0 then { outcome := lua_pusherror aug h1, h := h1, calls := [c], out := [] }
      else { outcome := LuaOutcome.returned [], h := h1, calls := [c], out := [] }

/-- Lines 631-647. -/
def lua_aug_mv {σ : Type} (aug : Augeas σ) (lua : LuaRuntime) (args : List LuaValue) (h : σ) :
    BridgeResult σ :=
  match lua_checkargs "aug_mv".toList 2 args with
  | some e => { outcome := LuaOutcome.error e, h := h, calls := [], out := [] }
  | none =>
    match luaL_checkstring lua args 1 with
    | none => { outcome := LuaOutcome.bad_argument 1, h := h, calls := [], out := [] }
    | some path =>
      match luaL_checkstring lua args 2 with
      | none => { outcome := LuaOutcome.bad_argument 2, h := h, calls := [], out := [] }
      | some new_path =>
        let c := AugCall.aug_mv path new_path
        let (rep, h1) := aug.call h c
        if rep.r < 0 then { outcome := lua_pusherror aug h1, h := h1, calls := [c], out := [] }
        else { outcome := LuaOutcome.returned [], h := h1, calls := [c], out := [] }

/-- Lines 649-665. -/
def lua_aug_cp {σ : Type} (aug : Augeas σ) (lua : LuaRuntime) (args : List LuaValue) (h : σ) :
    BridgeResult σ :=
  match lua_checkargs "aug_cp".toList 2 args with
  | some e => { outcome := LuaOutcome.error e, h := h, calls := [], out := [] }
  | none =>
    match luaL_checkstring lua args 1 with
    | none => { outcome := LuaOutcome.bad_argument 1, h := h, calls := [], out := [] }
    | some path =>
      match luaL_checkstring lua args 2 with
      | none => { outcome := LuaOutcome.bad_argument 2, h := h, calls := [], out := [] }
      | some new_path =>
        let c := AugCall.aug_cp path new_path
        let (rep, h1) := aug.call h c
        if rep.r < 0 then { outcome := lua_pusherror aug h1, h := h1, calls := [c], out := [] }
        else { outcome := LuaOutcome.returned [], h := h1, calls := [c], out := [] }

/-- Lines 667-683. -/
def lua_aug_rename {σ : Type} (aug : Augeas σ) (lua : LuaRuntime) (args : List LuaValue) (h : σ) :
    BridgeResult σ :=
  match lua_checkargs "aug_rename".toList 2 args with
  | some e => { outcome := LuaOutcome.error e, h := h, calls := [], out := [] }
  | none =>
    match luaL_checkstring lua args 1 with
    | none => { outcome := LuaOutcome.bad_argument 1, h := h, calls := [], out := [] }
    | some path =>
      match luaL_checkstring lua args 2 with
      | none => { outcome := LuaOutcome.bad_argument 2, h := h, calls := [], out := [] }
      | some label =>
        let c := AugCall.aug_rename path label
        let (rep, h1) := aug.call h c
        if rep.r < 0 then { outcome := lua_pusherror aug h1, h := h1, calls := [c], out := [] }
        else { outcome := LuaOutcome.returned [], h := h1, calls := [c], out := [] }

/-- Lines 685-702. -/
def lua_aug_matches {σ : Type} (aug : Augeas σ) (lua : LuaRuntime) (args : List LuaValue) (h : σ) :
    BridgeResult σ :=
  match lua_checkargs "aug_matches".toList 1 args with
  | some e => { outcome := LuaOutcome.error e, h := h, calls := [], out := [] }
  | none =>
    match luaL_checkstring lua args 1 with
    | none => { outcome := LuaOutcome.bad_argument 1, h := h, calls := [], out := [] }
    | some path =>
      let c := AugCall.aug_match path false
      let (rep, h1) := aug.call h c
      if rep.r < 0 then { outcome := lua_pusherror aug h1, h := h1, calls := [c], out := [] }
      else { outcome := LuaOutcome.returned [LuaValue.number rep.r], h := h1, calls := [c],
             out := [] }

/-- Lines 720-725: the loop `for (i = 0; i < r; i++)` that stores `match[i]`
under the key `i+1`; `n` is the number of iterations left.  `none` when the
loop reads past the end of the array. -/
def match_table (paths : List (List Char)) :
    Nat → Nat → List (Int × List Char) → Option (List (Int × List Char))
  | 0, _, t => some t
  | n + 1, i, t =>
    match paths[i]? with
    | none => none
    | some p => match_table paths n (i + 1) (lua_settable t ((i : Int) + 1) p)

/-- Lines 704-731. -/
def lua_aug_match {σ : Type} (aug : Augeas σ) (lua : LuaRuntime) (args : List LuaValue) (h : σ) :
    BridgeResult σ :=
  match lua_checkargs "aug_match".toList 1 args with
  | some e => { outcome := LuaOutcome.error e, h := h, calls := [], out := [] }
  | none =>
    match luaL_checkstring lua args 1 with
    | none => { outcome := LuaOutcome.bad_argument 1, h := h, calls := [], out := [] }
    | some path =>
      let c := AugCall.aug_match path true
      let (rep, h1) := aug.call h c
      if rep.r < 0 then { outcome := lua_pusherror aug h1, h := h1, calls := [c], out := [] }
      else
        match match_table rep.paths rep.r.toNat 0 [] with
        | none => { outcome := LuaOutcome.undefined, h := h1, calls := [c], out := [] }
        | some t =>
          { outcome := LuaOutcome.returned [LuaValue.table t, LuaValue.number rep.r], h := h1,
            calls := [c], out := [] }

/-- Lines 733-749. -/
def lua_aug_defvar {σ : Type} (aug : Augeas σ) (lua : LuaRuntime) (args : List LuaValue) (h : σ) :
    BridgeResult σ :=
  match lua_checkargs "aug_defvar".toList 2 args with
  | some e => { outcome := LuaOutcome.error e, h := h, calls := [], out := [] }
  | none =>
    match luaL_checkstring lua args 1 with
    | none => { outcome := LuaOutcome.bad_argument 1, h := h, calls := [], out := [] }
    | some name =>
      match luaL_checkstring lua args 2 with
      | none => { outcome := LuaOutcome.bad_argument 2, h := h, calls := [], out := [] }
      | some expr =>
        let c := AugCall.aug_defvar name expr
        let (rep, h1) := aug.call h c
        if rep.r < 0 then { outcome := lua_pusherror aug h1, h := h1, calls := [c], out := [] }
        else { outcome := LuaOutcome.returned [], h := h1, calls := [c], out := [] }

/-- Lines 751-768. -/
def lua_aug_defnode {σ : Type} (aug : Augeas σ) (lua : LuaRuntime) (args : List LuaValue) (h : σ) :
    BridgeResult σ :=
  match lua_checkargs "aug_defnode".toList 3 args with
  | some e => { outcome := LuaOutcome.error e, h := h, calls := [], out := [] }
  | none =>
    match luaL_checkstring lua args 1 with
    | none => { outcome := LuaOutcome.bad_argument 1, h := h, calls := [], out := [] }
    | some name =>
      match luaL_checkstring lua args 2 with
      | none => { outcome := LuaOutcome.bad_argument 2, h := h, calls := [], out := [] }
      | some expr =>
        let value := lua_tostring lua args 3
        let c := AugCall.aug_defnode name expr value
        let (rep, h1) := aug.call h c
        if rep.r < 0 then { outcome := lua_pusherror aug h1, h := h1, calls := [c], out := [] }
        else { outcome := LuaOutcome.returned [], h := h1, calls := [c], out := [] }

/-- Lines 770-787.  A result of -1 raises a fixed message; any other result is
followed by a count of the saved files, printed when positive. -/
def lua_aug_save {σ : Type} (aug : Augeas σ) (_lua : LuaRuntime) (args : List LuaValue) (h : σ) :
    BridgeResult σ :=
  match lua_checkargs "aug_save".toList 0 args with
  | some e => { outcome := LuaOutcome.error e, h := h, calls := [], out := [] }
  | none =>
    let c := AugCall.aug_save
    let (rep, h1) := aug.call h c
    if rep.r = -1 then
      { outcome := LuaOutcome.error
          (LuaValue.string "saving failed (run 'errors' for details)".toList),
        h := h1, calls := [c], out := [] }
    else
      let c2 := AugCall.aug_match "/augeas/events/saved".toList false
      let (rep2, h2) := aug.call h1 c2
      { outcome := LuaOutcome.returned [], h := h2, calls := [c, c2],
        out := if rep2.r > 0 then [Event.saved rep2.r] else [] }

/-- Lines 789-800. -/
def lua_aug_load {σ : Type} (aug : Augeas σ) (_lua : LuaRuntime) (args : List LuaValue) (h : σ) :
    BridgeResult σ :=
  match lua_checkargs "aug_load".toList 0 args with
  | some e => { outcome := LuaOutcome.error e, h := h, calls := [], out := [] }
  | none =>
    let c := AugCall.aug_load
    let (rep, h1) := aug.call h c
    if rep.r < 0 then { outcome := lua_pusherror aug h1, h := h1, calls := [c], out := [] }
    else { outcome := LuaOutcome.returned [], h := h1, calls := [c], out := [] }

/-- Lines 802-818. -/
def lua_aug_text_store {σ : Type} (aug : Augeas σ) (lua : LuaRuntime) (args : List LuaValue)
    (h : σ) : BridgeResult σ :=
  match lua_checkargs "aug_text_store".toList 3 args with
  | some e => { outcome := LuaOutcome.error e, h := h, calls := [], out := [] }
  | none =>
    match luaL_checkstring lua args 1 with
    | none => { outcome := LuaOutcome.bad_argument 1, h := h, calls := [], out := [] }
    | some lens =>
      match luaL_checkstring lua args 2 with
      | none => { outcome := LuaOutcome.bad_argument 2, h := h, calls := [], out := [] }
      | some node =>
        match luaL_checkstring lua args 3 with
        | none => { outcome := LuaOutcome.bad_argument 3, h := h, calls := [], out := [] }
        | some path =>
          let c := AugCall.aug_text_store lens node path
          let (rep, h1) := aug.call h c
          if rep.r < 0 then { outcome := lua_pusherror aug h1, h := h1, calls := [c], out := [] }
          else { outcome := LuaOutcome.returned [], h := h1, calls := [c], out := [] }

/-- Lines 820-837. -/
def lua_aug_text_retrieve {σ : Type} (aug : Augeas σ) (lua : LuaRuntime) (args : List LuaValue)
    (h : σ) : BridgeResult σ :=
  match lua_checkargs "aug_text_retrieve".toList 4 args with
  | some e => { outcome := LuaOutcome.error e, h := h, calls := [], out := [] }
  | none =>
    match luaL_checkstring lua args 1 with
    | none => { outcome := LuaOutcome.bad_argument 1, h := h, calls := [], out := [] }
    | some lens =>
      match luaL_checkstring lua args 2 with
      | none => { outcome := LuaOutcome.bad_argument 2, h := h, calls := [], out := [] }
      | some node_in =>
        match luaL_checkstring lua args 3 with
        | none => { outcome := LuaOutcome.bad_argument 3, h := h, calls := [], out := [] }
        | some path =>
          match luaL_checkstring lua args 4 with
          | none => { outcome := LuaOutcome.bad_argument 4, h := h, calls := [], out := [] }
          | some node_out =>
            let c := AugCall.aug_text_retrieve lens node_in path node_out
            let (rep, h1) := aug.call h c
            if rep.r < 0 then
              { outcome := lua_pusherror aug h1, h := h1, calls := [c], out := [] }
            else { outcome := LuaOutcome.returned [], h := h1, calls := [c], out := [] }

/-- Lines 839-856. -/
def lua_aug_transform {σ : Type} (aug : Augeas σ) (lua : LuaRuntime) (args : List LuaValue)
    (h : σ) : BridgeResult σ :=
  match lua_checkargs "aug_transform".toList 3 args with
  | some e => { outcome := LuaOutcome.error e, h := h, calls := [], out := [] }
  | none =>
    match luaL_checkstring lua args 1 with
    | none => { outcome := LuaOutcome.bad_argument 1, h := h, calls := [], out := [] }
    | some lens =>
      match luaL_checkstring lua args 2 with
      | none => { outcome := LuaOutcome.bad_argument 2, h := h, calls := [], out := [] }
      | some file =>
        let excl := lua_toboolean args 3
        let c := AugCall.aug_transform lens file excl
        let (rep, h1) := aug.call h c
        if rep.r < 0 then { outcome := lua_pusherror aug h1, h := h1, calls := [c], out := [] }
        else { outcome := LuaOutcome.returned [], h := h1, calls := [c], out := [] }

/-- The eighteen functions that `setup_lua` registers. -/
inductive BridgeFn where
  | get | label | set | setm | insert | rm | mv | cp | rename | matches | aug_match
  | defvar | defnode | save | load | text_store | text_retrieve | transform
  deriving DecidableEq

/-- The C function behind each registered operation. -/
def BridgeFn.run {σ : Type} (f : BridgeFn) (aug : Augeas σ) (lua : LuaRuntime)
    (args : List LuaValue) (h : σ) : BridgeResult σ :=
  match f with
  | BridgeFn.get => lua_aug_get aug lua args h
  | BridgeFn.label => lua_aug_label aug lua args h
  | BridgeFn.set => lua_aug_set aug lua args h
  | BridgeFn.setm => lua_aug_setm aug lua args h
  | BridgeFn.insert => lua_aug_insert aug lua args h
  | BridgeFn.rm => lua_aug_rm aug lua args h
  | BridgeFn.mv => lua_aug_mv aug lua args h
  | BridgeFn.cp => lua_aug_cp aug lua args h
  | BridgeFn.rename => lua_aug_rename aug lua args h
  | BridgeFn.matches => lua_aug_matches aug lua args h
  | BridgeFn.aug_match => lua_aug_match aug lua args h
  | BridgeFn.defvar => lua_aug_defvar aug lua args h
  | BridgeFn.defnode => lua_aug_defnode aug lua args h
  | BridgeFn.save => lua_aug_save aug lua args h
  | BridgeFn.load => lua_aug_load aug lua args h
  | BridgeFn.text_store => lua_aug_text_store aug lua args h
  | BridgeFn.text_retrieve => lua_aug_text_retrieve aug lua args h
  | BridgeFn.transform => lua_aug_transform aug lua args h

/-- Lines 858-914: the names `setup_lua` registers, in order, each with its
function: the `aug_` names first, then the short names and three aliases. -/
def setup_lua : List (List Char × BridgeFn) :=
  [("aug_get", BridgeFn.get), ("aug_label", BridgeFn.label), ("aug_set", BridgeFn.set),
   ("aug_setm", BridgeFn.setm), ("aug_insert", BridgeFn.insert), ("aug_rm", BridgeFn.rm),
   ("aug_mv", BridgeFn.mv), ("aug_cp", BridgeFn.cp), ("aug_rename", BridgeFn.rename),
   ("aug_matches", BridgeFn.matches), ("aug_match", BridgeFn.aug_match),
   ("aug_defvar", BridgeFn.defvar), ("aug_defnode", BridgeFn.defnode),
   ("aug_save", BridgeFn.save), ("aug_load", BridgeFn.load),
   ("aug_text_store", BridgeFn.text_store), ("aug_text_retrieve", BridgeFn.text_retrieve),
   ("aug_transform", BridgeFn.transform),
   ("get", BridgeFn.get), ("label", BridgeFn.label), ("set", BridgeFn.set),
   ("setm", BridgeFn.setm), ("insert", BridgeFn.insert), ("ins", BridgeFn.insert),
   ("rm", BridgeFn.rm), ("mv", BridgeFn.mv), ("move", BridgeFn.mv), ("cp", BridgeFn.cp),
   ("copy", BridgeFn.cp), ("rename", BridgeFn.rename), ("matches", BridgeFn.matches),
   ("match", BridgeFn.aug_match), ("defvar", BridgeFn.defvar), ("defnode", BridgeFn.defnode),
   ("save", BridgeFn.save), ("load", BridgeFn.load), ("text_store", BridgeFn.text_store),
   ("text_retrieve", BridgeFn.text_retrieve), ("transform", BridgeFn.transform)].map
    (fun p => (p.1.toList, p.2))

/-- The arity the specification gives for each bridge function: get 1, label 1,
set 2, setm 3, insert 3, rm 1, mv 2, cp 2, rename 2, matches 1, match 1,
defvar 2, defnode 3, save 0, load 0, text_store 3, text_retrieve 4,
transform 3. -/
def BridgeFn.spec_arity : BridgeFn → Nat
  | BridgeFn.get => 1 | BridgeFn.label => 1 | BridgeFn.set => 2 | BridgeFn.setm => 3
  | BridgeFn.insert => 3 | BridgeFn.rm => 1 | BridgeFn.mv => 2 | BridgeFn.cp => 2
  | BridgeFn.rename => 2 | BridgeFn.matches => 1 | BridgeFn.aug_match => 1
  | BridgeFn.defvar => 2 | BridgeFn.defnode => 3 | BridgeFn.save => 0 | BridgeFn.load => 0
  | BridgeFn.text_store => 3 | BridgeFn.text_retrieve => 4 | BridgeFn.transform => 3

/-- The name of each operation as the specification lists it. -/
def BridgeFn.spec_name : BridgeFn → List Char
  | BridgeFn.get => "get".toList | BridgeFn.label => "label".toList
  | BridgeFn.set => "set".toList | BridgeFn.setm => "setm".toList
  | BridgeFn.insert => "insert".toList | BridgeFn.rm => "rm".toList
  | BridgeFn.mv => "mv".toList | BridgeFn.cp => "cp".toList
  | BridgeFn.rename => "rename".toList | BridgeFn.matches => "matches".toList
  | BridgeFn.aug_match => "match".toList | BridgeFn.defvar => "defvar".toList
  | BridgeFn.defnode => "defnode".toList | BridgeFn.save => "save".toList
  | BridgeFn.load => "load".toList | BridgeFn.text_store => "text_store".toList
  | BridgeFn.text_retrieve => "text_retrieve".toList | BridgeFn.transform => "transform".toList

/-! ## Notions of the specification and example worlds -/

/-- The final segment of a path or of a typed text: the text after its last
separator, or all of it when it has no separator. -/
def final_segment (s : List Char) : List Char :=
  match strrchr s SEP with
  | some i => s.drop (i + 1)
  | none => s

/-- One call of `readline_path_generator` in a sequence of calls: the text and
`state` the line editor passes, and the tree store and its state at the time of
the call. -/
structure PathCall (σ : Type) where
  aug : Augeas σ
  text : List Char
  state : Nat
  h : σ

/-- The outcomes of a sequence of calls of `readline_path_generator`, the
`static` variables being carried from each call to the next. -/
def run_path_calls {σ : Type} : List (PathCall σ) → PathGenState → List Completion
  | [], _ => []
  | c :: rest, st =>
    let r := readline_path_generator c.aug c.text c.state st c.h
    r.1 :: run_path_calls rest r.2.1

/-- Concrete worlds for the examples: the state counts the lines run so far,
and `replies` lists the result of each line in turn (0 once exhausted). -/
def script_store (replies : List Int) : Augeas Nat :=
  { call := fun n c =>
      match c with
      | AugCall.aug_srun _ => ({ r := replies.getD n 0, value := none, paths := [] }, n + 1)
      | _ => ({ r := 0, value := none, paths := [] }, n),
    aug_error := fun _ => AugErrCode.AUG_NOERROR,
    aug_error_message := fun _ => [],
    aug_error_minor_message := fun _ => none,
    aug_error_details := fun _ => none }

/-- The shell around `script_store`, with a clock that stands still and a Lua
runtime that accepts every chunk. -/
def script_shell (replies : List Int) : Shell Nat :=
  { aug := script_store replies,
    gettimeofday := fun _ => { tv_sec := 0, tv_usec := 0 },
    lua_line := fun n _ => (false, n),
    lua_dofile := fun n _ => (false, n),
    lua_tostring_top := fun _ => [] }

/-- Globals with every flag off and no input file. -/
def plain_globals : Globals :=
  { use_lua := false, inputfile := none, echo_commands := false, auto_save := false,
    interactive := false, timing := false }

/-- A process whose input is piped, with nothing to read, and whose terminal
can be opened. -/
def piped_terminal : Terminal :=
  { stdin_isatty := false, inputfile_isatty := false, stdout_isatty := false, input := [],
    inputfile_opens := true, devnull_opens := true, tty_opens_r := true, tty_opens_w := true,
    tty_input := [] }

/-- The lines passed to `aug_srun` in a trace, in order. -/
def srun_lines : List Event → List (List Char)
  | [] => []
  | Event.srun line _ :: rest => line :: srun_lines rest
  | _ :: rest => srun_lines rest

/-- A tree store for the completion examples: `answers` gives the paths each
query path matches, `context` the value of the context node, and `parents` the
paths that have children. -/
def tree_store (answers : List (List Char × List (List Char))) (context : Option (List Char))
    (parents : List (List Char)) : Augeas Unit :=
  { call := fun _ c =>
      match c with
      | AugCall.aug_match p true =>
        match answers.lookup p with
        | some l => ({ r := l.length, value := none, paths := l }, ())
        | none => ({ r := 0, value := none, paths := [] }, ())
      | AugCall.aug_match p false =>
        if parents.any (fun q => q ++ "/*".toList == p) then
          ({ r := 1, value := none, paths := [] }, ())
        else ({ r := 0, value := none, paths := [] }, ())
      | AugCall.aug_get _ => ({ r := 1, value := context, paths := [] }, ())
      | _ => ({ r := -1, value := none, paths := [] }, ()),
    aug_error := fun _ => AugErrCode.AUG_NOERROR,
    aug_error_message := fun _ => [],
    aug_error_minor_message := fun _ => none,
    aug_error_details := fun _ => none }

/-- The context is `/files/etc/hosts`; the query `../../*` matches
`/files/etc`, which has children. -/
def hosts_store : Augeas Unit :=
  tree_store [("../../*".toList, ["/files/etc".toList])] (some "/files/etc/hosts".toList)
    ["/files/etc".toList]

/-- The context is `/files`; the query `etc/*` matches `/files/etc/x`, which
has no children, and `/files/etc/ssh`, which has. -/
def files_store : Augeas Unit :=
  tree_store [("etc/*".toList, ["/files/etc/x".toList, "/files/etc/ssh".toList])]
    (some "/files".toList) ["/files/etc/ssh".toList]

/-- The context is `/files/etc/ssh/sshd_config`; the query `*` matches its one
child `/files/etc/ssh/sshd_config/PermitRootLogin`, which has no children. -/
def sshd_store : Augeas Unit :=
  tree_store [("*".toList, ["/files/etc/ssh/sshd_config/PermitRootLogin".toList])]
    (some "/files/etc/ssh/sshd_config".toList) []

/-- The context is `/files/etc`; the query `../*` matches `/files/etc` itself,
which has children. -/
def etc_store : Augeas Unit :=
  tree_store [("../*".toList, ["/files/etc".toList])] (some "/files/etc".toList)
    ["/files/etc".toList]

/-- The query `/a/*` matches `/a/b`, which has children, and `/a/c`, which has
none. -/
def ab_store : Augeas Unit :=
  tree_store [("/a/*".toList, ["/a/b".toList, "/a/c".toList])] (some "/files".toList)
    ["/a/b".toList]

/-- Variables of `readline_path_generator` left behind by an earlier cycle on
another prefix. -/
def stale_state : PathGenState :=
  { current := 1, children := ["/old/x".toList, "/old/y".toList], nchildren := 2,
    ctx := some "/old".toList }

/-- Two calls with non-zero state on the text `/a/` against `ab_store`. -/
def later_calls : List (PathCall Unit) :=
  [{ aug := ab_store, text := "/a/".toList, state := 1, h := () },
   { aug := ab_store, text := "/a/".toList, state := 2, h := () }]

/-- A tree store in which every call fails with -1 and the current error
message is `msg`. -/
def broken_store (msg : List Char) : Augeas Unit :=
  { call := fun _ _ => ({ r := -1, value := none, paths := [] }, ()),
    aug_error := fun _ => AugErrCode.other,
    aug_error_message := fun _ => msg,
    aug_error_minor_message := fun _ => none,
    aug_error_details := fun _ => none }

/-- A Lua runtime whose numbers all print as `0`. -/
def plain_lua : LuaRuntime :=
  { number_tostring := fun _ => ['0'] }

/-- The events of running lines: everything except a return of `readline`, a
reopening of a stream and the marker of the synthesized `save`. -/
def Event.is_plain : Event → Bool
  | Event.readline _ => false
  | Event.reopen_stdin_tty _ => false
  | Event.reopen_stdout_tty _ => false
  | Event.autosave => false
  | _ => true

/-- The condition of line 969 under which the end of the input leads to the
terminal: `!isatty(fileno(stdin)) && interactive && !in_interactive`. -/
def can_fallback {σ : Type} (g : Globals) (st : LoopState σ) : Bool :=
  !st.stdin_tty && g.interactive && !st.in_interactive

/-- The line `save` is run in a trace, by `aug_srun` or as a Lua chunk. -/
def runs_save (tr : List Event) : Prop :=
  (∃ code, Event.srun "save".toList code ∈ tr) ∨ (∃ failed, Event.lua "save".toList failed ∈ tr)

/-- One line is piped in and one line is typed at the terminal after the
fallback; every stream can be opened. -/
def piped_then_typed : Terminal :=
  { stdin_isatty := false, inputfile_isatty := false, stdout_isatty := false,
    input := ["set /a 1".toList], inputfile_opens := true, devnull_opens := true,
    tty_opens_r := true, tty_opens_w := true, tty_input := ["set /b 2".toList] }

/-- The flags `--interactive` and `--autosave` are given, nothing else. -/
def interactive_autosave : Globals :=
  { use_lua := false, inputfile := none, echo_commands := false, auto_save := true,
    interactive := true, timing := false }

/-- The part of the loop state that running a line leaves alone. -/
def LoopState.control {σ : Type} (st : LoopState σ) :
    Bool × Bool × Bool × Bool × Bool × List (List Char) :=
  (st.get_line, st.auto_save, st.in_interactive, st.stdin_tty, st.echo_commands, st.input)

/-- Shape of a trace with respect to the synthesized `save`: either it is never
synthesized, or autosave was pending and the trace is `pre`, an end of input,
the marker, and `post`, where `pre` has no marker and as many ends of input as
successful fallbacks (at most `bound`), and `post` only runs lines, among them
`save`. -/
def autosave_shape (bound : Nat) (pending : Bool) (tr : List Event) : Prop :=
  Event.autosave ∉ tr
    ∨ (pending = true ∧ ∃ pre post,
        tr = pre ++ [Event.readline none, Event.autosave] ++ post
        ∧ Event.autosave ∉ pre
        ∧ pre.count (Event.readline none) = pre.count (Event.reopen_stdin_tty true)
        ∧ pre.count (Event.readline none) ≤ bound
        ∧ post.all Event.is_plain = true
        ∧ runs_save post)

/-- A bound on the iterations the loop still makes from a state: the lines
left to read, the lines of the terminal and its end of input while the
fallback is still possible, the synthesized `save`, and the return. -/
def loop_measure {σ : Type} (g : Globals) (term : Terminal) (st : LoopState σ) : Nat :=
  (if st.get_line then st.input.length else 0)
    + (if can_fallback g st then 1 + term.tty_input.length else 0)
    + (if st.auto_save then 1 else 0) + 1

/-- What one completion cycle is expected to return for a list of cached
paths, read off the list instead of a cursor: the paths whose final segment
does not have the typed final segment `e` as a prefix are passed over; each
other path gives its candidate, the child count being taken in the store state
the previous count left; the cycle ends with the first outcome that is not a
candidate, or with `NULL` after the last path. -/
def expected_cycle {σ : Type} (aug : Augeas σ) (e : List Char) (ctx : Option (List Char)) :
    List (List Char) → σ → List Completion
  | [], _ => [Completion.no_more]
  | child :: rest, h =>
    if e <+: final_segment child then
      match (match ctx with
          | none => Completion.candidate
              (if (child_count aug h child).1 > 0 then child ++ [SEP] else child)
          | some c => strip_context c
              (if (child_count aug h child).1 > 0 then child ++ [SEP] else child)) with
      | Completion.candidate s =>
        Completion.candidate s :: expected_cycle aug e ctx rest (child_count aug h child).2
      | other => [other]
    else expected_cycle aug e ctx rest h

/-! ## Notions for the loop, the bridge table and the timing -/

/-- A line the native mode skips: it is empty or begins with the comment
marker `#`. -/
def is_blank (line : List Char) : Prop :=
  line = [] ∨ line.head? = some '#'

instance (line : List Char) : Decidable (is_blank line) := by
  unfold is_blank
  exact inferInstance

/-- An `aug_srun` that returned the quit sentinel -2. -/
def Event.is_quit : Event → Bool
  | Event.srun _ result => decide (result = -2)
  | _ => false

/-- An `aug_srun` that returned a negative status other than the quit
sentinel. -/
def Event.is_failure : Event → Bool
  | Event.srun _ result => decide (result < 0 ∧ result ≠ -2)
  | _ => false

/-- An `aug_srun`, whatever it returned. -/
def Event.is_srun : Event → Bool
  | Event.srun _ _ => true
  | _ => false

/-- The events that concern the source of the input: a return of `readline`
and a reopening of `stdin` on the terminal. -/
def Event.is_source : Event → Bool
  | Event.readline _ => true
  | Event.reopen_stdin_tty _ => true
  | _ => false

/-- The returns of `readline` in a trace, in order. -/
def reads : List Event → List (Option (List Char))
  | [] => []
  | Event.readline line :: rest => line :: reads rest
  | _ :: rest => reads rest

/-- The lines that reach an evaluator or the history in a trace. -/
def handled_lines : List Event → List (List Char)
  | [] => []
  | Event.srun line _ :: rest => line :: handled_lines rest
  | Event.lua line _ :: rest => line :: handled_lines rest
  | Event.add_history line :: rest => line :: handled_lines rest
  | _ :: rest => handled_lines rest

/-- The value a script reads at `t[key]`: the entry stored for `key`, if any. -/
def lua_gettable (t : List (Int × List Char)) (key : Int) : Option (List Char) :=
  match t with
  | [] => none
  | (k, v) :: rest => if k = key then some v else lua_gettable rest key

/-- The table that maps `start + 1`, `start + 2`, ... to the given strings. -/
def numbered (start : Nat) : List (List Char) → List (Int × List Char)
  | [] => []
  | p :: rest => (((start : Int) + 1), p) :: numbered (start + 1) rest

/-- Elapsed time in whole milliseconds as the specification words it: the
floor of the elapsed microseconds divided by 1000. -/
def floor_ms (start stop : timeval) : Int :=
  Int.fdiv ((stop.tv_sec - start.tv_sec) * 1000000 + (stop.tv_usec - start.tv_usec)) 1000

/-- A shell whose clock reads 0 s 999999 us before the first line is run and
1 s 0 us afterwards; every line succeeds. -/
def ticking_shell : Shell Nat :=
  { aug := script_store [],
    gettimeofday := fun n =>
      if n = 0 then { tv_sec := 0, tv_usec := 999999 } else { tv_sec := 1, tv_usec := 0 },
    lua_line := fun n _ => (false, n),
    lua_dofile := fun n _ => (false, n),
    lua_tostring_top := fun _ => [] }

/-- A shell whose Lua runtime rejects a chunk that begins with `#` and accepts
every other chunk. -/
def lua_shell : Shell Nat :=
  { aug := script_store [],
    gettimeofday := fun _ => { tv_sec := 0, tv_usec := 0 },
    lua_line := fun n line => (line.head? == some '#', n + 1),
    lua_dofile := fun n _ => (false, n),
    lua_tostring_top := fun _ => "unexpected symbol near '#'".toList }

/-- Globals for the Lua mode, every other flag off. -/
def lua_globals : Globals :=
  { use_lua := true, inputfile := none, echo_commands := false, auto_save := false,
    interactive := false, timing := false }

/-- A session at the terminal in which the operator types a comment line and
an empty line and then ends the input. -/
def typed_comment : Terminal :=
  { stdin_isatty := true, inputfile_isatty := false, stdout_isatty := true,
    input := ["# note".toList, []], inputfile_opens := true, devnull_opens := true,
    tty_opens_r := true, tty_opens_w := true, tty_input := [] }

/-- The context is `/files`; the query `../augeas/*`, which leaves the context
through `..`, matches `/augeas/version`, which has no children. -/
def augeas_store : Augeas Unit :=
  tree_store [("../augeas/*".toList, ["/augeas/version".toList])] (some "/files".toList) []

/-- What lines 164-167 leave in `c` on a machine where the bytes of the old
block can still be read after the `realloc` and hold the path: the path from
index `ctxidx` on, `ctxidx` being the length of the context, plus one when the
character there is the separator.  C does not promise this; the outcome in C
is `strip_context`. -/
def strip_if_intact (ctx child : List Char) : List Char :=
  let ctxidx := ctx.length
  let ctxidx := if child[ctxidx]? = some SEP then ctxidx + 1 else ctxidx
  child.drop ctxidx

/-- The events that print or reopen the output: text on `stdout` or `stderr`
and a reopening of `stdout`. -/
def Event.is_output : Event → Bool
  | Event.out _ => true
  | Event.err _ => true
  | Event.reopen_stdout_tty _ => true
  | _ => false

/-- The events that run no line and record none: everything except a call of
an evaluator and a history entry. -/
def Event.is_silent : Event → Bool
  | Event.srun _ _ => false
  | Event.lua _ _ => false
  | Event.add_history _ => false
  | _ => true

/-- A reopening of `stdin` on the terminal, successful or not: the mark of the
fallback in a trace. -/
def Event.is_reopen : Event → Bool
  | Event.reopen_stdin_tty _ => true
  | _ => false

/-- The most a session asks of its sources of input, in order: the lines of
the input and its end, the reopening of `stdin` on the terminal with outcome
`ok`, the lines typed there and their end. -/
def session_sources (term : Terminal) (ok : Bool) : List Event :=
  term.input.map (fun l => Event.readline (some l))
    ++ Event.readline none :: Event.reopen_stdin_tty ok
      :: (term.tty_input.map (fun l => Event.readline (some l)) ++ [Event.readline none])
/-! ## Theorems -/

/-! ### C strings -/

theorem STREQLEN_spec (a b : List Char) : STREQLEN a b a.length = true ↔ a <+: b := by
  unfold STREQLEN
  simp only [List.take_length, beq_iff_eq]
  constructor
  · intro h
    rw [h]
    exact List.take_prefix _ _
  · intro h
    exact (List.prefix_iff_eq_take.mp h)

/-! ### One-shot invocation -/

theorem srun_lines_append (a b : List Event) :
    srun_lines (a ++ b) = srun_lines a ++ srun_lines b := by
  induction a with
  | nil => rfl
  | cons e rest ih => cases e <;> simp [srun_lines, ih]

theorem srun_lines_print_aug_error {σ : Type} (aug : Augeas σ) (h : σ) :
    srun_lines (print_aug_error aug h) = [] := by
  unfold print_aug_error
  split
  · rfl
  · split
    · cases aug.aug_error_minor_message h <;> cases aug.aug_error_details h <;> rfl
    · rfl

theorem srun_lines_run_command {σ : Type} (sh : Shell σ) (tty : Bool) (h : σ)
    (line : List Char) (t : Bool) :
    srun_lines (run_command sh tty h line t).2.2 = [line] := by
  simp only [run_command, print_time_taken]
  rw [srun_lines_append, srun_lines_append]
  split <;> split <;> rfl

/-- The status `run_args` returns is decided by the trailing `save` alone:
it is 0 when `save` returns a non-negative status and -1 otherwise, whatever
the command returned. -/
theorem run_args_ret {σ : Type} (sh : Shell σ) (g : Globals) (term : Terminal)
    (args : List (List Char)) (h : σ) :
    (run_args sh g term args h).ret
      = if 0 ≤ (sh.aug.call (sh.aug.call h
            (AugCall.aug_srun ((args.map (fun a => a ++ [' '])).flatten))).2
            (AugCall.aug_srun "save".toList)).1.r
        then 0 else -1 := by
  simp only [run_args, run_command]
  generalize (sh.aug.call (sh.aug.call h
      (AugCall.aug_srun ((args.map (fun a => a ++ [' '])).flatten))).2
      (AugCall.aug_srun "save".toList)).1.r = c
  by_cases hc : c < 0
  · simp only [hc, if_true]
    rw [if_neg (by omega), if_neg (by omega)]
  · simp only [hc, if_false]
    rw [if_pos (by omega), if_pos (by omega)]

/-- C1 (failing input): with the arguments `get` and `/files[`, a command that
returns -1 and a `save` that returns 0, `run_args` returns 0: the status of
the command is overwritten by the status of `save`. -/
theorem run_args_failing_command_reports_success :
    (run_args (script_shell [-1, 0]) plain_globals piped_terminal
        ["get".toList, "/files[".toList] 0).ret = 0
      ∧ (run_args (script_shell [-1, 0]) plain_globals piped_terminal
        ["get".toList, "/files[".toList] 0).trace
        = [Event.srun "get /files[ ".toList (-1), Event.srun "save".toList 0] := by
  decide

/-- C2: for every argument list, every setting of the globals (autosave,
echo and timing included) and every behaviour of the tree store, `run_args`
passes exactly two lines to `aug_srun`: first the arguments in order, each
followed by one space, then `save`; and `save` runs in the store state the
command left. -/
theorem run_args_runs_command_then_save {σ : Type} (sh : Shell σ) (g : Globals)
    (term : Terminal) (args : List (List Char)) (h : σ) :
    srun_lines (run_args sh g term args h).trace
        = [(args.map (fun a => a ++ [' '])).flatten, "save".toList]
      ∧ (run_args sh g term args h).h
        = (sh.aug.call (sh.aug.call h
            (AugCall.aug_srun ((args.map (fun a => a ++ [' '])).flatten))).2
            (AugCall.aug_srun "save".toList)).2 := by
  constructor
  · have h1 := srun_lines_run_command sh term.stdin_isatty h
      ((args.map (fun a => a ++ [' '])).flatten) g.timing
    have h2 := srun_lines_run_command sh term.stdin_isatty
      (run_command sh term.stdin_isatty h ((args.map (fun a => a ++ [' '])).flatten) g.timing).2.1
      "save".toList false
    simp only [run_args, srun_lines_append, h1, h2]
    have e0 : ∀ (b : Bool) (x : List Char), srun_lines (if b = true then [Event.out x] else []) = [] := by
      intro b x; cases b <;> rfl
    have e4 : ∀ (c : Int), srun_lines
        (if c < 0 then ((-1 : Int), print_aug_error sh.aug
          (run_command sh term.stdin_isatty
            (run_command sh term.stdin_isatty h ((args.map (fun a => a ++ [' '])).flatten) g.timing).2.1
            "save".toList false).2.1) else (c, [])).2 = [] := by
      intro c
      split
      · exact srun_lines_print_aug_error _ _
      · rfl
    rw [e0, e4]
    split
    · rw [e0]; rfl
    · rfl
  · simp only [run_args, run_command]

/-! ### Tree-path completion -/

/-- C3 (failing input): the context is `/files/etc/hosts`, the typed text is
`../../`, and the query `../../*` returns the one path `/files/etc`, whose final
segment `etc` has the typed final segment (the empty string) as a prefix.  The
first call of the cycle returns `NULL`: no candidate is produced for the
matching path, because the size passed to `realloc`, 11 - 16 + 1, wraps. -/
theorem readline_path_generator_drops_match :
    (hosts_store.call () (AugCall.aug_match (query_path "../../".toList) true)).1
        = { r := 1, value := none, paths := ["/files/etc".toList] }
      ∧ final_segment "../../".toList <+: final_segment "/files/etc".toList
      ∧ path_cycle hosts_store "../../".toList 3 0 PathGenState.init ()
        = [Completion.no_more]
      ∧ strip_size "/files/etc/".toList "/files/etc/hosts".toList > PTRDIFF_MAX := by
  decide

theorem strrchr_lt (s : List Char) (c : Char) :
    ∀ i, strrchr s c = some i → i < s.length := by
  induction s with
  | nil => intro i h; simp [strrchr] at h
  | cons x rest ih =>
    intro i h
    unfold strrchr at h
    cases hr : strrchr rest c with
    | some j =>
      rw [hr] at h
      simp only [Option.some.injEq] at h
      have := ih j hr
      simp only [List.length_cons]
      omega
    | none =>
      rw [hr] at h
      simp only at h
      split at h
      · simp only [Option.some.injEq] at h
        simp only [List.length_cons]
        omega
      · simp at h

theorem strrchr_isSome_of_mem (s : List Char) (c : Char) (hc : c ∈ s) :
    ∃ i, strrchr s c = some i := by
  induction s with
  | nil => simp at hc
  | cons x rest ih =>
    unfold strrchr
    cases hr : strrchr rest c with
    | some j => exact ⟨j + 1, rfl⟩
    | none =>
      rcases List.mem_cons.mp hc with hx | hrest
      · exact ⟨0, by simp [hx]⟩
      · obtain ⟨i, hi⟩ := ih hrest
        rw [hr] at hi
        simp at hi

theorem STREQLEN_comm (a b : List Char) (n : Nat) : STREQLEN a b n = STREQLEN b a n := by
  unfold STREQLEN
  rw [Bool.eq_iff_iff]
  simp only [beq_iff_eq]
  exact eq_comm

theorem STREQLEN_final (chend e : List Char) :
    STREQLEN chend e e.length = true ↔ e <+: chend := by
  rw [STREQLEN_comm]
  exact STREQLEN_spec e chend

theorem final_segment_text (text : List Char) :
    ((strrchr text SEP).map (fun i => text.drop (i + 1))).getD text = final_segment text := by
  unfold final_segment
  cases strrchr text SEP <;> rfl

theorem query_path_head (text : List Char) (htext : text.head? ≠ some SEP) :
    (query_path text).head? ≠ some SEP := by
  unfold query_path
  cases hr : strrchr text SEP with
  | none => simp only; decide
  | some i =>
    cases text with
    | nil => simp [strrchr] at hr
    | cons x rest =>
      simpa using htext

theorem query_path_head_root (text : List Char) (htext : text.head? = some SEP) :
    (query_path text).head? = some SEP := by
  unfold query_path
  cases text with
  | nil => simp at htext
  | cons x rest =>
    have hx : x = SEP := by simpa using htext
    obtain ⟨i, hi⟩ := strrchr_isSome_of_mem (x :: rest) SEP (by simp [hx])
    rw [hi]
    simp [hx]

theorem path_restart_children {σ : Type} (aug : Augeas σ) (text : List Char)
    (st : PathGenState) (h : σ) :
    (path_restart aug text st h).1.children
        = (aug.call h (AugCall.aug_match (query_path text) true)).1.paths
      ∧ (path_restart aug text st h).1.nchildren
        = (aug.call h (AugCall.aug_match (query_path text) true)).1.r
      ∧ (path_restart aug text st h).1.current = 0 := by
  unfold path_restart
  simp only
  split <;> simp

theorem path_restart_ctx {σ : Type} (aug : Augeas σ) (text : List Char)
    (st : PathGenState) (h : σ) (htext : text.head? ≠ some SEP) :
    (path_restart aug text st h).1.ctx
      = (aug.call (aug.call h (AugCall.aug_match (query_path text) true)).2
          (AugCall.aug_get AUGEAS_CONTEXT)).1.value := by
  unfold path_restart
  simp only
  rw [if_pos (query_path_head text htext)]

theorem path_restart_ctx_root {σ : Type} (aug : Augeas σ) (text : List Char)
    (st : PathGenState) (h : σ) (htext : text.head? = some SEP) :
    (path_restart aug text st h).1.ctx = none := by
  unfold path_restart
  simp only
  rw [if_neg (by simpa using query_path_head_root text htext)]

/-- The state-0 block forgets the previous values of all four `static`
variables. -/
theorem path_restart_forgets {σ : Type} (aug : Augeas σ) (text : List Char)
    (st st' : PathGenState) (h : σ) :
    path_restart aug text st h = path_restart aug text st' h := by
  unfold path_restart
  simp only

theorem readline_path_generator_zero {σ : Type} (aug : Augeas σ) (text : List Char)
    (state : Nat) (hstate : state ≠ 0) (st : PathGenState) (h : σ) :
    readline_path_generator aug text 0 st h
      = readline_path_generator aug text state (path_restart aug text st h).1
          (path_restart aug text st h).2 := by
  simp [readline_path_generator, hstate]

theorem path_scan_hit {σ : Type} (aug : Augeas σ) (e : List Char) (ctx : Option (List Char))
    (children : List (List Char)) (n i j : Nat) (h : σ) (child : List Char)
    (hchild : children[i]? = some child) (hj : strrchr child SEP = some j)
    (hm : STREQLEN (child.drop (j + 1)) e e.length = true) :
    path_scan aug e ctx children (n + 1) i h
      = (match ctx with
          | none => Completion.candidate
              (if (child_count aug h child).1 > 0 then child ++ ['/'] else child)
          | some c => strip_context c
              (if (child_count aug h child).1 > 0 then child ++ ['/'] else child),
         i + 1, (child_count aug h child).2) := by
  simp only [path_scan, hchild, hj, hm, if_true]
  cases ctx <;> rfl

theorem path_scan_miss {σ : Type} (aug : Augeas σ) (e : List Char) (ctx : Option (List Char))
    (children : List (List Char)) (n i j : Nat) (h : σ) (child : List Char)
    (hchild : children[i]? = some child) (hj : strrchr child SEP = some j)
    (hm : STREQLEN (child.drop (j + 1)) e e.length = false) :
    path_scan aug e ctx children (n + 1) i h = path_scan aug e ctx children n (i + 1) h := by
  simp [path_scan, hchild, hj, hm]

/-- The strip never yields a candidate: `realloc` fails, or the code reads
the block it has handed to `realloc`. -/
theorem strip_context_not_candidate (ctx child c : List Char) :
    strip_context ctx child ≠ Completion.candidate c := by
  unfold strip_context
  simp only
  split <;> exact fun h => Completion.noConfusion h

/-- For a path that begins with the context and fits into memory the
`realloc` succeeds, and the outcome is undefined. -/
theorem strip_context_under (ctx rest : List Char)
    (hlen : ((ctx ++ SEP :: rest).length : Int) + 1 ≤ PTRDIFF_MAX) :
    strip_context ctx (ctx ++ SEP :: rest) = Completion.undefined := by
  have hsize : strip_size (ctx ++ SEP :: rest) ctx = (rest.length : Int) + 2 := by
    unfold strip_size SIZE_MOD
    unfold PTRDIFF_MAX at hlen
    simp only [List.length_append, List.length_cons, Nat.cast_add, Nat.cast_one] at hlen ⊢
    omega
  unfold strip_context
  simp only [hsize]
  have hlen2 : (rest.length : Int) + 2 ≤ PTRDIFF_MAX := by
    simp only [List.length_append, List.length_cons, Nat.cast_add, Nat.cast_one] at hlen
    omega
  rw [if_neg (by omega)]
theorem readline_path_generator_step {σ : Type} (aug : Augeas σ) (text : List Char)
    (state : Nat) (hstate : state ≠ 0) (s : PathGenState) (h : σ) (child : List Char)
    (rest : List (List Char)) (hdrop : s.children.drop s.current = child :: rest)
    (hn : s.nchildren = s.children.length) (hsep : SEP ∈ child) :
    (final_segment text <+: final_segment child →
        readline_path_generator aug text state s h
          = ((match s.ctx with
              | none => Completion.candidate
                  (if (child_count aug h child).1 > 0 then child ++ [SEP] else child)
              | some c => strip_context c
                  (if (child_count aug h child).1 > 0 then child ++ [SEP] else child)),
             { s with current := s.current + 1 }, (child_count aug h child).2))
      ∧ (¬ final_segment text <+: final_segment child →
        readline_path_generator aug text state s h
          = readline_path_generator aug text state { s with current := s.current + 1 } h) := by
  have hlt : s.current < s.children.length := by
    by_contra hge
    rw [List.drop_of_length_le (by omega)] at hdrop
    cases hdrop
  have hchild : s.children[s.current]? = some child := by
    have := congrArg List.head? hdrop
    rw [List.head?_drop] at this
    simpa using this
  obtain ⟨j, hj⟩ := strrchr_isSome_of_mem child SEP hsep
  have hseg : final_segment child = child.drop (j + 1) := by simp [final_segment, hj]
  obtain ⟨n, hn1⟩ : ∃ n, (s.nchildren - (s.current : Int)).toNat = n + 1 :=
    ⟨(s.nchildren - (s.current : Int)).toNat - 1, by rw [hn]; omega⟩
  have hn2 : (s.nchildren - ((s.current + 1 : Nat) : Int)).toNat = n := by
    rw [hn] at hn1 ⊢
    omega
  constructor
  · intro hp
    have hm : STREQLEN (child.drop (j + 1)) (final_segment text) (final_segment text).length
        = true := by
      rw [STREQLEN_final, ← hseg]
      exact hp
    simp only [readline_path_generator, hstate, if_false, final_segment_text, hn1]
    rw [path_scan_hit aug _ _ _ n s.current j h child hchild hj hm]
    rfl
  · intro hp
    have hm : STREQLEN (child.drop (j + 1)) (final_segment text) (final_segment text).length
        = false := by
      rw [Bool.eq_false_iff]
      intro hm
      rw [STREQLEN_final, ← hseg] at hm
      exact hp hm
    simp only [readline_path_generator, hstate, if_false, final_segment_text, hn1, hn2]
    rw [path_scan_miss aug _ _ _ n s.current j h child hchild hj hm]

theorem path_cycle_expected {σ : Type} (aug : Augeas σ) (text : List Char) :
    ∀ (rest : List (List Char)) (fuel state : Nat) (s : PathGenState) (h : σ),
      state ≠ 0 → s.children.drop s.current = rest → s.nchildren = s.children.length →
      (∀ p ∈ s.children, SEP ∈ p) → rest.length < fuel →
      path_cycle aug text fuel state s h
        = expected_cycle aug (final_segment text) s.ctx rest h := by
  intro rest
  induction rest with
  | nil =>
    intro fuel state s h hstate hdrop hn _ hfuel
    obtain ⟨f, rfl⟩ : ∃ f, fuel = f + 1 := ⟨fuel - 1, by omega⟩
    have hge : s.children.length ≤ s.current := by
      by_contra hlt
      have := congrArg List.length hdrop
      simp only [List.length_drop, List.length_nil] at this
      omega
    have h0 : (s.nchildren - (s.current : Int)).toNat = 0 := by
      rw [hn]
      omega
    simp [path_cycle, readline_path_generator, hstate, h0, path_scan, expected_cycle]
  | cons child rest ih =>
    intro fuel state s h hstate hdrop hn hsep hfuel
    obtain ⟨f, rfl⟩ : ∃ f, fuel = f + 1 := ⟨fuel - 1, by omega⟩
    have hmem : child ∈ s.children := by
      have : child ∈ s.children.drop s.current := by rw [hdrop]; exact List.mem_cons_self _ _
      exact List.mem_of_mem_drop this
    have hdrop1 : s.children.drop (s.current + 1) = rest := by
      have := congrArg List.tail hdrop
      simpa [List.tail_drop] using this
    obtain ⟨hhit, hmiss⟩ :=
      readline_path_generator_step aug text state hstate s h child rest hdrop hn (hsep child hmem)
    by_cases hp : final_segment text <+: final_segment child
    · have hgen := hhit hp
      simp only [expected_cycle, hp, if_true]
      simp only [path_cycle, hgen]
      have hlen : rest.length < f := by
        simp only [List.length_cons] at hfuel
        omega
      have ih1 := ih f (state + 1) { s with current := s.current + 1 }
        (child_count aug h child).2 (by omega) hdrop1 hn hsep hlen
      generalize (match s.ctx with
          | none => Completion.candidate
              (if (child_count aug h child).1 > 0 then child ++ [SEP] else child)
          | some c => strip_context c
              (if (child_count aug h child).1 > 0 then child ++ [SEP] else child)) = out
      cases out with
      | candidate c => simp only [ih1]
      | no_more => rfl
      | undefined => rfl
    · have hgen := hmiss hp
      simp only [expected_cycle, hp, if_false]
      have hlen : rest.length < f + 1 := by
        simp only [List.length_cons] at hfuel
        omega
      have ih1 := ih (f + 1) state { s with current := s.current + 1 } h hstate hdrop1 hn hsep
        hlen
      rw [← ih1]
      simp only [path_cycle, hgen]

theorem expected_cycle_without_context {σ : Type} (aug : Augeas σ) (e : List Char) :
    ∀ (paths : List (List Char)) (h : σ),
      ∃ cands : List (List Char),
        expected_cycle aug e none paths h
            = cands.map Completion.candidate ++ [Completion.no_more]
          ∧ List.Forall₂ (fun child c => c = child ∨ c = child ++ [SEP])
              (paths.filter (fun p => decide (e <+: final_segment p))) cands := by
  intro paths
  induction paths with
  | nil =>
    intro h
    exact ⟨[], rfl, by simp⟩
  | cons child rest ih =>
    intro h
    by_cases hp : e <+: final_segment child
    · obtain ⟨cands, hc, hf⟩ := ih (child_count aug h child).2
      refine ⟨(if (child_count aug h child).1 > 0 then child ++ [SEP] else child) :: cands,
        ?_, ?_⟩
      · simp only [expected_cycle, hp, if_true, hc, List.map_cons, List.cons_append]
      · rw [List.filter_cons, if_pos (by simpa using hp)]
        refine List.Forall₂.cons ?_ hf
        split
        · exact Or.inr rfl
        · exact Or.inl rfl
    · obtain ⟨cands, hc, hf⟩ := ih h
      refine ⟨cands, ?_, ?_⟩
      · simp only [expected_cycle, hp, if_false, hc]
      · rw [List.filter_cons, if_neg (by simpa using hp)]
        exact hf

theorem path_cycle_state {σ : Type} (aug : Augeas σ) (text : List Char) :
    ∀ (fuel s1 s2 : Nat) (st : PathGenState) (h : σ), s1 ≠ 0 → s2 ≠ 0 →
      path_cycle aug text fuel s1 st h = path_cycle aug text fuel s2 st h := by
  intro fuel
  induction fuel with
  | zero => intros; rfl
  | succ f ih =>
    intro s1 s2 st h h1 h2
    have hg : readline_path_generator aug text s1 st h
        = readline_path_generator aug text s2 st h := by
      simp [readline_path_generator, h1, h2]
    simp only [path_cycle, hg]
    rcases readline_path_generator aug text s2 st h with ⟨_ | _ | _, st1, hh⟩
    · simp only
      rw [ih (s1 + 1) (s2 + 1) st1 hh (by omega) (by omega)]
    · rfl
    · rfl

theorem path_cycle_zero {σ : Type} (aug : Augeas σ) (text : List Char) (fuel : Nat)
    (st : PathGenState) (h : σ) :
    path_cycle aug text (fuel + 1) 0 st h
      = path_cycle aug text (fuel + 1) 1 (path_restart aug text st h).1
          (path_restart aug text st h).2 := by
  simp only [path_cycle, readline_path_generator_zero aug text 1 (by decide) st h]
  rcases readline_path_generator aug text 1 (path_restart aug text st h).1
    (path_restart aug text st h).2 with ⟨_ | _ | _, st1, hh⟩
  · simp only
    rw [path_cycle_state aug text fuel (0 + 1) (1 + 1) st1 hh (by omega) (by omega)]
  · rfl
  · rfl

/-- The cycle of `readline_path_generator` is the expected one whenever the
tree store answers the query with `r` paths that each contain a separator. -/
theorem path_cycle_spec {σ : Type} (aug : Augeas σ) (text : List Char) (fuel : Nat)
    (st : PathGenState) (h : σ)
    (hr : (aug.call h (AugCall.aug_match (query_path text) true)).1.r
        = (aug.call h (AugCall.aug_match (query_path text) true)).1.paths.length)
    (hsep : ∀ p ∈ (aug.call h (AugCall.aug_match (query_path text) true)).1.paths, SEP ∈ p)
    (hfuel : (aug.call h (AugCall.aug_match (query_path text) true)).1.paths.length < fuel) :
    path_cycle aug text fuel 0 st h
      = expected_cycle aug (final_segment text) (path_restart aug text st h).1.ctx
          (aug.call h (AugCall.aug_match (query_path text) true)).1.paths
          (path_restart aug text st h).2 := by
  obtain ⟨f, rfl⟩ : ∃ f, fuel = f + 1 := ⟨fuel - 1, by omega⟩
  obtain ⟨hch, hn, hcur⟩ := path_restart_children aug text st h
  rw [path_cycle_zero]
  exact path_cycle_expected aug text _ (f + 1) 1 (path_restart aug text st h).1
    (path_restart aug text st h).2 (by decide) (by rw [hcur, hch]; rfl) (by rw [hn, hch, hr])
    (by rw [hch]; exact hsep) hfuel

/-- When the typed text begins with the separator no context is captured, and
one cycle returns one candidate for each cached path whose final segment has
the typed final segment as a prefix, in the order of the query result, each the
path itself or the path with a separator appended, and then `NULL`. -/
theorem path_cycle_without_context {σ : Type} (aug : Augeas σ) (text : List Char) (fuel : Nat)
    (st : PathGenState) (h : σ) (htext : text.head? = some SEP)
    (hr : (aug.call h (AugCall.aug_match (query_path text) true)).1.r
        = (aug.call h (AugCall.aug_match (query_path text) true)).1.paths.length)
    (hsep : ∀ p ∈ (aug.call h (AugCall.aug_match (query_path text) true)).1.paths, SEP ∈ p)
    (hfuel : (aug.call h (AugCall.aug_match (query_path text) true)).1.paths.length < fuel) :
    ∃ cands : List (List Char),
      path_cycle aug text fuel 0 st h = cands.map Completion.candidate ++ [Completion.no_more]
        ∧ List.Forall₂ (fun child c => c = child ∨ c = child ++ [SEP])
            ((aug.call h (AugCall.aug_match (query_path text) true)).1.paths.filter
              (fun p => decide (final_segment text <+: final_segment p))) cands := by
  rw [path_cycle_spec aug text fuel st h hr hsep hfuel, path_restart_ctx_root aug text st h htext]
  exact expected_cycle_without_context aug (final_segment text) _ _

/-- The case the context strip is written for: the typed text does not begin
with the separator, the tree store reports the editing context `ctx`, and the
cached path with index `i` is `ctx` followed by a separator and `rest`, with a
final segment that has the typed final segment as a prefix.  The call that
finds the cursor at that path shrinks the block with `realloc` and then reads
it: the outcome is undefined, for every such text, context and path.  The call
with state 0 is the call with non-zero state on the variables the restart
leaves.  The path is assumed to fit into memory. -/
theorem readline_path_generator_context_strip {σ : Type} (aug : Augeas σ)
    (text : List Char) (st0 : PathGenState) (h0 : σ) (ctx rest : List Char)
    (i state : Nat) (h : σ)
    (htext : text.head? ≠ some SEP)
    (hctx : (aug.call (aug.call h0 (AugCall.aug_match (query_path text) true)).2
        (AugCall.aug_get AUGEAS_CONTEXT)).1.value = some ctx)
    (hchild : (aug.call h0 (AugCall.aug_match (query_path text) true)).1.paths[i]?
        = some (ctx ++ SEP :: rest))
    (hi : (i : Int) < (aug.call h0 (AugCall.aug_match (query_path text) true)).1.r)
    (hseg : final_segment text <+: final_segment (ctx ++ SEP :: rest))
    (hlen : ((ctx ++ SEP :: rest).length : Int) + 2 ≤ PTRDIFF_MAX)
    (hstate : state ≠ 0) :
    readline_path_generator aug text state
        { (path_restart aug text st0 h0).1 with current := i } h
      = (Completion.undefined,
         { (path_restart aug text st0 h0).1 with current := i + 1 },
         (child_count aug h (ctx ++ SEP :: rest)).2)
      ∧ readline_path_generator aug text 0 st0 h0
        = readline_path_generator aug text state (path_restart aug text st0 h0).1
            (path_restart aug text st0 h0).2 := by
  refine ⟨?_, readline_path_generator_zero aug text state hstate st0 h0⟩
  obtain ⟨hch, hn, _⟩ := path_restart_children aug text st0 h0
  have hc := path_restart_ctx aug text st0 h0 htext
  obtain ⟨j, hj⟩ := strrchr_isSome_of_mem (ctx ++ SEP :: rest) SEP (by simp)
  have hm : STREQLEN ((ctx ++ SEP :: rest).drop (j + 1)) (final_segment text)
      (final_segment text).length = true := by
    rw [STREQLEN_final]
    simpa [final_segment, hj] using hseg
  obtain ⟨n, hn1⟩ : ∃ n, ((path_restart aug text st0 h0).1.nchildren - (i : Int)).toNat = n + 1 := by
    refine ⟨((path_restart aug text st0 h0).1.nchildren - (i : Int)).toNat - 1, ?_⟩
    rw [hn]
    omega
  simp only [readline_path_generator, hstate, if_false, final_segment_text, hn1]
  rw [path_scan_hit aug _ _ _ n i j h (ctx ++ SEP :: rest) (by rw [hch]; exact hchild) hj hm]
  simp only [hc, hctx]
  congr 1
  by_cases hcc : (child_count aug h (ctx ++ SEP :: rest)).1 > 0
  · simp only [hcc, if_true]
    have e : ctx ++ SEP :: rest ++ ['/'] = ctx ++ SEP :: (rest ++ [SEP]) := by simp [SEP]
    rw [e]
    exact strip_context_under ctx (rest ++ [SEP]) (by
      simp only [List.length_append, List.length_cons, List.length_nil, Nat.cast_add,
        Nat.cast_one] at hlen ⊢
      omega)
  · simp only [hcc, if_false, List.append_nil]
    exact strip_context_under ctx rest (by omega)

/-- C4 (failing input): the context is `/files/etc/ssh/sshd_config`, the typed
text is `Permit`, and the query `*` returns the one path
`/files/etc/ssh/sshd_config/PermitRootLogin`, which begins with the context
followed by a separator and has no children.  The call shrinks the block of
the path to 17 bytes with `realloc` and then reads `child[26]` and copies from
there through the old pointer: the outcome is undefined, not the candidate
`PermitRootLogin`, and the cycle ends with it. -/
theorem readline_path_generator_reads_after_realloc :
    (path_restart sshd_store "Permit".toList PathGenState.init ()).1.ctx
        = some "/files/etc/ssh/sshd_config".toList
      ∧ (sshd_store.call () (AugCall.aug_match (query_path "Permit".toList) true)).1.paths
        = ["/files/etc/ssh/sshd_config".toList ++ SEP :: "PermitRootLogin".toList]
      ∧ strip_size ("/files/etc/ssh/sshd_config".toList ++ SEP :: "PermitRootLogin".toList)
          "/files/etc/ssh/sshd_config".toList = 17
      ∧ (readline_path_generator sshd_store "Permit".toList 0 PathGenState.init ()).1
        = Completion.undefined
      ∧ (readline_path_generator sshd_store "Permit".toList 0 PathGenState.init ()).1
        ≠ Completion.candidate "PermitRootLogin".toList
      ∧ path_cycle sshd_store "Permit".toList 3 0 PathGenState.init ()
        = [Completion.undefined] := by
  decide

/-- The example of the context `/files` and the match `/files/etc/x`: the
hypotheses of `readline_path_generator_context_strip` hold there, and the
first call of the cycle is undefined. -/
theorem readline_path_generator_context_strip_example :
    (readline_path_generator files_store "etc/".toList 1
        { (path_restart files_store "etc/".toList PathGenState.init ()).1 with current := 0 }
        ()).1 = Completion.undefined
      ∧ path_cycle files_store "etc/".toList 4 0 PathGenState.init ()
        = [Completion.undefined] := by
  have h := (readline_path_generator_context_strip files_store "etc/".toList
    PathGenState.init () "/files".toList "etc/x".toList 0 1 () (by decide) (by decide)
    (by decide) (by decide) (by decide) (by decide) (by decide)).1
  refine ⟨?_, by decide⟩
  rw [h]

theorem path_scan_candidate {σ : Type} (aug : Augeas σ) (e : List Char)
    (ctx : Option (List Char)) (children : List (List Char)) :
    ∀ (n cur : Nat) (h : σ) (c : List Char) (cur1 : Nat) (h1 : σ),
      path_scan aug e ctx children n cur h = (Completion.candidate c, cur1, h1) →
      ∃ child, children[cur1 - 1]? = some child ∧ cur < cur1
        ∧ e <+: final_segment child
        ∧ h1 = (child_count aug h child).2
        ∧ ctx = none
        ∧ c = (if (child_count aug h child).1 > 0 then child ++ [SEP] else child) := by
  intro n
  induction n with
  | zero =>
    intro cur h c cur1 h1 hret
    simp [path_scan] at hret
  | succ n ih =>
    intro cur h c cur1 h1 hret
    cases hchild : children[cur]? with
    | none => simp [path_scan, hchild] at hret
    | some child =>
      cases hj : strrchr child SEP with
      | none => simp [path_scan, hchild, hj] at hret
      | some j =>
        by_cases hm : STREQLEN (child.drop (j + 1)) e e.length = true
        · rw [path_scan_hit aug e ctx children n cur j h child hchild hj hm] at hret
          simp only [Prod.mk.injEq] at hret
          obtain ⟨hc, hcur, hh⟩ := hret
          subst hcur
          cases ctx with
          | some x => exact absurd hc (strip_context_not_candidate x _ c)
          | none =>
            refine ⟨child, by simpa using hchild, by omega, ?_, hh.symm, rfl, ?_⟩
            · have := (STREQLEN_final _ _).mp hm
              simpa [final_segment, hj] using this
            · simp only [Completion.candidate.injEq] at hc
              exact hc.symm
        · have hm1 : STREQLEN (child.drop (j + 1)) e e.length = false := by simpa using hm
          rw [path_scan_miss aug e ctx children n cur j h child hchild hj hm1] at hret
          obtain ⟨child1, h1c, h2c, rest⟩ := ih (cur + 1) h c cur1 h1 hret
          exact ⟨child1, h1c, by omega, rest⟩

/-- Whenever `readline_path_generator` returns a candidate, no context was
captured, and the candidate is the cached path just before the cursor, whose
final segment has the typed final segment as a prefix, with exactly one
separator appended when its child count is positive and nothing appended
otherwise (a failed count is negative).  The child count is taken in the store
state `hq` in which the scan starts. -/
theorem readline_path_generator_trailing_separator {σ : Type} (aug : Augeas σ)
    (text : List Char) (state : Nat) (st : PathGenState) (h : σ) (c : List Char)
    (st1 : PathGenState) (h1 : σ)
    (hret : readline_path_generator aug text state st h = (Completion.candidate c, st1, h1)) :
    ∃ child hq, st1.children[st1.current - 1]? = some child ∧ 0 < st1.current
      ∧ hq = (if state = 0 then (path_restart aug text st h).2 else h)
      ∧ final_segment text <+: final_segment child
      ∧ st1.ctx = none
      ∧ c = (if (child_count aug hq child).1 > 0 then child ++ [SEP] else child) := by
  simp only [readline_path_generator, final_segment_text, Prod.mk.injEq] at hret
  obtain ⟨hres, hst, hh⟩ := hret
  have hscan := path_scan_candidate aug (final_segment text)
    (if state = 0 then path_restart aug text st h else (st, h)).1.ctx
    (if state = 0 then path_restart aug text st h else (st, h)).1.children _ _ _ c _ _
    (Prod.ext hres (Prod.ext rfl rfl))
  obtain ⟨child, hchild, hcur, hseg, _, hnone, hc⟩ := hscan
  subst hst
  refine ⟨child, (if state = 0 then path_restart aug text st h else (st, h)).2, hchild,
    by simp only; omega, ?_, hseg, hnone, hc⟩
  split <;> rfl

/-- Without a captured context: the query `/a/*` starts at the root, `/a/b`
has children and completes with a trailing separator, `/a/c` has none and
completes without one. -/
theorem readline_path_generator_trailing_separator_witness :
    readline_path_generator ab_store "/a/".toList 0 PathGenState.init ()
        = (Completion.candidate "/a/b/".toList,
           { current := 1, children := ["/a/b".toList, "/a/c".toList], nchildren := 2,
             ctx := none }, ())
      ∧ path_cycle ab_store "/a/".toList 4 0 PathGenState.init ()
        = [Completion.candidate "/a/b/".toList, Completion.candidate "/a/c".toList,
           Completion.no_more]
      ∧ ∃ child hq,
          "/a/b/".toList
            = (if (child_count ab_store hq child).1 > 0 then child ++ [SEP] else child) := by
  have hret : readline_path_generator ab_store "/a/".toList 0 PathGenState.init ()
        = (Completion.candidate "/a/b/".toList,
           { current := 1, children := ["/a/b".toList, "/a/c".toList], nchildren := 2,
             ctx := none }, ()) := by decide
  obtain ⟨child, hq, _, _, _, _, _, hc⟩ :=
    readline_path_generator_trailing_separator ab_store "/a/".toList 0 PathGenState.init ()
      "/a/b/".toList _ () hret
  exact ⟨hret, by decide, child, hq, hc⟩

/-- C5 (failing input): the context is `/files/etc`, the typed text is `../`,
and the query `../*` returns `/files/etc`, which has children.  A separator is
appended, and the context strip then shrinks the block to 2 bytes and copies
from index 11, the end of the path: the outcome is undefined, and where the
old block can still be read it is the empty string.  The node with children
does not complete with a trailing separator. -/
theorem readline_path_generator_loses_separator :
    (child_count etc_store () "/files/etc".toList).1 > 0
      ∧ (path_restart etc_store "../".toList PathGenState.init ()).1.ctx
        = some "/files/etc".toList
      ∧ (etc_store.call () (AugCall.aug_match (query_path "../".toList) true)).1.paths
        = ["/files/etc".toList]
      ∧ strip_size ("/files/etc".toList ++ [SEP]) "/files/etc".toList = 2
      ∧ (readline_path_generator etc_store "../".toList 0 PathGenState.init ()).1
        = Completion.undefined
      ∧ strip_if_intact "/files/etc".toList ("/files/etc".toList ++ [SEP]) = []
      ∧ path_cycle etc_store "../".toList 3 0 PathGenState.init ()
        = [Completion.undefined] := by
  decide

theorem readline_path_generator_fields {σ : Type} (aug : Augeas σ) (text : List Char)
    (state : Nat) (st : PathGenState) (h : σ) :
    (readline_path_generator aug text state st h).2.1.children
        = (if state = 0 then (path_restart aug text st h).1 else st).children
      ∧ (readline_path_generator aug text state st h).2.1.nchildren
        = (if state = 0 then (path_restart aug text st h).1 else st).nchildren
      ∧ (readline_path_generator aug text state st h).2.1.ctx
        = (if state = 0 then (path_restart aug text st h).1 else st).ctx := by
  simp only [readline_path_generator]
  split <;> simp

theorem readline_path_generator_candidate_mem {σ : Type} (aug : Augeas σ) (text : List Char)
    (state : Nat) (st : PathGenState) (h : σ) (c : List Char)
    (hret : (readline_path_generator aug text state st h).1 = Completion.candidate c) :
    ∃ child ∈ (readline_path_generator aug text state st h).2.1.children,
      ∃ k, c = (child ++ [SEP]).drop k ∨ c = child.drop k := by
  have hf := (readline_path_generator_fields aug text state st h).1
  simp only [readline_path_generator, final_segment_text] at hret
  have hscan := path_scan_candidate aug (final_segment text)
    (if state = 0 then path_restart aug text st h else (st, h)).1.ctx
    (if state = 0 then path_restart aug text st h else (st, h)).1.children _ _ _ c _ _
    (Prod.ext hret (Prod.ext rfl rfl))
  obtain ⟨child, hchild, _, _, _, _, hc⟩ := hscan
  have hmem : child ∈ (readline_path_generator aug text state st h).2.1.children := by
    rw [hf]
    have := List.getElem?_mem hchild
    split <;> simp_all
  refine ⟨child, hmem, ?_⟩
  by_cases hcc : (child_count aug (if state = 0 then path_restart aug text st h else (st, h)).2 child).1 > 0
  · exact ⟨0, Or.inl (by simpa [hcc] using hc)⟩
  · exact ⟨0, Or.inr (by simpa [hcc] using hc)⟩

theorem readline_path_generator_empty {σ : Type} (aug : Augeas σ) (text : List Char)
    (state : Nat) (st : PathGenState) (h : σ)
    (hn : (if state = 0 then (path_restart aug text st h).1 else st).nchildren ≤ 0) :
    (readline_path_generator aug text state st h).1 = Completion.no_more := by
  simp only [readline_path_generator]
  split
  · rename_i hs
    simp only [hs, if_true] at hn
    have : ((path_restart aug text st h).1.nchildren
        - ((path_restart aug text st h).1.current : Int)).toNat = 0 := by omega
    simp only [this, path_scan]
  · rename_i hs
    simp only [hs, if_false] at hn
    have : (st.nchildren - (st.current : Int)).toNat = 0 := by omega
    simp only [this, path_scan]

theorem run_path_calls_from_cache {σ : Type} (paths : List (List Char)) :
    ∀ (calls : List (PathCall σ)) (st : PathGenState),
      (∀ c ∈ calls, c.state ≠ 0) → st.children = paths →
      ∀ s, Completion.candidate s ∈ run_path_calls calls st →
        ∃ child ∈ paths, ∃ k, s = (child ++ [SEP]).drop k ∨ s = child.drop k := by
  intro calls
  induction calls with
  | nil => intro st _ _ s hs; simp [run_path_calls] at hs
  | cons c rest ih =>
    intro st hnz hst s hs
    have hc0 : c.state ≠ 0 := hnz c (List.mem_cons_self _ _)
    have hf := (readline_path_generator_fields c.aug c.text c.state st c.h).1
    rw [if_neg hc0, hst] at hf
    simp only [run_path_calls, List.mem_cons] at hs
    rcases hs with hhead | htail
    · obtain ⟨child, hmem, hk⟩ :=
        readline_path_generator_candidate_mem c.aug c.text c.state st c.h s hhead.symm
      rw [hf] at hmem
      exact ⟨child, hmem, hk⟩
    · exact ih _ (fun d hd => hnz d (List.mem_cons_of_mem _ hd)) hf s htail

theorem run_path_calls_empty_cache {σ : Type} :
    ∀ (calls : List (PathCall σ)) (st : PathGenState),
      (∀ c ∈ calls, c.state ≠ 0) → st.nchildren ≤ 0 →
      ∀ x ∈ run_path_calls calls st, x = Completion.no_more := by
  intro calls
  induction calls with
  | nil => intro st _ _ x hx; simp [run_path_calls] at hx
  | cons c rest ih =>
    intro st hnz hst x hx
    have hc0 : c.state ≠ 0 := hnz c (List.mem_cons_self _ _)
    have hf := (readline_path_generator_fields c.aug c.text c.state st c.h).2.1
    rw [if_neg hc0] at hf
    simp only [run_path_calls, List.mem_cons] at hx
    rcases hx with hhead | htail
    · rw [hhead]
      exact readline_path_generator_empty c.aug c.text c.state st c.h (by rw [if_neg hc0]; exact hst)
    · exact ih _ (fun d hd => hnz d (List.mem_cons_of_mem _ hd)) (by rw [hf]; exact hst) x htail

/-- C6: a call with state 0 replaces the cache by the result of its own query
and resets the cursor, whatever the `static` variables held before.  The
outcomes of that call and of every later call are the same for any two
previous states; as long as the calls that follow have non-zero state, every
candidate returned is made from a path of the new match list (the path, or the
path with a separator appended, from some index on); and when the new query
fails or matches nothing every call returns `NULL`. -/
theorem readline_path_generator_restart_no_leak {σ : Type} (aug : Augeas σ)
    (text : List Char) (h : σ) (st st' : PathGenState) (calls : List (PathCall σ)) :
    run_path_calls ({ aug := aug, text := text, state := 0, h := h } :: calls) st
        = run_path_calls ({ aug := aug, text := text, state := 0, h := h } :: calls) st'
      ∧ (readline_path_generator aug text 0 st h).2.1.children
        = (aug.call h (AugCall.aug_match (query_path text) true)).1.paths
      ∧ (path_restart aug text st h).1.current = 0
      ∧ ((∀ c ∈ calls, c.state ≠ 0) →
          (∀ s, Completion.candidate s
              ∈ run_path_calls ({ aug := aug, text := text, state := 0, h := h } :: calls) st →
            ∃ child ∈ (aug.call h (AugCall.aug_match (query_path text) true)).1.paths,
              ∃ k, s = (child ++ [SEP]).drop k ∨ s = child.drop k)
          ∧ ((aug.call h (AugCall.aug_match (query_path text) true)).1.r ≤ 0 →
            ∀ x ∈ run_path_calls ({ aug := aug, text := text, state := 0, h := h } :: calls) st,
              x = Completion.no_more)) := by
  obtain ⟨hch, hn, hcur⟩ := path_restart_children aug text st h
  have hf := readline_path_generator_fields aug text 0 st h
  simp only [if_true] at hf
  have hsame : readline_path_generator aug text 0 st h
      = readline_path_generator aug text 0 st' h := by
    simp only [readline_path_generator, if_true, path_restart_forgets aug text st st' h]
  refine ⟨?_, by rw [hf.1, hch], hcur, ?_⟩
  · simp only [run_path_calls, hsame]
  · intro hnz
    constructor
    · intro s hs
      simp only [run_path_calls, List.mem_cons] at hs
      rcases hs with hhead | htail
      · obtain ⟨child, hmem, hk⟩ :=
          readline_path_generator_candidate_mem aug text 0 st h s hhead.symm
        rw [hf.1, hch] at hmem
        exact ⟨child, hmem, hk⟩
      · exact run_path_calls_from_cache _ calls _ hnz (by rw [hf.1, hch]) s htail
    · intro hr x hx
      simp only [run_path_calls, List.mem_cons] at hx
      rcases hx with hhead | htail
      · rw [hhead]
        exact readline_path_generator_empty aug text 0 st h (by
          simp only [if_true]; rw [hn]; exact hr)
      · exact run_path_calls_empty_cache calls _ hnz (by rw [hf.2.1, hn]; exact hr) x htail

theorem readline_path_generator_restart_no_leak_witness :
    run_path_calls ({ aug := ab_store, text := "/a/".toList, state := 0, h := () } :: later_calls)
        stale_state
        = [Completion.candidate "/a/b/".toList, Completion.candidate "/a/c".toList,
           Completion.no_more]
      ∧ (∀ c ∈ later_calls, c.state ≠ 0)
      ∧ ∀ s, Completion.candidate s
          ∈ run_path_calls
              ({ aug := ab_store, text := "/a/".toList, state := 0, h := () } :: later_calls)
              stale_state →
        ∃ child ∈ (ab_store.call () (AugCall.aug_match (query_path "/a/".toList) true)).1.paths,
          ∃ k, s = (child ++ [SEP]).drop k ∨ s = child.drop k := by
  have hnz : ∀ c ∈ later_calls, c.state ≠ 0 := by
    intro c hc
    simp only [later_calls, List.mem_cons, List.mem_singleton, List.not_mem_nil, or_false] at hc
    rcases hc with rfl | rfl <;> decide
  exact ⟨by decide, hnz,
    ((readline_path_generator_restart_no_leak ab_store "/a/".toList () stale_state
      PathGenState.init later_calls).2.2.2 hnz).1⟩

/-! ### Command-name completion -/

theorem readline_command_generator_skip (text name : List Char) (rest : List (List Char))
    (state current : Nat) (hs : state ≠ 0) (hd : commands.drop current = name :: rest)
    (hn : STREQLEN text name text.length = false) :
    readline_command_generator text state current
      = readline_command_generator text state (current + 1) := by
  have hd1 : commands.drop (current + 1) = rest := by
    have := congrArg List.tail hd
    simpa [List.tail_drop] using this
  simp [readline_command_generator, hs, hd, hd1, command_scan, hn]

theorem command_cycle_drop (text : List Char) :
    ∀ (l : List (List Char)) (fuel state current : Nat), state ≠ 0 →
      commands.drop current = l → l.length < fuel →
      command_cycle text fuel state current
        = (l.filter (fun name => decide (text <+: name)), true) := by
  intro l
  induction l with
  | nil =>
    intro fuel state current hs hd hf
    obtain ⟨f, rfl⟩ : ∃ f, fuel = f + 1 := ⟨fuel - 1, by omega⟩
    simp [command_cycle, readline_command_generator, hs, hd, command_scan]
  | cons name rest ih =>
    intro fuel state current hs hd hf
    obtain ⟨f, rfl⟩ : ∃ f, fuel = f + 1 := ⟨fuel - 1, by omega⟩
    have hd1 : commands.drop (current + 1) = rest := by
      have := congrArg List.tail hd
      simpa [List.tail_drop] using this
    by_cases hm : STREQLEN text name text.length = true
    · have hp : text <+: name := (STREQLEN_spec text name).mp hm
      have hlen : rest.length < f := by simpa using hf
      have ih1 := ih f (state + 1) (current + 1) (by omega) hd1 hlen
      simp [command_cycle, readline_command_generator, hs, hd, command_scan, hm, ih1,
        List.filter_cons, hp]
    · have hm1 : STREQLEN text name text.length = false := by simpa using hm
      have hp : ¬ text <+: name := fun hp => hm ((STREQLEN_spec text name).mpr hp)
      have hlen : rest.length < f + 1 := by
        have : (name :: rest).length < f + 1 := hf
        simp at this
        omega
      have ih1 := ih (f + 1) state (current + 1) hs hd1 hlen
      have hskip := readline_command_generator_skip text name rest state current hs hd hm1
      rw [List.filter_cons, if_neg (by simpa using hp), ← ih1]
      simp only [command_cycle, hskip]

theorem command_cycle_state (text : List Char) :
    ∀ (fuel s1 s2 current : Nat), s1 ≠ 0 → s2 ≠ 0 →
      command_cycle text fuel s1 current = command_cycle text fuel s2 current := by
  intro fuel
  induction fuel with
  | zero => intros; rfl
  | succ f ih =>
    intro s1 s2 current h1 h2
    have hg : readline_command_generator text s1 current
        = readline_command_generator text s2 current := by
      simp [readline_command_generator, h1, h2]
    simp only [command_cycle, hg]
    rcases readline_command_generator text s2 current with ⟨_ | name, c1⟩
    · rfl
    · simp only
      rw [ih (s1 + 1) (s2 + 1) c1 (by omega) (by omega)]

/-- C7: for every typed text, one cycle of `readline_command_generator`
(a call with state 0, then calls with non-zero state), started wherever the
previous cycle left the cursor, returns exactly the keywords of the table that
have the text as a prefix, in declaration order and each once, and then
`NULL`. -/
theorem readline_command_generator_cycle (text : List Char) (previous fuel : Nat)
    (hfuel : commands.length < fuel) :
    command_cycle text fuel 0 previous
        = (commands.filter (fun name => decide (text <+: name)), true)
      ∧ (commands.filter (fun name => decide (text <+: name))).Nodup := by
  constructor
  · obtain ⟨f, rfl⟩ : ∃ f, fuel = f + 1 := ⟨fuel - 1, by omega⟩
    have h1 := command_cycle_drop text commands (f + 1) 1 0 (by omega) rfl hfuel
    rw [← h1]
    have hg : readline_command_generator text 0 previous
        = readline_command_generator text 1 0 := by
      simp [readline_command_generator]
    simp only [command_cycle, hg]
    rcases readline_command_generator text 1 0 with ⟨_ | name, c1⟩
    · rfl
    · simp only
      rw [command_cycle_state text f (0 + 1) (1 + 1) c1 (by omega) (by omega)]
  · exact List.Nodup.filter _ (by decide)

theorem readline_command_generator_cycle_witness :
    commands.length < 31 ∧
    command_cycle "se".toList 31 0 17
        = (["set".toList, "setm".toList], true) := by
  refine ⟨by decide, ?_⟩
  have h := (readline_command_generator_cycle "se".toList 17 31 (by decide)).1
  rw [h]
  decide

/-! ### Script bridge -/

/-- C8: for each of the eighteen bridge functions, a call whose number of
arguments differs from the arity the specification lists raises the message
`Wrong number of arguments for 'aug_<name>'`, makes no call into the tree
store, leaves the store state as it was and prints nothing. -/
theorem bridge_arity_mismatch {σ : Type} (f : BridgeFn) (aug : Augeas σ) (lua : LuaRuntime)
    (args : List LuaValue) (h : σ) (hn : args.length ≠ f.spec_arity) :
    (f.run aug lua args h).outcome
        = LuaOutcome.error (LuaValue.string
            ("Wrong number of arguments for 'aug_".toList ++ f.spec_name ++ "'".toList))
      ∧ (f.run aug lua args h).calls = []
      ∧ (f.run aug lua args h).h = h
      ∧ (f.run aug lua args h).out = [] := by
  cases f <;>
    simp only [BridgeFn.spec_arity] at hn <;>
    simp only [BridgeFn.run, lua_aug_get, lua_aug_label, lua_aug_set, lua_aug_setm,
      lua_aug_insert, lua_aug_rm, lua_aug_mv, lua_aug_cp, lua_aug_rename, lua_aug_matches,
      lua_aug_match, lua_aug_defvar, lua_aug_defnode, lua_aug_save, lua_aug_load,
      lua_aug_text_store, lua_aug_text_retrieve, lua_aug_transform, lua_checkargs,
      BridgeFn.spec_name, hn, ne_eq, not_false_eq_true, if_true] <;>
    decide

theorem bridge_arity_mismatch_witness :
    [LuaValue.string "/files".toList, LuaValue.nil].length ≠ BridgeFn.get.spec_arity
      ∧ (BridgeFn.get.run (broken_store "No error".toList) plain_lua
          [LuaValue.string "/files".toList, LuaValue.nil] ()).outcome
        = LuaOutcome.error (LuaValue.string "Wrong number of arguments for 'aug_get'".toList)
      ∧ (BridgeFn.get.run (broken_store "No error".toList) plain_lua
          [LuaValue.string "/files".toList, LuaValue.nil] ()).calls = [] := by
  have h := bridge_arity_mismatch BridgeFn.get (broken_store "No error".toList) plain_lua
    [LuaValue.string "/files".toList, LuaValue.nil] () (by decide)
  exact ⟨by decide, by rw [h.1]; decide, h.2.1⟩

/-- C9 (counterexample): `aug_save` fails with -1 while the current error
message of the tree store is `disk full`; the bridge raises its own fixed
message, not the message of the tree store. -/
theorem lua_aug_save_raises_fixed_message :
    ((broken_store "disk full".toList).call () AugCall.aug_save).1.r < 0
      ∧ (BridgeFn.save.run (broken_store "disk full".toList) plain_lua [] ()).outcome
        = LuaOutcome.error (LuaValue.string "saving failed (run 'errors' for details)".toList)
      ∧ (BridgeFn.save.run (broken_store "disk full".toList) plain_lua [] ()).outcome
        ≠ LuaOutcome.error (LuaValue.string
            ((broken_store "disk full".toList).aug_error_message
              ((broken_store "disk full".toList).call () AugCall.aug_save).2)) := by
  decide

/-- C9 (amended): a bridge function other than `save`, called with the right
number of arguments, either rejects an argument before any call into the tree
store, or makes exactly one call into it; when that call reports failure (a
negative result) the function raises the error message the tree store holds
after the call.  `save` raises the fixed message
`saving failed (run 'errors' for details)` when `aug_save` returns -1. -/
theorem bridge_store_failure {σ : Type} (f : BridgeFn) (aug : Augeas σ) (lua : LuaRuntime)
    (args : List LuaValue) (h : σ) (hn : args.length = f.spec_arity) :
    (f ≠ BridgeFn.save →
        ((∃ n, (f.run aug lua args h).outcome = LuaOutcome.bad_argument n)
          ∧ (f.run aug lua args h).calls = [])
        ∨ ∃ c, (f.run aug lua args h).calls = [c]
            ∧ (f.run aug lua args h).h = (aug.call h c).2
            ∧ ((aug.call h c).1.r < 0 →
                (f.run aug lua args h).outcome
                  = LuaOutcome.error
                      (LuaValue.string (aug.aug_error_message (aug.call h c).2))))
      ∧ (f = BridgeFn.save → (aug.call h AugCall.aug_save).1.r = -1 →
          (f.run aug lua args h).outcome
              = LuaOutcome.error
                  (LuaValue.string "saving failed (run 'errors' for details)".toList)
            ∧ (f.run aug lua args h).calls = [AugCall.aug_save]) := by
  cases f <;> simp only [BridgeFn.spec_arity] at hn <;>
    refine ⟨fun hf => ?_, fun hf => ?_⟩ <;>
    first
    | exact absurd rfl hf
    | exact BridgeFn.noConfusion hf
    | skip
  all_goals
    simp only [BridgeFn.run, lua_aug_get, lua_aug_label, lua_aug_set, lua_aug_setm,
      lua_aug_insert, lua_aug_rm, lua_aug_mv, lua_aug_cp, lua_aug_rename, lua_aug_matches,
      lua_aug_match, lua_aug_defvar, lua_aug_defnode, lua_aug_save, lua_aug_load,
      lua_aug_text_store, lua_aug_text_retrieve, lua_aug_transform, lua_checkargs,
      lua_pusherror, hn, ne_eq, not_true_eq_false, if_false]
  all_goals try (cases luaL_checkstring lua args 1 <;> simp only [])
  all_goals try (cases luaL_checkstring lua args 2 <;> simp only [])
  all_goals try (cases luaL_checkstring lua args 3 <;> simp only [])
  all_goals try (cases luaL_checkstring lua args 4 <;> simp only [])
  all_goals
    first
    | exact Or.inl ⟨⟨_, rfl⟩, trivial⟩
    | exact Or.inl ⟨⟨_, rfl⟩, rfl⟩
    | (intro hr
       rw [if_pos hr]
       exact ⟨rfl, rfl⟩)
    | (split_ifs with hr
       · exact Or.inr ⟨_, rfl, rfl, fun _ => rfl⟩
       · first
         | exact Or.inr ⟨_, rfl, rfl, fun hr2 => absurd hr2 hr⟩
         | (split <;> exact Or.inr ⟨_, rfl, rfl, fun hr2 => absurd hr2 hr⟩))


theorem bridge_store_failure_witness :
    [LuaValue.string "/files/x".toList].length = BridgeFn.rm.spec_arity
      ∧ (BridgeFn.rm.run (broken_store "disk full".toList) plain_lua
          [LuaValue.string "/files/x".toList] ()).calls = [AugCall.aug_rm "/files/x".toList]
      ∧ (BridgeFn.rm.run (broken_store "disk full".toList) plain_lua
          [LuaValue.string "/files/x".toList] ()).outcome
        = LuaOutcome.error (LuaValue.string "disk full".toList) := by
  have hcalls : (BridgeFn.rm.run (broken_store "disk full".toList) plain_lua
      [LuaValue.string "/files/x".toList] ()).calls = [AugCall.aug_rm "/files/x".toList] := by
    decide
  have h := (bridge_store_failure BridgeFn.rm (broken_store "disk full".toList) plain_lua
    [LuaValue.string "/files/x".toList] () (by decide)).1 (by decide)
  rcases h with ⟨_, hnone⟩ | ⟨c, hc, _, hfail⟩
  · rw [hcalls] at hnone
    cases hnone
  · rw [hcalls] at hc
    cases hc
    exact ⟨by decide, hcalls, hfail (by decide)⟩

/-! ### Input source controller -/

theorem plain_of_mem (l : List Event) (hl : l.all Event.is_plain = true) (e : Event)
    (he : e ∈ l) : e.is_plain = true :=
  List.all_eq_true.mp hl e he

theorem plain_no_autosave (l : List Event) (hl : l.all Event.is_plain = true) :
    Event.autosave ∉ l := by
  intro he
  have := plain_of_mem l hl _ he
  simp [Event.is_plain] at this

theorem plain_count_eof (l : List Event) (hl : l.all Event.is_plain = true) :
    l.count (Event.readline none) = 0 := by
  rw [List.count_eq_zero]
  intro he
  have := plain_of_mem l hl _ he
  simp [Event.is_plain] at this

theorem plain_count_reopen (l : List Event) (hl : l.all Event.is_plain = true) :
    l.count (Event.reopen_stdin_tty true) = 0 := by
  rw [List.count_eq_zero]
  intro he
  have := plain_of_mem l hl _ he
  simp [Event.is_plain] at this

theorem print_aug_error_plain {σ : Type} (aug : Augeas σ) (h : σ) :
    (print_aug_error aug h).all Event.is_plain = true := by
  unfold print_aug_error
  split
  · rfl
  · split
    · cases aug.aug_error_minor_message h <;> cases aug.aug_error_details h <;> rfl
    · rfl

theorem run_command_plain {σ : Type} (sh : Shell σ) (tty : Bool) (h : σ) (line : List Char)
    (t : Bool) : (run_command sh tty h line t).2.2.all Event.is_plain = true := by
  simp only [run_command, print_time_taken]
  split <;> split <;> rfl

theorem run_command_srun {σ : Type} (sh : Shell σ) (tty : Bool) (h : σ) (line : List Char)
    (t : Bool) :
    Event.srun line (run_command sh tty h line t).1 ∈ (run_command sh tty h line t).2.2 := by
  simp [run_command]

/-- Running a line adds only plain events and leaves the control variables of
the loop alone; a line that is not skipped is run. -/
theorem dispatch_cases {σ : Type} (sh : Shell σ) (g : Globals) (st : LoopState σ)
    (line : List Char) (ev : List Event) :
    ∃ extra, extra.all Event.is_plain = true
      ∧ (line ≠ [] → line.head? ≠ some '#' →
          (∃ code, Event.srun line code ∈ extra) ∨ (∃ failed, Event.lua line failed ∈ extra))
      ∧ ((∃ st1, dispatch sh g st line ev = Step.next st1 (ev ++ extra)
            ∧ st1.control = st.control)
          ∨ (∃ ret st1, dispatch sh g st line ev = Step.exit ret st1 (ev ++ extra))) := by
  unfold dispatch
  by_cases hl : g.use_lua = true
  · simp only [hl, if_true]
    by_cases hc : (sh.lua_line st.h line).1 = true
    · simp only [hc, if_true]
      refine ⟨[Event.lua line true] ++ (if st.stdin_tty = true then [Event.add_history line] else [])
        ++ [Event.err (sh.lua_tostring_top (sh.lua_line st.h line).2 ++ ['\n'])], ?_, ?_, ?_⟩
      · cases st.stdin_tty <;> rfl
      · intro _ _
        exact Or.inr ⟨true, by simp⟩
      · exact Or.inl ⟨{ st with h := (sh.lua_line st.h line).2, ret := -1 },
          by simp [List.append_assoc], rfl⟩
    · have hc1 : (sh.lua_line st.h line).1 = false := by simpa using hc
      simp only [hc1]
      refine ⟨[Event.lua line false] ++ (if st.stdin_tty = true then [Event.add_history line] else []),
        ?_, ?_, ?_⟩
      · cases st.stdin_tty <;> rfl
      · intro _ _
        exact Or.inr ⟨false, by simp⟩
      · exact Or.inl ⟨{ st with h := (sh.lua_line st.h line).2 },
          by simp [List.append_assoc], rfl⟩
  · have hl1 : g.use_lua = false := by simpa using hl
    simp only [hl1]
    by_cases hskip : line = [] ∨ line.head? = some '#'
    · simp only [hskip, if_true]
      refine ⟨[], rfl, ?_, Or.inl ⟨st, by simp, rfl⟩⟩
      intro h1 h2
      rcases hskip with h | h
      · exact absurd h h1
      · exact absurd h h2
    · simp only [hskip, if_false]
      have hplain := run_command_plain sh st.stdin_tty st.h line g.timing
      have hsrun := run_command_srun sh st.stdin_tty st.h line g.timing
      by_cases hq : (run_command sh st.stdin_tty st.h line g.timing).1 = -2
      · simp only [hq, if_true]
        exact ⟨_, hplain, fun _ _ => Or.inl ⟨_, hsrun⟩, Or.inr ⟨_, _, rfl⟩⟩
      · simp only [hq, if_false]
        by_cases hneg : (run_command sh st.stdin_tty st.h line g.timing).1 < 0
        · simp only [hneg, if_true]
          refine ⟨(run_command sh st.stdin_tty st.h line g.timing).2.2
            ++ print_aug_error sh.aug (run_command sh st.stdin_tty st.h line g.timing).2.1,
            ?_, fun _ _ => Or.inl ⟨_, List.mem_append_left _ hsrun⟩,
            Or.inl ⟨{ st with h := (run_command sh st.stdin_tty st.h line g.timing).2.1,
                              ret := -1 }, by simp [List.append_assoc], rfl⟩⟩
          rw [List.all_append, hplain, print_aug_error_plain]
          rfl
        · simp only [hneg, if_false]
          exact ⟨_, hplain, fun _ _ => Or.inl ⟨_, hsrun⟩, Or.inl ⟨_, rfl, rfl⟩⟩

theorem loop_body_line {σ : Type} (sh : Shell σ) (g : Globals) (term : Terminal)
    (st : LoopState σ) (l : List Char) (rest : List (List Char))
    (hg : st.get_line = true) (hi : st.input = l :: rest) :
    loop_body sh g term st
      = dispatch sh g { st with input := rest } l [Event.readline (some l)] := by
  simp [loop_body, hg, hi]

/-- Without a line (the end of the input, or `get_line` cleared) an iteration
falls back to the terminal, or synthesizes `save`, or returns. -/
theorem loop_body_no_line {σ : Type} (sh : Shell σ) (g : Globals) (term : Terminal)
    (st : LoopState σ) (hi : st.get_line = true → st.input = []) :
    loop_body sh g term st
      = if can_fallback g st = true then
          fallback term st (if st.get_line = true then [Event.readline none] else [])
        else if st.auto_save = true then
          dispatch sh g { st with auto_save := false, get_line := false } "save".toList
            ((if st.get_line = true then [Event.readline none] else [])
              ++ [Event.autosave]
              ++ (if st.echo_commands = true then [Event.out "save\n".toList] else []))
        else
          Step.exit st.ret { st with get_line := false }
            ((if st.get_line = true then [Event.readline none] else [])
              ++ (if st.echo_commands = true then [Event.out ['\n']] else [])) := by
  unfold can_fallback
  by_cases hg : st.get_line = true
  · have hin := hi hg
    simp only [loop_body, hg, hin, if_true]
    split
    · rfl
    · split
      · cases st.echo_commands <;> rfl
      · rfl
  · have hg1 : st.get_line = false := by simpa using hg
    simp only [loop_body, hg1, Bool.false_eq_true, if_false]
    split
    · rfl
    · split
      · cases st.echo_commands <;> rfl
      · rfl

/-- The fallback either returns -1 or continues with `stdin` on the terminal;
it adds one successful reopening of `stdin`, no end of input and no marker, and
forces echo on. -/
theorem fallback_cases {σ : Type} (term : Terminal) (st : LoopState σ) (ev : List Event) :
    (∃ st1 extra, fallback term st ev = Step.exit (-1) st1 (ev ++ extra)
        ∧ Event.autosave ∉ extra)
      ∨ (∃ st1 extra, fallback term st ev = Step.next st1 (ev ++ extra)
        ∧ Event.autosave ∉ extra
        ∧ extra.count (Event.readline none) = 0
        ∧ extra.count (Event.reopen_stdin_tty true) = 1
        ∧ st1.get_line = st.get_line ∧ st1.auto_save = st.auto_save
        ∧ st1.in_interactive = true ∧ st1.stdin_tty = true ∧ st1.echo_commands = true
        ∧ st1.input = term.tty_input) := by
  unfold fallback
  cases hr : term.tty_opens_r
  · left
    refine ⟨{ st with in_interactive := true, echo_commands := true },
      (if st.echo_commands = true then [Event.out ['\n']] else [])
      ++ [Event.reopen_stdin_tty false, Event.err "Failed to open terminal for reading".toList],
      ?_, ?_⟩
    · cases st.echo_commands <;> simp
    · cases st.echo_commands <;> simp
  · simp only [Bool.not_true, Bool.false_eq_true, if_false]
    split
    · cases hw : term.tty_opens_w
      · left
        refine ⟨{ st with in_interactive := true, echo_commands := true, stdin_tty := true,
                          input := term.tty_input, rl_outstream := OutStream.null },
          (if st.echo_commands = true then [Event.out ['\n']] else [])
          ++ [Event.reopen_stdin_tty true, Event.reopen_stdout_tty false,
              Event.err "Failed to reopen stdout".toList], ?_, ?_⟩
        · cases st.echo_commands <;> simp
        · cases st.echo_commands <;> simp
      · right
        refine ⟨{ st with in_interactive := true, echo_commands := true, stdin_tty := true,
                          input := term.tty_input, rl_outstream := OutStream.stdout },
          (if st.echo_commands = true then [Event.out ['\n']] else [])
          ++ [Event.reopen_stdin_tty true, Event.reopen_stdout_tty true], ?_, ?_, ?_, ?_, ?_⟩
        · cases st.echo_commands <;> simp
        · cases st.echo_commands <;> simp
        · cases st.echo_commands <;> simp [List.count_cons]
        · cases st.echo_commands <;> simp [List.count_cons]
        · simp
    · right
      refine ⟨{ st with in_interactive := true, echo_commands := true, stdin_tty := true,
                        input := term.tty_input },
        (if st.echo_commands = true then [Event.out ['\n']] else [])
        ++ [Event.reopen_stdin_tty true], ?_, ?_, ?_, ?_, ?_⟩
      · cases st.echo_commands <;> simp
      · cases st.echo_commands <;> simp
      · cases st.echo_commands <;> simp [List.count_cons]
      · cases st.echo_commands <;> simp [List.count_cons]
      · simp

theorem loop_run_exit {σ : Type} (sh : Shell σ) (g : Globals) (term : Terminal) (fuel : Nat)
    (st st1 : LoopState σ) (ret : Int) (ev : List Event) (r : RunResult σ)
    (hb : loop_body sh g term st = Step.exit ret st1 ev)
    (hr : loop_run sh g term (fuel + 1) st = some r) :
    r.trace = ev ∧ r.ret = ret := by
  simp only [loop_run, hb, Option.some.injEq] at hr
  subst hr
  exact ⟨rfl, rfl⟩

theorem loop_run_next {σ : Type} (sh : Shell σ) (g : Globals) (term : Terminal) (fuel : Nat)
    (st st1 : LoopState σ) (ev : List Event) (r : RunResult σ)
    (hb : loop_body sh g term st = Step.next st1 ev)
    (hr : loop_run sh g term (fuel + 1) st = some r) :
    ∃ r1, loop_run sh g term fuel st1 = some r1 ∧ r.trace = ev ++ r1.trace ∧ r.ret = r1.ret := by
  simp only [loop_run, hb] at hr
  cases h1 : loop_run sh g term fuel st1 with
  | none => simp [h1] at hr
  | some r1 =>
    simp only [h1, Option.some.injEq] at hr
    subst hr
    exact ⟨r1, rfl, rfl, rfl⟩

/-- Once `save` has been synthesized and run, the next iteration returns:
nothing is read, reopened or synthesized any more. -/
theorem loop_run_idle {σ : Type} (sh : Shell σ) (g : Globals) (term : Terminal) (fuel : Nat)
    (st : LoopState σ) (r : RunResult σ) (hg : st.get_line = false)
    (ha : st.auto_save = false) (hf : can_fallback g st = false)
    (hr : loop_run sh g term fuel st = some r) :
    r.trace.all Event.is_plain = true := by
  cases fuel with
  | zero => simp [loop_run] at hr
  | succ fuel =>
    have hb := loop_body_no_line sh g term st (by simp [hg])
    simp only [hf, ha, hg, Bool.false_eq_true, if_false, List.nil_append] at hb
    obtain ⟨ht, _⟩ := loop_run_exit sh g term fuel st _ _ _ r hb hr
    rw [ht]
    cases st.echo_commands <;> rfl

theorem autosave_shape_none (bound : Nat) (pending : Bool) (tr : List Event)
    (h : Event.autosave ∉ tr) : autosave_shape bound pending tr :=
  Or.inl h

theorem autosave_shape_here (bound : Nat) (echo post : List Event)
    (hecho : echo.all Event.is_plain = true) (hpost : post.all Event.is_plain = true)
    (hruns : runs_save post) :
    autosave_shape bound true ([Event.readline none] ++ [Event.autosave] ++ echo ++ post) := by
  refine Or.inr ⟨rfl, [], echo ++ post, by simp, by simp, by simp, by simp, ?_, ?_⟩
  · rw [List.all_append, hecho, hpost]
    rfl
  · rcases hruns with ⟨c, hc⟩ | ⟨c, hc⟩
    · exact Or.inl ⟨c, List.mem_append_right _ hc⟩
    · exact Or.inr ⟨c, List.mem_append_right _ hc⟩

theorem autosave_shape_prepend (bound k : Nat) (pending : Bool) (ev tr : List Event)
    (h1 : Event.autosave ∉ ev)
    (h2 : ev.count (Event.readline none) = k)
    (h3 : ev.count (Event.reopen_stdin_tty true) = k)
    (h : autosave_shape bound pending tr) :
    autosave_shape (k + bound) pending (ev ++ tr) := by
  rcases h with hno | ⟨hp, pre, post, htr, hpre, hcount, hle, hpost, hruns⟩
  · left
    simp only [List.mem_append, not_or]
    exact ⟨h1, hno⟩
  · right
    refine ⟨hp, ev ++ pre, post, ?_, ?_, ?_, ?_, hpost, hruns⟩
    · rw [htr]
      simp [List.append_assoc]
    · simp only [List.mem_append, not_or]
      exact ⟨h1, hpre⟩
    · rw [List.count_append, List.count_append, h2, h3, hcount]
    · rw [List.count_append, h2]
      omega

/-- The shape of every trace of the loop: the marker of the synthesized `save`
occurs at most once, only when autosave was pending, directly after an end of
input; every earlier end of input was answered by a successful fallback, of
which there is at most one; and after the marker only lines are run. -/
theorem loop_run_shape {σ : Type} (sh : Shell σ) (g : Globals) (term : Terminal) :
    ∀ (fuel : Nat) (st : LoopState σ) (r : RunResult σ), st.get_line = true →
      loop_run sh g term fuel st = some r →
      autosave_shape (if can_fallback g st = true then 1 else 0) st.auto_save r.trace := by
  intro fuel
  induction fuel with
  | zero => intro st r _ hr; simp [loop_run] at hr
  | succ fuel ih =>
    intro st r hg hr
    cases hin : st.input with
    | cons l rest =>
      have hb := loop_body_line sh g term st l rest hg hin
      obtain ⟨extra, hplain, _, hstep⟩ :=
        dispatch_cases sh g { st with input := rest } l [Event.readline (some l)]
      have hev1 : Event.autosave ∉ [Event.readline (some l)] ++ extra := by
        simp only [List.mem_append, not_or]
        exact ⟨by simp, plain_no_autosave extra hplain⟩
      rcases hstep with ⟨st1, hd, hctl⟩ | ⟨ret, st1, hd⟩
      · rw [hd] at hb
        obtain ⟨r1, hr1, htr, _⟩ := loop_run_next sh g term fuel st st1 _ r hb hr
        simp only [LoopState.control, Prod.mk.injEq] at hctl
        obtain ⟨c1, c2, c3, c4, _, _⟩ := hctl
        have hih := ih st1 r1 (by rw [c1]; exact hg) hr1
        have hfb : can_fallback g st1 = can_fallback g st := by
          simp only [can_fallback, c3, c4]
        rw [hfb, c2] at hih
        rw [htr]
        have := autosave_shape_prepend _ 0 st.auto_save _ r1.trace hev1
          (by
            rw [List.count_append, plain_count_eof extra hplain]
            simp [List.count_cons])
          (by
            rw [List.count_append, plain_count_reopen extra hplain]
            simp [List.count_cons])
          hih
        simpa using this
      · rw [hd] at hb
        obtain ⟨htr, _⟩ := loop_run_exit sh g term fuel st st1 ret _ r hb hr
        rw [htr]
        exact autosave_shape_none _ _ _ hev1
    | nil =>
      have hb := loop_body_no_line sh g term st (fun _ => hin)
      simp only [hg, if_true] at hb
      by_cases hfb : can_fallback g st = true
      · simp only [hfb, if_true] at hb ⊢
        rcases fallback_cases term st [Event.readline none] with
          ⟨st1, extra, hf, hno⟩ | ⟨st1, extra, hf, hno, hc1, hc2, s1, s2, s3, _, _, _⟩
        · rw [hf] at hb
          obtain ⟨htr, _⟩ := loop_run_exit sh g term fuel st st1 _ _ r hb hr
          rw [htr]
          refine autosave_shape_none _ _ _ ?_
          simp only [List.mem_append, not_or]
          exact ⟨by simp, hno⟩
        · rw [hf] at hb
          obtain ⟨r1, hr1, htr, _⟩ := loop_run_next sh g term fuel st st1 _ r hb hr
          have hih := ih st1 r1 (by rw [s1]; exact hg) hr1
          have hfb1 : can_fallback g st1 = false := by
            simp [can_fallback, s3]
          rw [hfb1, s2] at hih
          simp only [Bool.false_eq_true, if_false] at hih
          rw [htr]
          have := autosave_shape_prepend 0 1 st.auto_save ([Event.readline none] ++ extra)
            r1.trace
            (by
              simp only [List.mem_append, not_or]
              exact ⟨by simp, hno⟩)
            (by rw [List.count_append, hc1]; simp [List.count_cons])
            (by rw [List.count_append, hc2]; simp [List.count_cons])
            hih
          simpa using this
      · have hfb0 : can_fallback g st = false := by simpa using hfb
        simp only [hfb0, Bool.false_eq_true, if_false] at hb ⊢
        by_cases ha : st.auto_save = true
        · simp only [ha, if_true] at hb
          rw [ha]
          obtain ⟨extra, hplain, hruns, hstep⟩ :=
            dispatch_cases sh g { st with auto_save := false, get_line := false } "save".toList
              ([Event.readline none] ++ [Event.autosave]
                ++ (if st.echo_commands = true then [Event.out "save\n".toList] else []))
          have hsave : runs_save extra := hruns (by decide) (by decide)
          have hecho : (if st.echo_commands = true then [Event.out "save\n".toList]
              else []).all Event.is_plain = true := by
            cases st.echo_commands <;> rfl
          rcases hstep with ⟨st1, hd, hctl⟩ | ⟨ret, st1, hd⟩
          · rw [hd] at hb
            obtain ⟨r1, hr1, htr, _⟩ := loop_run_next sh g term fuel st st1 _ r hb hr
            simp only [LoopState.control, Prod.mk.injEq] at hctl
            obtain ⟨c1, c2, c3, c4, _, _⟩ := hctl
            have hidle := loop_run_idle sh g term fuel st1 r1 c1 c2
              (by
                have : can_fallback g st1 = can_fallback g st := by
                  simp only [can_fallback, c3, c4]
                rw [this, hfb0])
              hr1
            rw [htr, List.append_assoc]
            refine autosave_shape_here 0 _ (extra ++ r1.trace) hecho ?_ ?_
            · rw [List.all_append, hplain, hidle]
              rfl
            · rcases hsave with ⟨c, hc⟩ | ⟨c, hc⟩
              · exact Or.inl ⟨c, List.mem_append_left _ hc⟩
              · exact Or.inr ⟨c, List.mem_append_left _ hc⟩
          · rw [hd] at hb
            obtain ⟨htr, _⟩ := loop_run_exit sh g term fuel st st1 ret _ r hb hr
            rw [htr]
            exact autosave_shape_here 0 _ extra hecho hplain hsave
        · have ha0 : st.auto_save = false := by simpa using ha
          simp only [ha0, Bool.false_eq_true, if_false] at hb
          obtain ⟨htr, _⟩ := loop_run_exit sh g term fuel st _ _ _ r hb hr
          rw [htr]
          refine autosave_shape_none _ _ _ ?_
          cases st.echo_commands <;> simp

theorem loop_run_of_exit {σ : Type} (sh : Shell σ) (g : Globals) (term : Terminal) (fuel : Nat)
    (st st1 : LoopState σ) (ret : Int) (ev : List Event)
    (hb : loop_body sh g term st = Step.exit ret st1 ev) :
    ∃ r, loop_run sh g term (fuel + 1) st = some r := by
  simp [loop_run, hb]

theorem loop_run_of_next {σ : Type} (sh : Shell σ) (g : Globals) (term : Terminal) (fuel : Nat)
    (st st1 : LoopState σ) (ev : List Event)
    (hb : loop_body sh g term st = Step.next st1 ev)
    (h1 : ∃ r1, loop_run sh g term fuel st1 = some r1) :
    ∃ r, loop_run sh g term (fuel + 1) st = some r := by
  obtain ⟨r1, hr1⟩ := h1
  simp [loop_run, hb, hr1]

theorem loop_measure_control {σ : Type} (g : Globals) (term : Terminal) (st st1 : LoopState σ)
    (h : st1.control = st.control) : loop_measure g term st1 = loop_measure g term st := by
  simp only [LoopState.control, Prod.mk.injEq] at h
  obtain ⟨c1, c2, c3, c4, _, c6⟩ := h
  simp only [loop_measure, can_fallback, c1, c2, c3, c4, c6]

/-- The loop returns: `loop_measure` iterations are enough from any state. -/
theorem loop_run_total {σ : Type} (sh : Shell σ) (g : Globals) (term : Terminal) :
    ∀ (fuel : Nat) (st : LoopState σ), loop_measure g term st ≤ fuel →
      ∃ r, loop_run sh g term fuel st = some r := by
  intro fuel
  induction fuel with
  | zero =>
    intro st hm
    simp [loop_measure] at hm
  | succ fuel ih =>
    intro st hm
    by_cases hline : ∃ l rest, st.get_line = true ∧ st.input = l :: rest
    · obtain ⟨l, rest, hg, hin⟩ := hline
      have hb := loop_body_line sh g term st l rest hg hin
      obtain ⟨extra, _, _, hstep⟩ :=
        dispatch_cases sh g { st with input := rest } l [Event.readline (some l)]
      rcases hstep with ⟨st1, hd, hctl⟩ | ⟨ret, st1, hd⟩
      · rw [hd] at hb
        refine loop_run_of_next sh g term fuel st st1 _ hb (ih st1 ?_)
        rw [loop_measure_control g term _ st1 hctl]
        simp only [loop_measure, can_fallback, hg, hin, if_true, List.length_cons] at hm ⊢
        omega
      · rw [hd] at hb
        exact loop_run_of_exit sh g term fuel st st1 ret _ hb
    · have hno : st.get_line = true → st.input = [] := by
        intro hg
        cases hin : st.input with
        | nil => rfl
        | cons l rest => exact absurd ⟨l, rest, hg, hin⟩ hline
      have hb := loop_body_no_line sh g term st hno
      by_cases hfb : can_fallback g st = true
      · simp only [hfb, if_true] at hb
        rcases fallback_cases term st (if st.get_line = true then [Event.readline none] else [])
          with ⟨st1, extra, hf, _⟩ | ⟨st1, extra, hf, _, _, _, s1, s2, s3, _, _, s6⟩
        · rw [hf] at hb
          exact loop_run_of_exit sh g term fuel st st1 _ _ hb
        · rw [hf] at hb
          refine loop_run_of_next sh g term fuel st st1 _ hb (ih st1 ?_)
          have hfb1 : can_fallback g st1 = false := by simp [can_fallback, s3]
          simp only [loop_measure, hfb, hfb1, s1, s2, s6, if_true, Bool.false_eq_true,
            if_false] at hm ⊢
          split at hm <;> split <;> omega
      · have hfb0 : can_fallback g st = false := by simpa using hfb
        simp only [hfb0, Bool.false_eq_true, if_false] at hb
        by_cases ha : st.auto_save = true
        · simp only [ha, if_true] at hb
          obtain ⟨extra, _, _, hstep⟩ :=
            dispatch_cases sh g { st with auto_save := false, get_line := false } "save".toList
              ((if st.get_line = true then [Event.readline none] else [])
                ++ [Event.autosave]
                ++ (if st.echo_commands = true then [Event.out "save\n".toList] else []))
          rcases hstep with ⟨st1, hd, hctl⟩ | ⟨ret, st1, hd⟩
          · rw [hd] at hb
            refine loop_run_of_next sh g term fuel st st1 _ hb (ih st1 ?_)
            rw [loop_measure_control g term _ st1 hctl]
            simp only [loop_measure, can_fallback, ha, if_true, Bool.false_eq_true, if_false] at hm ⊢
            have : (!st.stdin_tty && g.interactive && !st.in_interactive) = false := hfb0
            simp only [this, Bool.false_eq_true, if_false] at hm ⊢
            omega
          · rw [hd] at hb
            exact loop_run_of_exit sh g term fuel st st1 ret _ hb
        · have ha0 : st.auto_save = false := by simpa using ha
          simp only [ha0, Bool.false_eq_true, if_false] at hb
          exact loop_run_of_exit sh g term fuel st _ _ _ hb

theorem loop_init_measure {σ : Type} (g : Globals) (term : Terminal) (tty : Bool) (h : σ) :
    loop_measure g term (loop_init g term tty h : LoopState σ) ≤ loop_fuel term := by
  have hg : (loop_init g term tty h : LoopState σ).get_line = true := rfl
  have hi : (loop_init g term tty h : LoopState σ).input = term.input := rfl
  have ha : (loop_init g term tty h : LoopState σ).auto_save = g.auto_save := rfl
  unfold loop_measure loop_fuel
  rw [hg, hi, ha]
  simp only [if_true]
  split <;> split <;> omega

/-- `main_loop` returns for every input. -/
theorem main_loop_returns {σ : Type} (sh : Shell σ) (g : Globals) (term : Terminal) (h : σ) :
    ∃ r, main_loop sh g term h = some r := by
  unfold main_loop
  cases g.inputfile with
  | none => exact loop_run_total sh g term _ _ (loop_init_measure g term _ h)
  | some file =>
    simp only
    split
    · split <;> exact ⟨_, rfl⟩
    · split
      · exact ⟨_, rfl⟩
      · exact loop_run_total sh g term _ _ (loop_init_measure g term _ h)

theorem main_loop_shape {σ : Type} (sh : Shell σ) (g : Globals) (term : Terminal) (h : σ)
    (r : RunResult σ) (hr : main_loop sh g term h = some r) :
    autosave_shape 1 g.auto_save r.trace := by
  have hloop : ∀ tty, loop_run sh g term (loop_fuel term) (loop_init g term tty h) = some r →
      autosave_shape 1 g.auto_save r.trace := by
    intro tty hl
    have := loop_run_shape sh g term _ _ r rfl hl
    rcases this with hno | ⟨hp, pre, post, h1, h2, h3, h4, h5, h6⟩
    · exact Or.inl hno
    · refine Or.inr ⟨hp, pre, post, h1, h2, h3, ?_, h5, h6⟩
      split at h4 <;> omega
  unfold main_loop at hr
  cases hf : g.inputfile with
  | none =>
    rw [hf] at hr
    exact hloop _ hr
  | some file =>
    rw [hf] at hr
    simp only at hr
    split at hr
    · split at hr <;>
        (simp only [Option.some.injEq] at hr
         subst hr
         exact Or.inl (by simp))
    · split at hr
      · simp only [Option.some.injEq] at hr
        subst hr
        exact Or.inl (by simp)
      · exact hloop _ hr

/-- C10 (counterexample): one line is piped in, `--interactive` and
`--autosave` are given, and one line is typed at the terminal.  The first end
of input leads to the terminal; `save` is synthesized at the second end of
input, after the fallback. -/
theorem main_loop_fallback_then_autosave :
    (main_loop (script_shell []) interactive_autosave piped_then_typed 0).map RunResult.trace
      = some [Event.readline (some "set /a 1".toList), Event.srun "set /a 1".toList 0,
              Event.readline none, Event.reopen_stdin_tty true, Event.reopen_stdout_tty true,
              Event.readline (some "set /b 2".toList), Event.srun "set /b 2".toList 0,
              Event.add_history "set /b 2".toList,
              Event.readline none, Event.autosave, Event.out "save\n".toList,
              Event.srun "save".toList 0, Event.add_history "save".toList,
              Event.out ['\n']] := by
  decide

/-- C10 (amended): every run of `main_loop` returns, and in its trace `save`
is synthesized at most once, only when autosave was pending, and only directly
after an end of input that does not lead to the terminal: every end of input
before it was answered by a successful fallback, of which there is at most one.
After the marker `save` is run, and nothing is read, reopened or synthesized
any more. -/
theorem main_loop_autosave {σ : Type} (sh : Shell σ) (g : Globals) (term : Terminal) (h : σ) :
    ∃ r, main_loop sh g term h = some r
      ∧ (Event.autosave ∉ r.trace
        ∨ (g.auto_save = true ∧ ∃ pre post,
            r.trace = pre ++ [Event.readline none, Event.autosave] ++ post
            ∧ Event.autosave ∉ pre ∧ Event.autosave ∉ post
            ∧ pre.count (Event.readline none) = pre.count (Event.reopen_stdin_tty true)
            ∧ pre.count (Event.readline none) ≤ 1
            ∧ (∀ e ∈ post, ∀ l, e ≠ Event.readline l)
            ∧ (∀ e ∈ post, ∀ b, e ≠ Event.reopen_stdin_tty b)
            ∧ runs_save post)) := by
  obtain ⟨r, hr⟩ := main_loop_returns sh g term h
  refine ⟨r, hr, ?_⟩
  rcases main_loop_shape sh g term h r hr with hno | ⟨hp, pre, post, h1, h2, h3, h4, h5, h6⟩
  · exact Or.inl hno
  · refine Or.inr ⟨hp, pre, post, h1, h2, plain_no_autosave post h5, h3, h4, ?_, ?_, h6⟩
    · intro e he l hl
      have := plain_of_mem post h5 e he
      rw [hl] at this
      simp [Event.is_plain] at this
    · intro e he b hb
      have := plain_of_mem post h5 e he
      rw [hb] at this
      simp [Event.is_plain] at this

/-! ### The table of matches -/

theorem lua_settable_new (t : List (Int × List Char)) (key : Int) (value : List Char)
    (hnew : ∀ e ∈ t, e.1 ≠ key) : lua_settable t key value = t ++ [(key, value)] := by
  induction t with
  | nil => rfl
  | cons e rest ih =>
    obtain ⟨k, v⟩ := e
    have hk : k ≠ key := hnew (k, v) (List.mem_cons_self _ _)
    simp only [lua_settable, hk, if_false, List.cons_append]
    rw [ih (fun e he => hnew e (List.mem_cons_of_mem _ he))]

theorem numbered_append (s : Nat) (a b : List (List Char)) :
    numbered s (a ++ b) = numbered s a ++ numbered (s + a.length) b := by
  induction a generalizing s with
  | nil => simp [numbered]
  | cons p rest ih =>
    have e : s + 1 + rest.length = s + (rest.length + 1) := by omega
    have ih1 := ih (s + 1)
    rw [e] at ih1
    show (((s : Int) + 1), p) :: numbered (s + 1) (rest ++ b)
      = (((s : Int) + 1), p) :: numbered (s + 1) rest ++ numbered (s + (rest.length + 1)) b
    rw [ih1]
    rfl

theorem numbered_keys (s : Nat) (l : List (List Char)) :
    ∀ e ∈ numbered s l, (s : Int) < e.1 ∧ e.1 ≤ (s : Int) + l.length := by
  induction l generalizing s with
  | nil => intro e he; simp [numbered] at he
  | cons p rest ih =>
    intro e he
    simp only [numbered, List.mem_cons] at he
    rcases he with rfl | he
    · simp only [List.length_cons, Nat.cast_add, Nat.cast_one]
      omega
    · have := ih (s + 1) e he
      simp only [List.length_cons, Nat.cast_add, Nat.cast_one] at this ⊢
      omega

theorem numbered_length (s : Nat) (l : List (List Char)) : (numbered s l).length = l.length := by
  induction l generalizing s with
  | nil => rfl
  | cons p rest ih => simp [numbered, ih]

theorem lua_gettable_numbered (s : Nat) (l : List (List Char)) (i : Nat) :
    lua_gettable (numbered s l) ((s : Int) + i + 1) = l[i]? := by
  induction l generalizing s i with
  | nil => simp [numbered, lua_gettable]
  | cons p rest ih =>
    cases i with
    | zero => simp [numbered, lua_gettable]
    | succ j =>
      have hne : ¬ ((s : Int) + 1 = (s : Int) + ((j + 1 : Nat) : Int) + 1) := by
        simp only [Nat.cast_add, Nat.cast_one]
        omega
      simp only [numbered, lua_gettable, hne, if_false, List.getElem?_cons_succ]
      have := ih (s + 1) j
      rw [← this]
      congr 1
      simp only [Nat.cast_add, Nat.cast_one]
      omega

theorem lua_gettable_numbered_none (s : Nat) (l : List (List Char)) (key : Int)
    (hkey : key ≤ s ∨ (s : Int) + l.length < key) : lua_gettable (numbered s l) key = none := by
  induction l generalizing s with
  | nil => simp [numbered, lua_gettable]
  | cons p rest ih =>
    have hne : ¬ ((s : Int) + 1 = key) := by
      simp only [List.length_cons, Nat.cast_add, Nat.cast_one] at hkey
      omega
    simp only [numbered, lua_gettable, hne, if_false]
    apply ih
    simp only [List.length_cons, Nat.cast_add, Nat.cast_one] at hkey ⊢
    omega

/-- The loop of `lua_aug_match` builds the table key by key. -/
theorem match_table_numbered (paths : List (List Char)) :
    ∀ (n i : Nat), i + n ≤ paths.length →
      match_table paths n i (numbered 0 (paths.take i)) = some (numbered 0 (paths.take (i + n))) := by
  intro n
  induction n with
  | zero => intro i _; rfl
  | succ n ih =>
    intro i hle
    have hi : i < paths.length := by omega
    have hget : paths[i]? = some paths[i] := List.getElem?_eq_getElem hi
    have hnew : ∀ e ∈ numbered 0 (paths.take i), e.1 ≠ ((i : Int) + 1) := by
      intro e he
      have := (numbered_keys 0 (paths.take i) e he).2
      simp only [List.length_take, Nat.cast_zero, zero_add] at this
      have hmin : min i paths.length = i := by omega
      rw [hmin] at this
      omega
    have htake : paths.take (i + 1) = paths.take i ++ [paths[i]] := by
      rw [List.take_succ, hget]
      rfl
    have hstep : lua_settable (numbered 0 (paths.take i)) ((i : Int) + 1) paths[i]
        = numbered 0 (paths.take (i + 1)) := by
      rw [lua_settable_new _ _ _ hnew, htake, numbered_append]
      simp only [numbered, List.length_take, zero_add]
      have hmin : min i paths.length = i := by omega
      rw [hmin]
    simp only [match_table, hget, hstep]
    have := ih (i + 1) (by omega)
    rw [this]
    congr 3
    omega

/-- C14: the one argument converts to the path expression `path`, and the match
succeeds with `r` paths.  Then the bridge returns two values, a table and the
number `r`; the table has exactly `r` entries, the entry for key `i + 1` being
the path with index `i`, and no entry for any other key. -/
theorem lua_aug_match_returns_table {σ : Type} (aug : Augeas σ) (lua : LuaRuntime)
    (args : List LuaValue) (h : σ) (path : List Char)
    (hargs : args.length = 1) (hpath : luaL_checkstring lua args 1 = some path)
    (hr : (aug.call h (AugCall.aug_match path true)).1.r
        = ((aug.call h (AugCall.aug_match path true)).1.paths.length : Int)) :
    ∃ t, (lua_aug_match aug lua args h).outcome
          = LuaOutcome.returned
              [LuaValue.table t, LuaValue.number (aug.call h (AugCall.aug_match path true)).1.r]
      ∧ t.length = (aug.call h (AugCall.aug_match path true)).1.paths.length
      ∧ (∀ i, i < (aug.call h (AugCall.aug_match path true)).1.paths.length →
          lua_gettable t ((i : Int) + 1)
            = (aug.call h (AugCall.aug_match path true)).1.paths[i]?)
      ∧ (∀ key : Int, key < 1
            ∨ ((aug.call h (AugCall.aug_match path true)).1.paths.length : Int) < key →
          lua_gettable t key = none) := by
  refine ⟨numbered 0 (aug.call h (AugCall.aug_match path true)).1.paths, ?_,
    numbered_length _ _, ?_, ?_⟩
  · have hnot : ¬ (aug.call h (AugCall.aug_match path true)).1.r < 0 := by
      rw [hr]
      omega
    have hn : (aug.call h (AugCall.aug_match path true)).1.r.toNat
        = (aug.call h (AugCall.aug_match path true)).1.paths.length := by
      rw [hr]
      simp
    have hm := match_table_numbered (aug.call h (AugCall.aug_match path true)).1.paths
      (aug.call h (AugCall.aug_match path true)).1.paths.length 0 (by omega)
    simp only [List.take_zero, numbered, zero_add, List.take_length] at hm
    simp only [lua_aug_match, lua_checkargs, hargs, ne_eq, not_true_eq_false, if_false, hpath,
      hnot, hn, hm]
  · intro i _
    have := lua_gettable_numbered 0 (aug.call h (AugCall.aug_match path true)).1.paths i
    simpa using this
  · intro key hkey
    apply lua_gettable_numbered_none
    simp only [Nat.cast_zero, zero_add]
    omega

theorem lua_aug_match_returns_table_witness :
    [LuaValue.string "/a/*".toList].length = 1
      ∧ luaL_checkstring plain_lua [LuaValue.string "/a/*".toList] 1 = some "/a/*".toList
      ∧ (lua_aug_match ab_store plain_lua [LuaValue.string "/a/*".toList] ()).outcome
        = LuaOutcome.returned
            [LuaValue.table [(1, "/a/b".toList), (2, "/a/c".toList)], LuaValue.number 2]
      ∧ ∃ t, (lua_aug_match ab_store plain_lua [LuaValue.string "/a/*".toList] ()).outcome
            = LuaOutcome.returned [LuaValue.table t, LuaValue.number 2]
          ∧ lua_gettable t 2 = some "/a/c".toList := by
  obtain ⟨t, hout, _, hget, _⟩ := lua_aug_match_returns_table ab_store plain_lua
    [LuaValue.string "/a/*".toList] () "/a/*".toList (by decide) (by decide) (by decide)
  refine ⟨by decide, by decide, by decide, t, hout, ?_⟩
  have := hget 1 (by decide)
  simpa using this

/-! ### Timing -/

/-- The value printed is the floor of the elapsed milliseconds when the
microsecond field did not go back, and never differs from it by more than
one. -/
theorem elapsed_ms_floor (start stop : timeval) :
    (start.tv_usec ≤ stop.tv_usec → elapsed_ms start stop = floor_ms start stop)
      ∧ floor_ms start stop ≤ elapsed_ms start stop
      ∧ elapsed_ms start stop ≤ floor_ms start stop + 1 := by
  unfold elapsed_ms floor_ms
  have hf : ∀ a : Int, Int.fdiv a 1000 = a / 1000 := by
    intro a
    rw [Int.fdiv_eq_ediv a (by decide : (0 : Int) ≤ 1000)]
  rw [hf]
  have ht : ∀ a : Int, 0 ≤ a → a.tdiv 1000 = a / 1000 := by
    intro a ha
    exact Int.tdiv_eq_ediv ha (by decide)
  have ht2 : ∀ a : Int, a < 0 → a.tdiv 1000 = -((-a) / 1000) := by
    intro a ha
    have : a = -(-a) := by omega
    rw [this, Int.neg_tdiv, ht (-a) (by omega)]
    simp
  refine ⟨?_, ?_, ?_⟩
  · intro h
    rw [ht _ (by omega)]
    omega
  · by_cases h : 0 ≤ stop.tv_usec - start.tv_usec
    · rw [ht _ h]
      omega
    · rw [ht2 _ (by omega)]
      omega
  · by_cases h : 0 ≤ stop.tv_usec - start.tv_usec
    · rw [ht _ h]
      omega
    · rw [ht2 _ (by omega)]
      omega

/-- The elapsed time is reported exactly when timing is asked for and the
status of the command is not negative. -/
theorem run_command_reports_time {σ : Type} (sh : Shell σ) (tty : Bool) (h : σ)
    (line : List Char) (t : Bool) :
    ((∃ ms, Event.time_ms ms ∈ (run_command sh tty h line t).2.2)
        ↔ (t = true ∧ 0 ≤ (run_command sh tty h line t).1))
      ∧ ∀ ms, Event.time_ms ms ∈ (run_command sh tty h line t).2.2 →
          ms = elapsed_ms (sh.gettimeofday h)
            (sh.gettimeofday (sh.aug.call h (AugCall.aug_srun line)).2) := by
  simp only [run_command, print_time_taken]
  by_cases hcond : t = true ∧ 0 ≤ (sh.aug.call h (AugCall.aug_srun line)).1.r
  · obtain ⟨ht, hr⟩ := hcond
    cases tty <;> simp [ht, hr]
  · have hfalse : (t && decide ((sh.aug.call h (AugCall.aug_srun line)).1.r ≥ 0)) = false := by
      rw [Bool.and_eq_false_iff]
      by_cases ht : t = true
      · right
        simpa using fun hr => hcond ⟨ht, hr⟩
      · left
        simpa using ht
    cases tty <;> simp [hfalse, hcond]

/-- C15 (failing input): the clock reads 0 s 999999 us before the command and
1 s 0 us after it, so that one microsecond has elapsed and the whole
milliseconds are 0; `print_time_taken` reports 1, and so does `run_command`
with timing on. -/
theorem print_time_taken_rounds_up :
    print_time_taken { tv_sec := 0, tv_usec := 999999 } { tv_sec := 1, tv_usec := 0 }
        = [Event.time_ms 1]
      ∧ floor_ms { tv_sec := 0, tv_usec := 999999 } { tv_sec := 1, tv_usec := 0 } = 0
      ∧ (run_command ticking_shell false 0 "get /files".toList true).2.2
        = [Event.srun "get /files".toList 0, Event.time_ms 1] := by
  decide

/-- C17 (failing input): the context is `/files`, the typed text is
`../augeas/`, and the query `../augeas/*` returns `/augeas/version`, which
does not begin with the context.  The path is not returned unchanged: the
context strip is entered, shrinks the block to 10 bytes and copies from index
6, the length of the context, so that the outcome is undefined, and where the
old block can still be read it is `s/version`. -/
theorem readline_path_generator_strips_foreign_path :
    (augeas_store.call () (AugCall.aug_match (query_path "../augeas/".toList) true)).1.paths
        = ["/augeas/version".toList]
      ∧ (path_restart augeas_store "../augeas/".toList PathGenState.init ()).1.ctx
        = some "/files".toList
      ∧ ¬ ("/files".toList <+: "/augeas/version".toList)
      ∧ strip_size "/augeas/version".toList "/files".toList = 10
      ∧ (readline_path_generator augeas_store "../augeas/".toList 0 PathGenState.init ()).1
        ≠ Completion.candidate "/augeas/version".toList
      ∧ strip_if_intact "/files".toList "/augeas/version".toList = "s/version".toList
      ∧ path_cycle augeas_store "../augeas/".toList 3 0 PathGenState.init ()
        = [Completion.undefined] := by
  decide

/-! ### Runs of the loop in native mode -/

theorem loop_run_succ {σ : Type} (sh : Shell σ) (g : Globals) (term : Terminal) (fuel : Nat)
    (st : LoopState σ) (r : RunResult σ) (hr : loop_run sh g term (fuel + 1) st = some r) :
    (∃ ret st1 ev, loop_body sh g term st = Step.exit ret st1 ev
        ∧ r.ret = ret ∧ r.trace = ev ∧ r.echo_commands = st1.echo_commands
        ∧ r.auto_save = st1.auto_save)
      ∨ (∃ st1 ev r1, loop_body sh g term st = Step.next st1 ev
        ∧ loop_run sh g term fuel st1 = some r1
        ∧ r.ret = r1.ret ∧ r.trace = ev ++ r1.trace ∧ r.echo_commands = r1.echo_commands
        ∧ r.auto_save = r1.auto_save) := by
  cases hb : loop_body sh g term st with
  | exit ret st1 ev =>
    left
    simp only [loop_run, hb, Option.some.injEq] at hr
    subst hr
    exact ⟨ret, st1, ev, rfl, rfl, rfl, rfl, rfl⟩
  | next st1 ev =>
    right
    simp only [loop_run, hb] at hr
    cases h1 : loop_run sh g term fuel st1 with
    | none => simp [h1] at hr
    | some r1 =>
      simp only [h1, Option.some.injEq] at hr
      subst hr
      exact ⟨st1, ev, r1, rfl, h1, rfl, rfl, rfl, rfl⟩

theorem plain_reads (l : List Event) (hl : l.all Event.is_plain = true) : reads l = [] := by
  induction l with
  | nil => rfl
  | cons e rest ih =>
    simp only [List.all_cons, Bool.and_eq_true] at hl
    obtain ⟨he, hrest⟩ := hl
    cases e <;> simp [Event.is_plain] at he <;> simp [reads, ih hrest]

theorem plain_not_source (l : List Event) (hl : l.all Event.is_plain = true) :
    l.any Event.is_source = false := by
  induction l with
  | nil => rfl
  | cons e rest ih =>
    simp only [List.all_cons, Bool.and_eq_true] at hl
    obtain ⟨he, hrest⟩ := hl
    cases e <;> simp [Event.is_plain] at he <;> simp [Event.is_source, ih hrest]

theorem reads_append (a b : List Event) : reads (a ++ b) = reads a ++ reads b := by
  induction a with
  | nil => rfl
  | cons e rest ih => cases e <;> simp [reads, ih]

theorem handled_lines_append (a b : List Event) :
    handled_lines (a ++ b) = handled_lines a ++ handled_lines b := by
  induction a with
  | nil => rfl
  | cons e rest ih => cases e <;> simp [handled_lines, ih]

theorem print_aug_error_quiet {σ : Type} (aug : Augeas σ) (h : σ) :
    handled_lines (print_aug_error aug h) = []
      ∧ (print_aug_error aug h).any Event.is_failure = false
      ∧ (print_aug_error aug h).any Event.is_quit = false := by
  unfold print_aug_error
  split
  · exact ⟨rfl, rfl, rfl⟩
  · split
    · cases aug.aug_error_minor_message h <;> cases aug.aug_error_details h <;>
        exact ⟨rfl, rfl, rfl⟩
    · exact ⟨rfl, rfl, rfl⟩

theorem run_command_eq {σ : Type} (sh : Shell σ) (tty : Bool) (h : σ) (line : List Char)
    (t : Bool) :
    run_command sh tty h line t
      = ((sh.aug.call h (AugCall.aug_srun line)).1.r, (sh.aug.call h (AugCall.aug_srun line)).2,
         [Event.srun line (sh.aug.call h (AugCall.aug_srun line)).1.r]
           ++ (if (t && decide ((sh.aug.call h (AugCall.aug_srun line)).1.r ≥ 0)) = true then
                print_time_taken (sh.gettimeofday h)
                  (sh.gettimeofday (sh.aug.call h (AugCall.aug_srun line)).2)
               else [])
           ++ (if tty = true then [Event.add_history line] else [])) :=
  rfl

/-- The events of `run_command`: the call, the time when it is reported, and
the history entry when `stdin` is a terminal. -/
theorem run_command_events {σ : Type} (sh : Shell σ) (tty : Bool) (h : σ) (line : List Char)
    (t : Bool) :
    ∃ tm hist, (run_command sh tty h line t).2.2
        = [Event.srun line (run_command sh tty h line t).1] ++ tm ++ hist
      ∧ ((run_command sh tty h line t).1 < 0 → tm = [])
      ∧ handled_lines tm = [] ∧ tm.any Event.is_failure = false
      ∧ tm.any Event.is_quit = false
      ∧ (hist = [] ∨ hist = [Event.add_history line]) := by
  rw [run_command_eq]
  generalize (sh.aug.call h (AugCall.aug_srun line)).1.r = code
  refine ⟨_, _, rfl, ?_, ?_, ?_, ?_, ?_⟩
  · intro hneg
    have hneg1 : code < 0 := hneg
    have : (t && decide (code ≥ 0)) = false := by
      rw [Bool.and_eq_false_iff]
      right
      simp only [decide_eq_false_iff_not]
      omega
    rw [this]
    rfl
  · split <;> rfl
  · split <;> rfl
  · split <;> rfl
  · cases tty
    · left; rfl
    · right; rfl

/-- Running a line in native mode: a blank line changes nothing; the quit
status returns from the loop with the status so far; any other line is run,
and a negative status is recorded. -/
theorem dispatch_native {σ : Type} (sh : Shell σ) (g : Globals) (st : LoopState σ)
    (line : List Char) (ev : List Event) (hl : g.use_lua = false) :
    (is_blank line → dispatch sh g st line ev = Step.next st ev)
      ∧ ∃ extra, extra.all Event.is_plain = true
        ∧ (∀ x ∈ handled_lines extra, x = line ∧ ¬ is_blank line)
        ∧ ((∃ st1, dispatch sh g st line ev = Step.next st1 (ev ++ extra)
              ∧ st1.control = st.control ∧ st1.rl_outstream = st.rl_outstream
              ∧ extra.any Event.is_quit = false
              ∧ st1.ret = (if extra.any Event.is_failure = true then -1 else st.ret))
            ∨ (∃ st1 hist, dispatch sh g st line ev = Step.exit st.ret st1 (ev ++ extra)
              ∧ extra = Event.srun line (-2) :: hist
              ∧ (hist = [] ∨ hist = [Event.add_history line])
              ∧ st1.echo_commands = st.echo_commands ∧ st1.auto_save = st.auto_save)) := by
  unfold dispatch
  simp only [hl, Bool.false_eq_true, if_false]
  by_cases hskip : line = [] ∨ line.head? = some '#'
  · simp only [hskip, if_true]
    refine ⟨?_, [], ?_, ?_, Or.inl ⟨st, ?_, ?_, ?_, ?_, ?_⟩⟩ <;>
      first
      | trivial
      | rfl
      | exact fun _ => rfl
      | simp [handled_lines]
  · simp only [hskip, if_false]
    refine ⟨fun hb => absurd hb hskip, ?_⟩
    obtain ⟨tm, hist, hev, htm, hh, hf, hq, hhist⟩ :=
      run_command_events sh st.stdin_tty st.h line g.timing
    have hplain := run_command_plain sh st.stdin_tty st.h line g.timing
    have hhl : ∀ x ∈ handled_lines ([Event.srun line
        (run_command sh st.stdin_tty st.h line g.timing).1] ++ tm ++ hist),
        x = line ∧ ¬ is_blank line := by
      intro x hx
      rw [handled_lines_append, handled_lines_append, hh] at hx
      rcases hhist with rfl | rfl <;> simp [handled_lines] at hx <;> exact ⟨hx, hskip⟩
    generalize (run_command sh st.stdin_tty st.h line g.timing).2.2 = rc at hev hplain
    generalize (run_command sh st.stdin_tty st.h line g.timing).2.1 = h1
    generalize (run_command sh st.stdin_tty st.h line g.timing).1 = code at hev htm hhl
    subst hev
    by_cases hquit : code = -2
    · simp only [hquit, if_true]
      subst hquit
      rw [htm (by omega)] at hplain hhl ⊢
      exact ⟨_, hplain, hhl, Or.inr ⟨_, hist, rfl, rfl, hhist, rfl, rfl⟩⟩
    · simp only [hquit, if_false]
      by_cases hneg : code < 0
      · simp only [hneg, if_true]
        obtain ⟨p1, p2, p3⟩ := print_aug_error_quiet sh.aug h1
        refine ⟨([Event.srun line code] ++ tm ++ hist) ++ print_aug_error sh.aug h1,
          ?_, ?_, Or.inl ⟨{ st with h := h1, ret := -1 }, by simp [List.append_assoc], rfl, rfl,
            ?_, ?_⟩⟩
        · rw [List.all_append, hplain, print_aug_error_plain]
          rfl
        · intro x hx
          rw [handled_lines_append, p1, List.append_nil] at hx
          exact hhl x hx
        · rw [List.any_append, p3, List.any_append, List.any_append, hq]
          rcases hhist with rfl | rfl <;> simp [Event.is_quit, hquit]
        · have : (([Event.srun line code] ++ tm ++ hist)
              ++ print_aug_error sh.aug h1).any Event.is_failure = true := by
            simp [Event.is_failure, hneg, hquit]
          rw [if_pos this]
      · simp only [hneg, if_false]
        refine ⟨_, hplain, hhl, Or.inl ⟨{ st with h := h1 }, rfl, rfl, rfl, ?_, ?_⟩⟩
        · rw [List.any_append, List.any_append, hq]
          rcases hhist with rfl | rfl <;> simp [Event.is_quit, hquit]
        · have : ([Event.srun line code] ++ tm ++ hist).any Event.is_failure = false := by
            rw [List.any_append, List.any_append, hf]
            rcases hhist with rfl | rfl <;> simp [Event.is_failure, hneg]
          rw [this]
          simp

theorem output_silent (l : List Event) (hl : l.all Event.is_output = true) :
    l.all Event.is_silent = true := by
  induction l with
  | nil => rfl
  | cons e rest ih =>
    simp only [List.all_cons, Bool.and_eq_true] at hl ⊢
    obtain ⟨he, hrest⟩ := hl
    exact ⟨by cases e <;> simp [Event.is_output] at he <;> rfl, ih hrest⟩

theorem silent_quiet (l : List Event) (hl : l.all Event.is_silent = true) :
    handled_lines l = [] ∧ l.any Event.is_failure = false ∧ l.any Event.is_quit = false := by
  induction l with
  | nil => exact ⟨rfl, rfl, rfl⟩
  | cons e rest ih =>
    simp only [List.all_cons, Bool.and_eq_true] at hl
    obtain ⟨he, hrest⟩ := hl
    obtain ⟨h1, h2, h3⟩ := ih hrest
    cases e <;> simp [Event.is_silent] at he <;>
      simp [handled_lines, Event.is_failure, Event.is_quit, h1, h2, h3]

theorem output_no_source (l : List Event) (hl : l.all Event.is_output = true) :
    l.any Event.is_source = false ∧ reads l = [] ∧ Event.autosave ∉ l := by
  induction l with
  | nil => exact ⟨rfl, rfl, by simp⟩
  | cons e rest ih =>
    simp only [List.all_cons, Bool.and_eq_true] at hl
    obtain ⟨he, hrest⟩ := hl
    obtain ⟨h1, h2, h3⟩ := ih hrest
    cases e <;> simp [Event.is_output] at he <;> simp [Event.is_source, reads, h1, h2, h3]

/-- The fallback in detail: what is printed, the reopening of `stdin`, and what
follows it; echo is on afterwards; it returns -1 only when the terminal cannot
be opened. -/
theorem fallback_detail {σ : Type} (term : Terminal) (st : LoopState σ) (ev : List Event) :
    ∃ e0 e1 b st1, e0.all Event.is_output = true ∧ e1.all Event.is_output = true
      ∧ st1.echo_commands = true ∧ st1.auto_save = st.auto_save
      ∧ ((fallback term st ev = Step.exit (-1) st1 (ev ++ e0 ++ [Event.reopen_stdin_tty b] ++ e1)
            ∧ (term.tty_opens_r = false ∨ term.tty_opens_w = false))
          ∨ (fallback term st ev = Step.next st1 (ev ++ e0 ++ [Event.reopen_stdin_tty b] ++ e1)
            ∧ b = true ∧ st1.ret = st.ret ∧ st1.get_line = st.get_line
            ∧ st1.in_interactive = true ∧ st1.stdin_tty = true
            ∧ st1.input = term.tty_input)) := by
  have he0 : (if st.echo_commands = true then [Event.out ['\n']] else []).all Event.is_output
      = true := by
    cases st.echo_commands <;> rfl
  unfold fallback
  cases hr : term.tty_opens_r
  · refine ⟨_, [Event.err "Failed to open terminal for reading".toList], false,
      { st with in_interactive := true, echo_commands := true }, he0, rfl, rfl, rfl,
      Or.inl ⟨?_, Or.inl rfl⟩⟩
    cases st.echo_commands <;> simp
  · simp only [Bool.not_true, Bool.false_eq_true, if_false]
    split
    · cases hw : term.tty_opens_w
      · refine ⟨_, [Event.reopen_stdout_tty false, Event.err "Failed to reopen stdout".toList],
          true, { st with in_interactive := true, echo_commands := true, stdin_tty := true,
                          input := term.tty_input, rl_outstream := OutStream.null },
          he0, rfl, rfl, rfl, Or.inl ⟨?_, Or.inr rfl⟩⟩
        cases st.echo_commands <;> simp
      · refine ⟨_, [Event.reopen_stdout_tty true], true,
          { st with in_interactive := true, echo_commands := true, stdin_tty := true,
                    input := term.tty_input, rl_outstream := OutStream.stdout },
          he0, rfl, rfl, rfl, Or.inr ⟨?_, rfl, rfl, rfl, rfl, rfl, rfl⟩⟩
        cases st.echo_commands <;> simp
    · refine ⟨_, [], true,
        { st with in_interactive := true, echo_commands := true, stdin_tty := true,
                  input := term.tty_input },
        he0, rfl, rfl, rfl, Or.inr ⟨?_, rfl, rfl, rfl, rfl, rfl, rfl⟩⟩
      cases st.echo_commands <;> simp

/-- One iteration in native mode: a step that goes on has run no quit, and
records a failure exactly when a line returned a negative status; a step that
returns has either run the quit status last (history apart) and returns the
status so far, or has run nothing and returns the status so far, or -1 when the
terminal cannot be opened.  No blank line reaches the evaluator or the
history. -/
theorem native_step {σ : Type} (sh : Shell σ) (g : Globals) (term : Terminal)
    (st : LoopState σ) (hl : g.use_lua = false) :
    (∀ st1 ev, loop_body sh g term st = Step.next st1 ev →
        ev.any Event.is_quit = false
          ∧ st1.ret = (if ev.any Event.is_failure = true then -1 else st.ret)
          ∧ ∀ x ∈ handled_lines ev, ¬ is_blank x)
      ∧ (∀ ret st1 ev, loop_body sh g term st = Step.exit ret st1 ev →
          ev.any Event.is_failure = false
            ∧ (∀ x ∈ handled_lines ev, ¬ is_blank x)
            ∧ ((ev.all Event.is_silent = true
                  ∧ (ret = st.ret
                    ∨ (ret = -1 ∧ (term.tty_opens_r = false ∨ term.tty_opens_w = false))))
                ∨ (∃ pre line hist, ev = pre ++ Event.srun line (-2) :: hist
                    ∧ pre.all Event.is_silent = true
                    ∧ (hist = [] ∨ hist = [Event.add_history line])
                    ∧ ret = st.ret))) := by
  have key : ∀ (st0 : LoopState σ) (line : List Char) (ev0 : List Event),
      st0.ret = st.ret → ev0.all Event.is_silent = true →
      loop_body sh g term st = dispatch sh g st0 line ev0 →
      (∀ st1 ev, loop_body sh g term st = Step.next st1 ev →
        ev.any Event.is_quit = false
          ∧ st1.ret = (if ev.any Event.is_failure = true then -1 else st.ret)
          ∧ ∀ x ∈ handled_lines ev, ¬ is_blank x)
      ∧ (∀ ret st1 ev, loop_body sh g term st = Step.exit ret st1 ev →
          ev.any Event.is_failure = false
            ∧ (∀ x ∈ handled_lines ev, ¬ is_blank x)
            ∧ ((ev.all Event.is_silent = true
                  ∧ (ret = st.ret
                    ∨ (ret = -1 ∧ (term.tty_opens_r = false ∨ term.tty_opens_w = false))))
                ∨ (∃ pre line hist, ev = pre ++ Event.srun line (-2) :: hist
                    ∧ pre.all Event.is_silent = true
                    ∧ (hist = [] ∨ hist = [Event.add_history line])
                    ∧ ret = st.ret))) := by
    intro st0 line ev0 hret0 hsil hb
    obtain ⟨s1, s2, s3⟩ := silent_quiet ev0 hsil
    obtain ⟨_, extra, _, hhl, hcase⟩ := dispatch_native sh g st0 line ev0 hl
    rcases hcase with ⟨st1, hd, _, _, hq, hr⟩ | ⟨st1, hist, hd, hex, hhist, _, _⟩
    · constructor
      · intro st2 ev hb2
        rw [hb, hd] at hb2
        simp only [Step.next.injEq] at hb2
        obtain ⟨rfl, rfl⟩ := hb2
        refine ⟨by rw [List.any_append, s3, hq]; rfl, ?_, ?_⟩
        · rw [hr, hret0, List.any_append, s2]
          simp
        · intro x hx
          rw [handled_lines_append, s1] at hx
          exact (hhl x hx).1 ▸ (hhl x hx).2
      · intro ret st2 ev hb2
        rw [hb, hd] at hb2
        cases hb2
    · constructor
      · intro st2 ev hb2
        rw [hb, hd] at hb2
        cases hb2
      · intro ret st2 ev hb2
        rw [hb, hd] at hb2
        simp only [Step.exit.injEq] at hb2
        obtain ⟨rfl, rfl, rfl⟩ := hb2
        refine ⟨?_, ?_, Or.inr ⟨ev0, line, hist, by rw [hex], hsil, hhist, hret0⟩⟩
        · rw [List.any_append, s2, hex]
          rcases hhist with rfl | rfl <;> simp [Event.is_failure]
        · intro x hx
          rw [handled_lines_append, s1] at hx
          exact (hhl x hx).1 ▸ (hhl x hx).2
  by_cases hline : ∃ l rest, st.get_line = true ∧ st.input = l :: rest
  · obtain ⟨l, rest, hg, hin⟩ := hline
    exact key { st with input := rest } l [Event.readline (some l)] rfl rfl
      (loop_body_line sh g term st l rest hg hin)
  · have hno : st.get_line = true → st.input = [] := by
      intro hg
      cases hin : st.input with
      | nil => rfl
      | cons l rest => exact absurd ⟨l, rest, hg, hin⟩ hline
    have hb := loop_body_no_line sh g term st hno
    have heof : (if st.get_line = true then [Event.readline none] else []).all Event.is_silent
        = true := by
      cases st.get_line <;> rfl
    by_cases hfb : can_fallback g st = true
    · simp only [hfb, if_true] at hb
      obtain ⟨e0, e1, b, st1, h0, h1, _, _, hcase⟩ :=
        fallback_detail term st (if st.get_line = true then [Event.readline none] else [])
      have hsil : ((if st.get_line = true then [Event.readline none] else []) ++ e0
          ++ [Event.reopen_stdin_tty b] ++ e1).all Event.is_silent = true := by
        rw [List.all_append, List.all_append, List.all_append, heof, output_silent e0 h0,
          output_silent e1 h1]
        rfl
      obtain ⟨s1, s2, s3⟩ := silent_quiet _ hsil
      rcases hcase with ⟨hf, hopen⟩ | ⟨hf, _, hret, _⟩
      · constructor
        · intro st2 ev hb2
          rw [hb, hf] at hb2
          cases hb2
        · intro ret st2 ev hb2
          rw [hb, hf] at hb2
          simp only [Step.exit.injEq] at hb2
          obtain ⟨rfl, rfl, rfl⟩ := hb2
          exact ⟨s2, by rw [s1]; simp, Or.inl ⟨hsil, Or.inr ⟨rfl, hopen⟩⟩⟩
      · constructor
        · intro st2 ev hb2
          rw [hb, hf] at hb2
          simp only [Step.next.injEq] at hb2
          obtain ⟨rfl, rfl⟩ := hb2
          refine ⟨s3, ?_, by rw [s1]; simp⟩
          rw [s2, hret]
          simp
        · intro ret st2 ev hb2
          rw [hb, hf] at hb2
          cases hb2
    · have hfb0 : can_fallback g st = false := by simpa using hfb
      simp only [hfb0, Bool.false_eq_true, if_false] at hb
      by_cases ha : st.auto_save = true
      · simp only [ha, if_true] at hb
        refine key { st with auto_save := false, get_line := false } "save".toList _ rfl ?_ hb
        rw [List.all_append, List.all_append, heof]
        cases st.echo_commands <;> rfl
      · have ha0 : st.auto_save = false := by simpa using ha
        simp only [ha0, Bool.false_eq_true, if_false] at hb
        have hsil : ((if st.get_line = true then [Event.readline none] else [])
            ++ (if st.echo_commands = true then [Event.out ['\n']] else [])).all Event.is_silent
            = true := by
          rw [List.all_append, heof]
          cases st.echo_commands <;> rfl
        obtain ⟨s1, s2, s3⟩ := silent_quiet _ hsil
        constructor
        · intro st2 ev hb2
          rw [hb] at hb2
          cases hb2
        · intro ret st2 ev hb2
          rw [hb] at hb2
          simp only [Step.exit.injEq] at hb2
          obtain ⟨rfl, rfl, rfl⟩ := hb2
          exact ⟨s2, by rw [s1]; simp, Or.inl ⟨hsil, Or.inl rfl⟩⟩

/-- In native mode, when the terminal can be opened, a run from any state
returns -1 if a line of the run returned a negative status other than the quit
status, and the status it started with otherwise. -/
theorem loop_run_ret {σ : Type} (sh : Shell σ) (g : Globals) (term : Terminal)
    (hl : g.use_lua = false) (hopen_r : term.tty_opens_r = true)
    (hopen_w : term.tty_opens_w = true) :
    ∀ (fuel : Nat) (st : LoopState σ) (r : RunResult σ),
      loop_run sh g term fuel st = some r →
      r.ret = (if r.trace.any Event.is_failure = true then -1 else st.ret) := by
  intro fuel
  induction fuel with
  | zero => intro st r hr; simp [loop_run] at hr
  | succ fuel ih =>
    intro st r hr
    obtain ⟨hnext, hexit⟩ := native_step sh g term st hl
    rcases loop_run_succ sh g term fuel st r hr with
      ⟨ret, st1, ev, hb, hret, htr, _, _⟩ | ⟨st1, ev, r1, hb, hr1, hret, htr, _, _⟩
    · obtain ⟨hf, _, hcase⟩ := hexit ret st1 ev hb
      rw [hret, htr, hf]
      rcases hcase with ⟨_, hst | ⟨_, hno | hno⟩⟩ | ⟨_, _, _, _, _, _, hst⟩
      · simpa using hst
      · rw [hopen_r] at hno
        cases hno
      · rw [hopen_w] at hno
        cases hno
      · simpa using hst
    · obtain ⟨_, hst1, _⟩ := hnext st1 ev hb
      have := ih st1 r1 hr1
      rw [hret, htr, this, hst1, List.any_append]
      by_cases h1 : ev.any Event.is_failure = true <;>
        by_cases h2 : r1.trace.any Event.is_failure = true <;> simp [h1, h2]

/-- In native mode a run contains no quit status, or ends with it, the history
entry of that line apart; the status returned then is -1 if a line before it
had failed, and the status the run started with otherwise. -/
theorem loop_run_quit {σ : Type} (sh : Shell σ) (g : Globals) (term : Terminal)
    (hl : g.use_lua = false) :
    ∀ (fuel : Nat) (st : LoopState σ) (r : RunResult σ),
      loop_run sh g term fuel st = some r →
      r.trace.any Event.is_quit = false
        ∨ ∃ pre line hist, r.trace = pre ++ Event.srun line (-2) :: hist
            ∧ pre.any Event.is_quit = false
            ∧ (hist = [] ∨ hist = [Event.add_history line])
            ∧ r.ret = (if pre.any Event.is_failure = true then -1 else st.ret) := by
  intro fuel
  induction fuel with
  | zero => intro st r hr; simp [loop_run] at hr
  | succ fuel ih =>
    intro st r hr
    obtain ⟨hnext, hexit⟩ := native_step sh g term st hl
    rcases loop_run_succ sh g term fuel st r hr with
      ⟨ret, st1, ev, hb, hret, htr, _, _⟩ | ⟨st1, ev, r1, hb, hr1, hret, htr, _, _⟩
    · obtain ⟨_, _, hcase⟩ := hexit ret st1 ev hb
      rcases hcase with ⟨hsil, _⟩ | ⟨pre, line, hist, hev, hpre, hhist, hst⟩
      · left
        rw [htr]
        exact (silent_quiet ev hsil).2.2
      · right
        obtain ⟨_, p2, p3⟩ := silent_quiet pre hpre
        refine ⟨pre, line, hist, by rw [htr, hev], p3, hhist, ?_⟩
        rw [hret, hst, p2]
        simp
    · obtain ⟨hq, hst1, _⟩ := hnext st1 ev hb
      rcases ih st1 r1 hr1 with hno | ⟨pre, line, hist, h1, h2, h3, h4⟩
      · left
        rw [htr, List.any_append, hq, hno]
        rfl
      · right
        refine ⟨ev ++ pre, line, hist, by rw [htr, h1, List.append_assoc], ?_, h3, ?_⟩
        · rw [List.any_append, hq, h2]
          rfl
        · rw [hret, h4, hst1, List.any_append]
          by_cases a1 : ev.any Event.is_failure = true <;>
            by_cases a2 : pre.any Event.is_failure = true <;> simp [a1, a2]

/-- In native mode no blank line reaches `aug_srun` or the history. -/
theorem loop_run_handled {σ : Type} (sh : Shell σ) (g : Globals) (term : Terminal)
    (hl : g.use_lua = false) :
    ∀ (fuel : Nat) (st : LoopState σ) (r : RunResult σ),
      loop_run sh g term fuel st = some r →
      ∀ x ∈ handled_lines r.trace, ¬ is_blank x := by
  intro fuel
  induction fuel with
  | zero => intro st r hr; simp [loop_run] at hr
  | succ fuel ih =>
    intro st r hr
    obtain ⟨hnext, hexit⟩ := native_step sh g term st hl
    rcases loop_run_succ sh g term fuel st r hr with
      ⟨ret, st1, ev, hb, _, htr, _, _⟩ | ⟨st1, ev, r1, hb, hr1, _, htr, _, _⟩
    · rw [htr]
      exact (hexit ret st1 ev hb).2.1
    · intro x hx
      rw [htr, handled_lines_append, List.mem_append] at hx
      rcases hx with hx | hx
      · exact (hnext st1 ev hb).2.2 x hx
      · exact ih st1 r1 hr1 x hx

/-- In native mode `main_loop` is a run of the loop from its initial state,
unless the input file cannot be opened. -/
theorem main_loop_native {σ : Type} (sh : Shell σ) (g : Globals) (term : Terminal) (h : σ)
    (r : RunResult σ) (hl : g.use_lua = false) (hr : main_loop sh g term h = some r) :
    (loop_run sh g term (loop_fuel term)
        (loop_init g term
          (match g.inputfile with
            | some _ => term.inputfile_isatty
            | none => term.stdin_isatty) h) = some r)
      ∨ (g.inputfile ≠ none ∧ term.inputfile_opens = false ∧ r.ret = -1
          ∧ r.trace.all Event.is_output = true) := by
  unfold main_loop at hr
  cases hf : g.inputfile with
  | none =>
    rw [hf] at hr
    exact Or.inl hr
  | some file =>
    rw [hf] at hr
    simp only [hl, Bool.false_eq_true, if_false] at hr
    cases ho : term.inputfile_opens
    · right
      simp only [ho, Bool.not_false, if_true, Option.some.injEq] at hr
      subst hr
      exact ⟨by simp, rfl, rfl, rfl⟩
    · left
      simpa [ho] using hr

theorem loop_init_ret {σ : Type} (g : Globals) (term : Terminal) (tty : Bool) (h : σ) :
    (loop_init g term tty h : LoopState σ).ret = 0 :=
  rfl

/-- C11: in native mode, when a line returns the quit status -2, the trace of
`main_loop` ends with that call, followed only by the history entry that
`run_command` adds for the line itself: nothing is read, synthesized, printed
or reported after it.  No earlier line returned -2, and the status returned is
-1 when a line before it had failed and 0 otherwise. -/
theorem main_loop_quit {σ : Type} (sh : Shell σ) (g : Globals) (term : Terminal) (h : σ)
    (r : RunResult σ) (line : List Char) (hl : g.use_lua = false)
    (hr : main_loop sh g term h = some r) (hq : Event.srun line (-2) ∈ r.trace) :
    ∃ pre hist, r.trace = pre ++ Event.srun line (-2) :: hist
      ∧ (hist = [] ∨ hist = [Event.add_history line])
      ∧ (∀ l, Event.srun l (-2) ∉ pre)
      ∧ r.ret = (if pre.any Event.is_failure = true then -1 else 0) := by
  rcases main_loop_native sh g term h r hl hr with hrun | ⟨_, _, _, hout⟩
  · rcases loop_run_quit sh g term hl _ _ r hrun with hno | ⟨pre, line1, hist, h1, h2, h3, h4⟩
    · exfalso
      have : r.trace.any Event.is_quit = true := by
        rw [List.any_eq_true]
        exact ⟨_, hq, by simp [Event.is_quit]⟩
      rw [hno] at this
      cases this
    · have hpre : ∀ l, Event.srun l (-2) ∉ pre := by
        intro l hmem
        have : pre.any Event.is_quit = true := by
          rw [List.any_eq_true]
          exact ⟨_, hmem, by simp [Event.is_quit]⟩
        rw [h2] at this
        cases this
      have hline : line1 = line := by
        rw [h1, List.mem_append, List.mem_cons] at hq
        rcases hq with hq | hq | hq
        · exact absurd hq (hpre line)
        · simp only [Event.srun.injEq] at hq
          exact hq.1.symm
        · rcases h3 with rfl | rfl <;> simp at hq
      subst hline
      exact ⟨pre, hist, h1, h3, hpre, by rw [h4, loop_init_ret]⟩
  · exfalso
    have := (silent_quiet _ (output_silent _ hout)).2.2
    have h2 : r.trace.any Event.is_quit = true := by
      rw [List.any_eq_true]
      exact ⟨_, hq, by simp [Event.is_quit]⟩
    rw [this] at h2
    cases h2

theorem main_loop_quit_witness :
    (main_loop (script_shell [0, -2, 0]) interactive_autosave piped_then_typed 0).map
        (fun r => (r.ret, r.trace))
        = some (0, [Event.readline (some "set /a 1".toList), Event.srun "set /a 1".toList 0,
                Event.readline none, Event.reopen_stdin_tty true, Event.reopen_stdout_tty true,
                Event.readline (some "set /b 2".toList), Event.srun "set /b 2".toList (-2),
                Event.add_history "set /b 2".toList])
      ∧ ∀ r, main_loop (script_shell [0, -2, 0]) interactive_autosave piped_then_typed 0
          = some r →
        ∃ pre hist, r.trace = pre ++ Event.srun "set /b 2".toList (-2) :: hist
          ∧ (hist = [] ∨ hist = [Event.add_history "set /b 2".toList])
          ∧ (∀ l, Event.srun l (-2) ∉ pre)
          ∧ r.ret = (if pre.any Event.is_failure = true then -1 else 0) := by
  have htrace : (main_loop (script_shell [0, -2, 0]) interactive_autosave piped_then_typed
      0).map (fun r => (r.ret, r.trace))
        = some (0, [Event.readline (some "set /a 1".toList), Event.srun "set /a 1".toList 0,
                Event.readline none, Event.reopen_stdin_tty true, Event.reopen_stdout_tty true,
                Event.readline (some "set /b 2".toList), Event.srun "set /b 2".toList (-2),
                Event.add_history "set /b 2".toList]) := by
    decide
  refine ⟨htrace, fun r hr => ?_⟩
  refine main_loop_quit (script_shell [0, -2, 0]) interactive_autosave piped_then_typed 0 r
    "set /b 2".toList rfl hr ?_
  rw [hr] at htrace
  simp only [Option.map_some', Option.some.injEq, Prod.mk.injEq] at htrace
  rw [htrace.2]
  simp

/-- C12 (counterexample): in Lua mode at a terminal the operator types the
line `# note` and an empty line.  Both are run as chunks and added to the
history, and the first, which the Lua runtime rejects, turns the status into
-1. -/
theorem main_loop_lua_runs_blank_lines :
    (main_loop lua_shell lua_globals typed_comment 0).map (fun r => (r.ret, r.trace))
      = some (-1,
          [Event.readline (some "# note".toList), Event.lua "# note".toList true,
           Event.add_history "# note".toList,
           Event.err "unexpected symbol near '#'\n".toList,
           Event.readline (some []), Event.lua [] false, Event.add_history [],
           Event.readline none, Event.out ['\n']]) := by
  decide

/-- C12 (amended): in native mode an iteration that reads a line that is empty
or begins with `#` does nothing but read it: the line reaches neither
`aug_srun` nor the history, the status and the store are unchanged, and the
loop goes on with the rest of the input; in no run of `main_loop` does such a
line reach `aug_srun` or the history.  In Lua mode every line that is read,
these included, is run as a chunk and added to the history when `stdin` is a
terminal, and the status becomes -1 when the chunk fails. -/
theorem main_loop_blank_line {σ : Type} (sh : Shell σ) (g : Globals) (term : Terminal)
    (st : LoopState σ) (l : List Char) (rest : List (List Char))
    (hg : st.get_line = true) (hin : st.input = l :: rest) (hb : is_blank l) :
    (g.use_lua = false →
        loop_body sh g term st = Step.next { st with input := rest } [Event.readline (some l)]
          ∧ ∀ h r, main_loop sh g term h = some r →
              ∀ x ∈ handled_lines r.trace, ¬ is_blank x)
      ∧ (g.use_lua = true →
        ∃ st1 ev, loop_body sh g term st = Step.next st1 ev
          ∧ Event.lua l (sh.lua_line st.h l).1 ∈ ev
          ∧ (st.stdin_tty = true → Event.add_history l ∈ ev)
          ∧ st1.ret = (if (sh.lua_line st.h l).1 = true then -1 else st.ret)) := by
  have hbody := loop_body_line sh g term st l rest hg hin
  constructor
  · intro hl
    constructor
    · rw [hbody]
      exact (dispatch_native sh g { st with input := rest } l [Event.readline (some l)] hl).1 hb
    · intro h r hr
      rcases main_loop_native sh g term h r hl hr with hrun | ⟨_, _, _, hout⟩
      · exact loop_run_handled sh g term hl _ _ r hrun
      · rw [(silent_quiet _ (output_silent _ hout)).1]
        simp
  · intro hl
    rw [hbody]
    unfold dispatch
    simp only [hl, if_true]
    by_cases hc : (sh.lua_line st.h l).1 = true
    · simp only [hc, if_true]
      refine ⟨_, _, rfl, by simp, ?_, rfl⟩
      intro ht
      simp [ht]
    · have hc0 : (sh.lua_line st.h l).1 = false := by simpa using hc
      simp only [hc0, Bool.false_eq_true, if_false]
      refine ⟨_, _, rfl, by simp, ?_, rfl⟩
      intro ht
      simp [ht]

theorem main_loop_blank_line_witness :
    (loop_init plain_globals typed_comment true (0 : Nat)).get_line = true
      ∧ (loop_init plain_globals typed_comment true (0 : Nat)).input = "# note".toList :: [[]]
      ∧ is_blank "# note".toList
      ∧ (main_loop (script_shell []) plain_globals typed_comment 0).map
          (fun r => (r.ret, r.trace))
        = some (0, [Event.readline (some "# note".toList), Event.readline (some []),
                    Event.readline none, Event.out ['\n']])
      ∧ ∀ h r, main_loop (script_shell []) plain_globals typed_comment h = some r →
          ∀ x ∈ handled_lines r.trace, ¬ is_blank x := by
  have h := (main_loop_blank_line (script_shell []) plain_globals typed_comment
    (loop_init plain_globals typed_comment true (0 : Nat)) "# note".toList [[]] rfl rfl
    (by decide)).1 rfl
  exact ⟨rfl, rfl, by decide, by decide, h.2⟩

theorem any_is_failure_iff (tr : List Event) :
    tr.any Event.is_failure = true
      ↔ ∃ line code, Event.srun line code ∈ tr ∧ code < 0 ∧ code ≠ -2 := by
  rw [List.any_eq_true]
  constructor
  · rintro ⟨e, he, hf⟩
    cases e <;> simp [Event.is_failure] at hf
    exact ⟨_, _, he, hf.1, hf.2⟩
  · rintro ⟨line, code, hmem, h1, h2⟩
    exact ⟨_, hmem, by simp [Event.is_failure, h1, h2]⟩

theorem any_is_quit_iff (tr : List Event) :
    tr.any Event.is_quit = false ↔ ∀ line, Event.srun line (-2) ∉ tr := by
  constructor
  · intro h line hmem
    have : tr.any Event.is_quit = true := by
      rw [List.any_eq_true]
      exact ⟨_, hmem, by simp [Event.is_quit]⟩
    rw [h] at this
    cases this
  · intro h
    rw [Bool.eq_false_iff]
    intro hany
    rw [List.any_eq_true] at hany
    obtain ⟨e, he, hq⟩ := hany
    cases e <;> simp [Event.is_quit] at hq
    subst hq
    exact h _ he

/-- In native mode, when the terminal can be opened and no line returns the
quit status, the loop reads every line of its input up to the end of the
input, and after a fallback every line typed at the terminal up to its end,
whatever status the lines return. -/
theorem loop_run_reads {σ : Type} (sh : Shell σ) (g : Globals) (term : Terminal)
    (hl : g.use_lua = false) (hopen_r : term.tty_opens_r = true)
    (hopen_w : term.tty_opens_w = true) :
    ∀ (fuel : Nat) (st : LoopState σ) (r : RunResult σ), st.get_line = true →
      loop_run sh g term fuel st = some r → r.trace.any Event.is_quit = false →
      reads r.trace
        = st.input.map some ++ [none]
          ++ (if can_fallback g st = true then term.tty_input.map some ++ [none] else []) := by
  intro fuel
  induction fuel with
  | zero => intro st r _ hr; simp [loop_run] at hr
  | succ fuel ih =>
    intro st r hg hr hq
    rcases loop_run_succ sh g term fuel st r hr with
      ⟨ret, st1, ev, hb, _, htr, _, _⟩ | ⟨st1, ev, r1, hb, hr1, _, htr, _, _⟩
    · -- the iteration returns
      cases hin : st.input with
      | cons l rest =>
        have hbody := loop_body_line sh g term st l rest hg hin
        obtain ⟨_, extra, _, _, hcase⟩ :=
          dispatch_native sh g { st with input := rest } l [Event.readline (some l)] hl
        rcases hcase with ⟨st2, hd, _⟩ | ⟨st2, hist, hd, hex, _⟩
        · rw [hbody, hd] at hb
          cases hb
        · rw [hbody, hd] at hb
          simp only [Step.exit.injEq] at hb
          obtain ⟨_, _, rfl⟩ := hb
          rw [htr, hex] at hq
          simp [Event.is_quit] at hq
      | nil =>
        have hbody := loop_body_no_line sh g term st (fun _ => hin)
        simp only [hg, if_true] at hbody
        by_cases hfb : can_fallback g st = true
        · simp only [hfb, if_true] at hbody
          obtain ⟨e0, e1, b, st2, _, _, _, _, hcase⟩ :=
            fallback_detail term st [Event.readline none]
          rcases hcase with ⟨_, hno | hno⟩ | ⟨hf, _⟩
          · rw [hopen_r] at hno
            cases hno
          · rw [hopen_w] at hno
            cases hno
          · rw [hbody, hf] at hb
            cases hb
        · have hfb0 : can_fallback g st = false := by simpa using hfb
          simp only [hfb0, Bool.false_eq_true, if_false] at hbody
          by_cases ha : st.auto_save = true
          · simp only [ha, if_true] at hbody
            obtain ⟨_, extra, _, _, hcase⟩ :=
              dispatch_native sh g { st with auto_save := false, get_line := false }
                "save".toList ([Event.readline none] ++ [Event.autosave]
                  ++ (if st.echo_commands = true then [Event.out "save\n".toList] else [])) hl
            rcases hcase with ⟨st2, hd, _⟩ | ⟨st2, hist, hd, hex, _⟩
            · rw [hbody, hd] at hb
              cases hb
            · rw [hbody, hd] at hb
              simp only [Step.exit.injEq] at hb
              obtain ⟨_, _, rfl⟩ := hb
              rw [htr, hex] at hq
              simp [Event.is_quit] at hq
          · have ha0 : st.auto_save = false := by simpa using ha
            simp only [ha0, Bool.false_eq_true, if_false] at hbody
            rw [hbody] at hb
            simp only [Step.exit.injEq] at hb
            obtain ⟨_, _, rfl⟩ := hb
            rw [htr, hfb0]
            cases st.echo_commands <;> simp [reads]
    · -- the iteration goes on
      rw [htr, List.any_append, Bool.or_eq_false_iff] at hq
      obtain ⟨_, hq1⟩ := hq
      cases hin : st.input with
      | cons l rest =>
        have hbody := loop_body_line sh g term st l rest hg hin
        obtain ⟨_, extra, hplain, _, hcase⟩ :=
          dispatch_native sh g { st with input := rest } l [Event.readline (some l)] hl
        rcases hcase with ⟨st2, hd, hctl, _⟩ | ⟨st2, hist, hd, _⟩
        · rw [hbody, hd] at hb
          simp only [Step.next.injEq] at hb
          obtain ⟨rfl, rfl⟩ := hb
          simp only [LoopState.control, Prod.mk.injEq] at hctl
          obtain ⟨c1, _, c3, c4, _, c6⟩ := hctl
          have hih := ih st2 r1 (by rw [c1]; exact hg) hr1 hq1
          have hfb : can_fallback g st2 = can_fallback g st := by
            simp only [can_fallback, c3, c4]
          rw [htr, reads_append, reads_append, plain_reads extra hplain, hih, hfb, c6]
          simp [reads]
        · rw [hbody, hd] at hb
          cases hb
      | nil =>
        have hbody := loop_body_no_line sh g term st (fun _ => hin)
        simp only [hg, if_true] at hbody
        by_cases hfb : can_fallback g st = true
        · simp only [hfb, if_true] at hbody ⊢
          obtain ⟨e0, e1, b, st2, h0, h1, _, _, hcase⟩ :=
            fallback_detail term st [Event.readline none]
          rcases hcase with ⟨hf, _⟩ | ⟨hf, _, _, s1, s3, _, s6⟩
          · rw [hbody, hf] at hb
            cases hb
          · rw [hbody, hf] at hb
            simp only [Step.next.injEq] at hb
            obtain ⟨rfl, rfl⟩ := hb
            have hih := ih st2 r1 (by rw [s1]; exact hg) hr1 hq1
            have hfb1 : can_fallback g st2 = false := by simp [can_fallback, s3]
            rw [htr, reads_append, reads_append, reads_append, reads_append,
              (output_no_source e0 h0).2.1, (output_no_source e1 h1).2.1, hih, hfb1, s6]
            simp [reads]
        · have hfb0 : can_fallback g st = false := by simpa using hfb
          simp only [hfb0, Bool.false_eq_true, if_false] at hbody ⊢
          by_cases ha : st.auto_save = true
          · simp only [ha, if_true] at hbody
            obtain ⟨_, extra, hplain, _, hcase⟩ :=
              dispatch_native sh g { st with auto_save := false, get_line := false }
                "save".toList ([Event.readline none] ++ [Event.autosave]
                  ++ (if st.echo_commands = true then [Event.out "save\n".toList] else [])) hl
            rcases hcase with ⟨st2, hd, hctl, _⟩ | ⟨st2, hist, hd, _⟩
            · rw [hbody, hd] at hb
              simp only [Step.next.injEq] at hb
              obtain ⟨rfl, rfl⟩ := hb
              simp only [LoopState.control, Prod.mk.injEq] at hctl
              obtain ⟨c1, c2, c3, c4, _, _⟩ := hctl
              have hidle := loop_run_idle sh g term fuel st2 r1 c1 c2
                (by
                  have : can_fallback g st2 = can_fallback g st := by
                    simp only [can_fallback, c3, c4]
                  rw [this, hfb0])
                hr1
              rw [htr, reads_append, reads_append, plain_reads extra hplain,
                plain_reads r1.trace hidle]
              cases st.echo_commands <;> simp [reads]
            · rw [hbody, hd] at hb
              cases hb
          · have ha0 : st.auto_save = false := by simpa using ha
            simp only [ha0, Bool.false_eq_true, if_false] at hbody
            rw [hbody] at hb
            cases hb

/-- C16: in native mode, when the input file and the terminal can be opened,
`main_loop` returns, and it returns -1 if and only if a line it ran, the
synthesized `save` included, returned a negative status other than the quit
status, and 0 otherwise.  A failing line does not stop the loop: unless a line
returns the quit status, every line of the input is read up to its end, and
after a fallback every line typed at the terminal. -/
theorem main_loop_status {σ : Type} (sh : Shell σ) (g : Globals) (term : Terminal) (h : σ)
    (hl : g.use_lua = false) (hfile : g.inputfile ≠ none → term.inputfile_opens = true)
    (hopen_r : term.tty_opens_r = true) (hopen_w : term.tty_opens_w = true) :
    ∃ r, main_loop sh g term h = some r
      ∧ (r.ret = -1 ↔ ∃ line code, Event.srun line code ∈ r.trace ∧ code < 0 ∧ code ≠ -2)
      ∧ ((¬ ∃ line code, Event.srun line code ∈ r.trace ∧ code < 0 ∧ code ≠ -2) → r.ret = 0)
      ∧ ((∀ line, Event.srun line (-2) ∉ r.trace) →
          reads r.trace
            = term.input.map some ++ [none]
              ++ (if (!(match g.inputfile with
                        | some _ => term.inputfile_isatty
                        | none => term.stdin_isatty) && g.interactive) = true
                  then term.tty_input.map some ++ [none] else [])) := by
  obtain ⟨r, hr⟩ := main_loop_returns sh g term h
  refine ⟨r, hr, ?_⟩
  rcases main_loop_native sh g term h r hl hr with hrun | ⟨hsome, hno, _, _⟩
  · have hret := loop_run_ret sh g term hl hopen_r hopen_w _ _ r hrun
    rw [loop_init_ret] at hret
    refine ⟨?_, ?_, ?_⟩
    · rw [← any_is_failure_iff, hret]
      by_cases hf : r.trace.any Event.is_failure = true <;> simp [hf]
    · intro hnone
      rw [← any_is_failure_iff] at hnone
      rw [hret, if_neg hnone]
    · intro hq
      have := loop_run_reads sh g term hl hopen_r hopen_w _ _ r rfl hrun
        ((any_is_quit_iff r.trace).mpr hq)
      rw [this]
      simp [loop_init, can_fallback]
  · rw [hfile hsome] at hno
    cases hno

theorem main_loop_status_witness :
    (main_loop (script_shell [-1, 0, 0]) interactive_autosave piped_then_typed 0).map
        (fun r => (r.ret, r.trace))
        = some (-1,
            [Event.readline (some "set /a 1".toList), Event.srun "set /a 1".toList (-1),
             Event.readline none, Event.reopen_stdin_tty true, Event.reopen_stdout_tty true,
             Event.readline (some "set /b 2".toList), Event.srun "set /b 2".toList 0,
             Event.add_history "set /b 2".toList,
             Event.readline none, Event.autosave, Event.out "save\n".toList,
             Event.srun "save".toList 0, Event.add_history "save".toList,
             Event.out ['\n']])
      ∧ ∃ r, main_loop (script_shell [-1, 0, 0]) interactive_autosave piped_then_typed 0
            = some r
          ∧ (r.ret = -1
            ↔ ∃ line code, Event.srun line code ∈ r.trace ∧ code < 0 ∧ code ≠ -2) := by
  obtain ⟨r, hr, hiff, _, _⟩ := main_loop_status (script_shell [-1, 0, 0]) interactive_autosave
    piped_then_typed 0 rfl (by decide) rfl rfl
  exact ⟨by decide, r, hr, hiff⟩

/-! ### The fallback to the terminal -/

theorem plain_no_sources (l : List Event) (hl : l.all Event.is_plain = true) :
    l.filter Event.is_source = [] ∧ ∀ b, Event.reopen_stdin_tty b ∉ l := by
  have hany := plain_not_source l hl
  constructor
  · rw [List.filter_eq_nil_iff]
    intro e he hs
    have : l.any Event.is_source = true := List.any_eq_true.mpr ⟨e, he, hs⟩
    rw [hany] at this
    cases this
  · intro b hb
    have : l.any Event.is_source = true := List.any_eq_true.mpr ⟨_, hb, rfl⟩
    rw [hany] at this
    cases this

theorem output_no_sources (l : List Event) (hl : l.all Event.is_output = true) :
    l.filter Event.is_source = [] ∧ ∀ b, Event.reopen_stdin_tty b ∉ l := by
  have hany := (output_no_source l hl).1
  constructor
  · rw [List.filter_eq_nil_iff]
    intro e he hs
    have : l.any Event.is_source = true := List.any_eq_true.mpr ⟨e, he, hs⟩
    rw [hany] at this
    cases this
  · intro b hb
    have : l.any Event.is_source = true := List.any_eq_true.mpr ⟨_, hb, rfl⟩
    rw [hany] at this
    cases this

/-- Running a line never changes the echo setting, also when the line makes
the loop return. -/
theorem dispatch_exit_echo {σ : Type} (sh : Shell σ) (g : Globals) (st st1 : LoopState σ)
    (line : List Char) (ev ev1 : List Event) (ret : Int)
    (hd : dispatch sh g st line ev = Step.exit ret st1 ev1) :
    st1.echo_commands = st.echo_commands := by
  simp only [dispatch] at hd
  split_ifs at hd
  simp only [Step.exit.injEq, reduceCtorEq] at hd
  obtain ⟨_, rfl, _⟩ := hd
  rfl

theorem loop_run_idle_echo {σ : Type} (sh : Shell σ) (g : Globals) (term : Terminal)
    (fuel : Nat) (st : LoopState σ) (r : RunResult σ) (hg : st.get_line = false)
    (ha : st.auto_save = false) (hf : can_fallback g st = false)
    (hr : loop_run sh g term fuel st = some r) :
    r.echo_commands = st.echo_commands := by
  cases fuel with
  | zero => simp [loop_run] at hr
  | succ fuel =>
    have hb := loop_body_no_line sh g term st (by simp [hg])
    simp only [hf, ha, hg, Bool.false_eq_true, if_false, List.nil_append] at hb
    rcases loop_run_succ sh g term fuel st r hr with
      ⟨ret, st1, ev, hb1, _, _, he, _⟩ | ⟨st1, ev, r1, hb1, _⟩
    · rw [hb] at hb1
      simp only [Step.exit.injEq] at hb1
      obtain ⟨_, rfl, _⟩ := hb1
      exact he
    · rw [hb] at hb1
      cases hb1

/-- The source events of a run of the loop, in order, form a prefix of: the
lines still to be read from the current source and its end, then, if the
fallback is still possible, one reopening of `stdin`, the lines typed at the
terminal and their end.  Without a possible fallback the echo setting is kept;
a reopening of `stdin` leaves it on. -/
theorem loop_run_sources {σ : Type} (sh : Shell σ) (g : Globals) (term : Terminal) :
    ∀ (fuel : Nat) (st : LoopState σ) (r : RunResult σ), st.get_line = true →
      loop_run sh g term fuel st = some r →
      (∃ ok, r.trace.filter Event.is_source
          <+: st.input.map (fun l => Event.readline (some l))
              ++ Event.readline none
                :: (if can_fallback g st = true then
                      Event.reopen_stdin_tty ok
                        :: (term.tty_input.map (fun l => Event.readline (some l))
                            ++ [Event.readline none])
                    else []))
        ∧ (can_fallback g st = false →
            r.echo_commands = st.echo_commands ∧ ∀ b, Event.reopen_stdin_tty b ∉ r.trace)
        ∧ (∀ b, Event.reopen_stdin_tty b ∈ r.trace → r.echo_commands = true) := by
  intro fuel
  induction fuel with
  | zero => intro st r _ hr; simp [loop_run] at hr
  | succ fuel ih =>
    intro st r hg hr
    cases hin : st.input with
    | cons l rest =>
      have hbody := loop_body_line sh g term st l rest hg hin
      obtain ⟨extra, hplain, _, hcase⟩ :=
        dispatch_cases sh g { st with input := rest } l [Event.readline (some l)]
      obtain ⟨hx1, hx2⟩ := plain_no_sources extra hplain
      rcases hcase with ⟨st2, hd, hctl⟩ | ⟨ret, st2, hd⟩
      · rw [hd] at hbody
        rcases loop_run_succ sh g term fuel st r hr with
          ⟨ret, st1, ev, hb, _⟩ | ⟨st1, ev, r1, hb, hr1, _, htr, he, _⟩
        · rw [hbody] at hb
          cases hb
        · rw [hbody] at hb
          simp only [Step.next.injEq] at hb
          obtain ⟨rfl, rfl⟩ := hb
          simp only [LoopState.control, Prod.mk.injEq] at hctl
          obtain ⟨c1, _, c3, c4, c5, c6⟩ := hctl
          obtain ⟨⟨ok, hpre⟩, hkeep, hon⟩ := ih st2 r1 (by rw [c1]; exact hg) hr1
          have hfb : can_fallback g st2 = can_fallback g st := by
            simp only [can_fallback, c3, c4]
          rw [hfb, c6] at hpre
          rw [hfb, c5] at hkeep
          have hmem : ∀ b, Event.reopen_stdin_tty b ∈ r.trace →
              Event.reopen_stdin_tty b ∈ r1.trace := by
            intro b hb
            rw [htr] at hb
            simp only [List.mem_append, List.mem_singleton, reduceCtorEq, false_or] at hb
            rcases hb with hb | hb
            · exact absurd hb (hx2 b)
            · exact hb
          refine ⟨⟨ok, ?_⟩, ?_, ?_⟩
          · rw [htr]
            simp only [List.filter_append, List.filter_cons, List.filter_nil, hx1,
              Event.is_source, if_true, List.append_nil, List.map_cons, List.cons_append,
              List.nil_append]
            exact (List.cons_prefix_cons).mpr ⟨rfl, hpre⟩
          · intro hf
            obtain ⟨k1, k2⟩ := hkeep hf
            exact ⟨he.trans k1, fun b hb => k2 b (hmem b hb)⟩
          · intro b hb
            rw [he]
            exact hon b (hmem b hb)
      · rw [hd] at hbody
        rcases loop_run_succ sh g term fuel st r hr with
          ⟨ret1, st1, ev, hb, _, htr, he, _⟩ | ⟨st1, ev, r1, hb, _⟩
        · rw [hbody] at hb
          simp only [Step.exit.injEq] at hb
          obtain ⟨_, rfl, rfl⟩ := hb
          have hecho := dispatch_exit_echo sh g _ _ _ _ _ _ hd
          have hno : ∀ b, Event.reopen_stdin_tty b ∉ r.trace := by
            intro b hb
            rw [htr] at hb
            simp only [List.mem_append, List.mem_singleton, reduceCtorEq, false_or] at hb
            exact hx2 b hb
          refine ⟨⟨true, ?_⟩, ?_, ?_⟩
          · rw [htr]
            simp only [List.filter_append, List.filter_cons, List.filter_nil, hx1,
              Event.is_source, if_true, List.append_nil, List.map_cons, List.cons_append,
              List.nil_append]
            exact (List.cons_prefix_cons).mpr ⟨rfl, List.nil_prefix⟩
          · intro _
            exact ⟨he.trans hecho, hno⟩
          · intro b hb
            exact absurd hb (hno b)
        · rw [hbody] at hb
          cases hb
    | nil =>
      have hbody := loop_body_no_line sh g term st (fun _ => hin)
      simp only [hg, if_true] at hbody
      by_cases hfb : can_fallback g st = true
      · simp only [hfb, if_true] at hbody ⊢
        obtain ⟨e0, e1, b, st2, h0, h1, hecho, _, hcase⟩ :=
          fallback_detail term st [Event.readline none]
        obtain ⟨hs0, _⟩ := output_no_sources e0 h0
        obtain ⟨hs1, _⟩ := output_no_sources e1 h1
        rcases hcase with ⟨hf, _⟩ | ⟨hf, _, _, s1, s3, _, s6⟩
        · rw [hf] at hbody
          rcases loop_run_succ sh g term fuel st r hr with
            ⟨ret1, st1, ev, hb, _, htr, he, _⟩ | ⟨st1, ev, r1, hb, _⟩
          · rw [hbody] at hb
            simp only [Step.exit.injEq] at hb
            obtain ⟨_, rfl, rfl⟩ := hb
            refine ⟨⟨b, ?_⟩, ?_, ?_⟩
            · rw [htr]
              simp only [List.filter_append, List.filter_cons, List.filter_nil, hs0, hs1,
                Event.is_source, if_true, List.append_nil, List.map_nil, List.cons_append,
                List.nil_append]
              exact (List.cons_prefix_cons).mpr
                ⟨rfl, (List.cons_prefix_cons).mpr ⟨rfl, List.nil_prefix⟩⟩
            · intro hf0
              cases hf0
            · intro _ _
              exact he.trans hecho
          · rw [hbody] at hb
            cases hb
        · rw [hf] at hbody
          rcases loop_run_succ sh g term fuel st r hr with
            ⟨ret1, st1, ev, hb, _⟩ | ⟨st1, ev, r1, hb, hr1, _, htr, he, _⟩
          · rw [hbody] at hb
            cases hb
          · rw [hbody] at hb
            simp only [Step.next.injEq] at hb
            obtain ⟨rfl, rfl⟩ := hb
            have hfb1 : can_fallback g st2 = false := by simp [can_fallback, s3]
            obtain ⟨⟨ok, hpre⟩, hkeep, _⟩ := ih st2 r1 (by rw [s1]; exact hg) hr1
            rw [hfb1, s6] at hpre
            simp only [Bool.false_eq_true, if_false] at hpre
            obtain ⟨k1, _⟩ := hkeep hfb1
            refine ⟨⟨b, ?_⟩, ?_, ?_⟩
            · rw [htr]
              simp only [List.filter_append, List.filter_cons, List.filter_nil, hs0, hs1,
                Event.is_source, if_true, List.append_nil, List.map_nil, List.cons_append,
                List.nil_append]
              exact (List.cons_prefix_cons).mpr
                ⟨rfl, (List.cons_prefix_cons).mpr ⟨rfl, hpre⟩⟩
            · intro hf0
              cases hf0
            · intro _ _
              rw [he, k1]
              exact hecho
      · have hfb0 : can_fallback g st = false := by simpa using hfb
        simp only [hfb0, Bool.false_eq_true, if_false] at hbody ⊢
        by_cases ha : st.auto_save = true
        · simp only [ha, if_true] at hbody
          obtain ⟨extra, hplain, _, hcase⟩ :=
            dispatch_cases sh g { st with auto_save := false, get_line := false }
              "save".toList ([Event.readline none] ++ [Event.autosave]
                ++ (if st.echo_commands = true then [Event.out "save\n".toList] else []))
          obtain ⟨hx1, hx2⟩ := plain_no_sources extra hplain
          have hev : ∀ tail : List Event, (∀ b, Event.reopen_stdin_tty b ∉ tail) →
              tail.filter Event.is_source = [] →
              (([Event.readline none] ++ [Event.autosave]
                  ++ (if st.echo_commands = true then [Event.out "save\n".toList] else [])
                  ++ extra ++ tail).filter Event.is_source = [Event.readline none])
                ∧ ∀ b, Event.reopen_stdin_tty b ∉
                  [Event.readline none] ++ [Event.autosave]
                  ++ (if st.echo_commands = true then [Event.out "save\n".toList] else [])
                  ++ extra ++ tail := by
            intro tail ht1 ht2
            constructor
            · cases st.echo_commands <;>
                simp [List.filter_append, List.filter_cons, hx1, ht2, Event.is_source]
            · intro b hb
              cases hc : st.echo_commands <;> rw [hc] at hb <;>
                simp only [List.mem_append, List.mem_singleton, List.mem_cons, reduceCtorEq,
                  false_or, Bool.false_eq_true, if_false, if_true, List.not_mem_nil,
                  or_false] at hb <;>
                (rcases hb with hb | hb
                 · exact hx2 b hb
                 · exact ht1 b hb)
          rcases hcase with ⟨st2, hd, hctl⟩ | ⟨ret, st2, hd⟩
          · rw [hd] at hbody
            rcases loop_run_succ sh g term fuel st r hr with
              ⟨ret1, st1, ev, hb, _⟩ | ⟨st1, ev, r1, hb, hr1, _, htr, he, _⟩
            · rw [hbody] at hb
              cases hb
            · rw [hbody] at hb
              simp only [Step.next.injEq] at hb
              obtain ⟨rfl, rfl⟩ := hb
              simp only [LoopState.control, Prod.mk.injEq] at hctl
              obtain ⟨c1, c2, c3, c4, c5, _⟩ := hctl
              have hfb2 : can_fallback g st2 = false := by
                have : can_fallback g st2 = can_fallback g st := by
                  simp only [can_fallback, c3, c4]
                rw [this, hfb0]
              have hidle := loop_run_idle sh g term fuel st2 r1 c1 c2 hfb2 hr1
              have hidle_echo := loop_run_idle_echo sh g term fuel st2 r1 c1 c2 hfb2 hr1
              obtain ⟨hy1, hy2⟩ := plain_no_sources r1.trace hidle
              obtain ⟨hz1, hz2⟩ := hev r1.trace hy2 hy1
              rw [← htr] at hz1 hz2
              refine ⟨⟨true, ?_⟩, ?_, ?_⟩
              · rw [hz1]
                exact List.prefix_refl _
              · intro _
                exact ⟨by rw [he, hidle_echo, c5], hz2⟩
              · intro b hb
                exact absurd hb (hz2 b)
          · rw [hd] at hbody
            rcases loop_run_succ sh g term fuel st r hr with
              ⟨ret1, st1, ev, hb, _, htr, he, _⟩ | ⟨st1, ev, r1, hb, _⟩
            · rw [hbody] at hb
              simp only [Step.exit.injEq] at hb
              obtain ⟨_, rfl, rfl⟩ := hb
              have hecho := dispatch_exit_echo sh g _ _ _ _ _ _ hd
              obtain ⟨hz1, hz2⟩ := hev [] (by simp) rfl
              rw [List.append_nil, ← htr] at hz1 hz2
              refine ⟨⟨true, ?_⟩, ?_, ?_⟩
              · rw [hz1]
                exact List.prefix_refl _
              · intro _
                exact ⟨he.trans hecho, hz2⟩
              · intro b hb
                exact absurd hb (hz2 b)
            · rw [hbody] at hb
              cases hb
        · have ha0 : st.auto_save = false := by simpa using ha
          simp only [ha0, Bool.false_eq_true, if_false] at hbody
          rcases loop_run_succ sh g term fuel st r hr with
            ⟨ret1, st1, ev, hb, _, htr, he, _⟩ | ⟨st1, ev, r1, hb, _⟩
          · rw [hbody] at hb
            simp only [Step.exit.injEq] at hb
            obtain ⟨_, rfl, rfl⟩ := hb
            have hno : ∀ b, Event.reopen_stdin_tty b ∉ r.trace := by
              intro b hb
              rw [htr] at hb
              cases hc : st.echo_commands <;> rw [hc] at hb <;> simp at hb
            refine ⟨⟨true, ?_⟩, ?_, ?_⟩
            · rw [htr]
              cases st.echo_commands <;> simp [Event.is_source]
            · intro _
              exact ⟨he, hno⟩
            · intro b hb
              exact absurd hb (hno b)
          · rw [hbody] at hb
            cases hb

theorem main_loop_run {σ : Type} (sh : Shell σ) (g : Globals) (term : Terminal) (h : σ)
    (r : RunResult σ) (hr : main_loop sh g term h = some r) :
    (∃ tty, loop_run sh g term (loop_fuel term) (loop_init g term tty h) = some r)
      ∨ r.trace.all Event.is_output = true := by
  unfold main_loop at hr
  cases hf : g.inputfile with
  | none =>
    rw [hf] at hr
    exact Or.inl ⟨_, hr⟩
  | some file =>
    rw [hf] at hr
    simp only at hr
    split at hr
    · split at hr <;>
        (simp only [Option.some.injEq] at hr
         subst hr
         exact Or.inr rfl)
    · split at hr
      · simp only [Option.some.injEq] at hr
        subst hr
        exact Or.inr rfl
      · exact Or.inl ⟨_, hr⟩

theorem session_sources_reopen (term : Terminal) (ok : Bool) :
    (session_sources term ok).filter Event.is_reopen = [Event.reopen_stdin_tty ok] := by
  have hmap : ∀ ls : List (List Char),
      (ls.map (fun l => Event.readline (some l))).filter Event.is_reopen = [] := by
    intro ls
    induction ls with
    | nil => rfl
    | cons l rest ih => simp [List.filter_cons, Event.is_reopen, ih]
  simp [session_sources, List.filter_append, List.filter_cons, hmap, Event.is_reopen]

theorem filter_reopen_source (tr : List Event) :
    (tr.filter Event.is_source).filter Event.is_reopen = tr.filter Event.is_reopen := by
  induction tr with
  | nil => rfl
  | cons e rest ih =>
    cases e <;> simp [List.filter_cons, Event.is_source, Event.is_reopen, ih]

/-- C13: every run of `main_loop` returns, and the source events of its trace,
in order, form a prefix of: the lines of the input, its end, one reopening of
`stdin` on the terminal, the lines typed there, their end.  So the terminal
is reopened at most once; the end of input that follows a reopening is the last
source event of the run (what follows is the synthesized `save` or the return),
and a run that reopened the terminal ends with echo on. -/
theorem main_loop_fallback_once {σ : Type} (sh : Shell σ) (g : Globals) (term : Terminal)
    (h : σ) :
    ∃ r, main_loop sh g term h = some r
      ∧ (∃ ok, r.trace.filter Event.is_source <+: session_sources term ok)
      ∧ r.trace.countP Event.is_reopen ≤ 1
      ∧ (∀ b, Event.reopen_stdin_tty b ∈ r.trace → r.echo_commands = true) := by
  obtain ⟨r, hr⟩ := main_loop_returns sh g term h
  refine ⟨r, hr, ?_⟩
  have hcount : (∃ ok, r.trace.filter Event.is_source <+: session_sources term ok) →
      r.trace.countP Event.is_reopen ≤ 1 := by
    rintro ⟨ok, hpre⟩
    have h1 := (hpre.filter Event.is_reopen).length_le
    rw [filter_reopen_source, session_sources_reopen] at h1
    rw [List.countP_eq_length_filter]
    exact h1
  rcases main_loop_run sh g term h r hr with ⟨tty, hrun⟩ | hout
  · obtain ⟨⟨ok, hpre⟩, _, hon⟩ := loop_run_sources sh g term _ _ r rfl hrun
    have hshape : ∃ ok, r.trace.filter Event.is_source <+: session_sources term ok := by
      refine ⟨ok, hpre.trans ?_⟩
      unfold session_sources
      show _ <+: List.map (fun l => Event.readline (some l)) term.input ++ _
      refine (List.prefix_append_right_inj _).mpr ?_
      refine (List.cons_prefix_cons).mpr ⟨rfl, ?_⟩
      split
      · exact List.prefix_refl _
      · exact List.nil_prefix
    exact ⟨hshape, hcount hshape, hon⟩
  · obtain ⟨hs, hno⟩ := output_no_sources r.trace hout
    have hshape : ∃ ok, r.trace.filter Event.is_source <+: session_sources term ok :=
      ⟨true, by rw [hs]; exact List.nil_prefix⟩
    exact ⟨hshape, hcount hshape, fun b hb => absurd hb (hno b)⟩

theorem main_loop_fallback_once_witness :
    (main_loop (script_shell [0, 0, -1]) interactive_autosave piped_then_typed 0).map
        (fun r => (r.echo_commands, r.trace.filter Event.is_source))
        = some (true,
            [Event.readline (some "set /a 1".toList), Event.readline none,
             Event.reopen_stdin_tty true, Event.readline (some "set /b 2".toList),
             Event.readline none])
      ∧ interactive_autosave.echo_commands = false
      ∧ ∃ r, main_loop (script_shell [0, 0, -1]) interactive_autosave piped_then_typed 0
            = some r
          ∧ (∃ ok, r.trace.filter Event.is_source <+: session_sources piped_then_typed ok)
          ∧ r.trace.countP Event.is_reopen ≤ 1
          ∧ (∀ b, Event.reopen_stdin_tty b ∈ r.trace → r.echo_commands = true) :=
  ⟨by decide, rfl,
    main_loop_fallback_once (script_shell [0, 0, -1]) interactive_autosave piped_then_typed 0⟩

end Augtool
